import Mathlib

/-!
# pdsh: the concurrent dispatch engine (src/pdsh/dsh.c) and its lists
(src/common/list.c)

A shallow embedding of the parts of `dsh.c` that the specification talks
about: the fan-out scheduler of `dsh()`, the exit-status aggregation, the
return-code sentinel extraction of `_extract_rc`, the rcp sub-protocol
driver (`_rcp_response`, `_rcp_write`, `_rcp_sendfile`, `_rcp_thread`), the
command worker `_rsh_thread`, the watchdog `_wdog`, the interrupt handler
`_int_handler`, and the expansion of the input files (`_expand_dirs`);
and of `list.c`: the array of strings behind `list_t` with `list_push`,
`list_shift`, `list_del`, `list_test`, `list_split`, `list_join`,
`list_subtract` and `list_merge`.

Conventions.
* A C string is the list of its bytes (`List Nat`, each byte below 256, none
  of them 0); where the code writes into the string the memory is the list
  followed by its terminating NUL.
* Constants that `dsh.c` takes from headers which are not part of the
  sources at hand (`RC_MAGIC`, `RC_FAILED`, `BUFSIZ`, `_PATH_RCP`,
  `INTR_TIME`, `WDOG_POLL`) are parameters.
* `int` values are `Int`; the only place where the width of `int` matters
  is the result of `atoi`.
-/

namespace Pdsh

/-- The bytes of a string literal. -/
def bytes (s : String) : List Nat := s.toList.map Char.toNat

/-! ## Worker phases and the fan-out scheduler of `dsh()` -/

/-- The values of `thd_t.state`: NEW, CONNECTING (`DSH_RCMD`), STREAMING
(`DSH_READING`), DONE and FAILED. -/
inductive DshState
  | DSH_NEW
  | DSH_RCMD
  | DSH_READING
  | DSH_DONE
  | DSH_FAILED
deriving DecidableEq, Repr

open DshState

/-- One entry of the worker table as the scheduler sees it: the phase, and
whether the thread has been created and has not yet run its final
`threadcount--` section. -/
structure WorkerSt where
  state : DshState
  live : Bool
deriving DecidableEq, Repr

/-- The program counter of the main thread inside `dsh()`, from the launch
loop (dsh.c:1026) to the end of the drain loop (dsh.c:1055). -/
inductive MainPc
  /-- The test `i < rshcount` of the for loop; the mutex is not held. -/
  | loopTop
  /-- The mutex is held; next is the test `opt->fanout == threadcount`. -/
  | check
  /-- Blocked in the `pthread_cond_wait` of the launch loop. -/
  | waiting
  /-- The mutex is held; next is `pthread_create` for worker `i`. -/
  | create
  /-- The mutex is held, worker `i` exists; next is `threadcount++`. -/
  | incr
  /-- The mutex is held; next is the test of `while (threadcount > 0)`. -/
  | drainCheck
  /-- Blocked in the `pthread_cond_wait` of the drain loop. -/
  | drainWaiting
  /-- The drain loop has been left. -/
  | finished
deriving DecidableEq, Repr

/-- The state shared by the main thread and the workers. -/
structure Sched where
  pc : MainPc
  i : Nat
  threadcount : Int
  /-- A worker has signalled `threadcount_cond` while the main thread was
  blocked on it, and the main thread has not yet woken up. -/
  signalled : Bool
  t : List WorkerSt
deriving DecidableEq, Repr

/-- The atomic steps of an execution. -/
inductive Event
  /-- The main thread executes its next statement. -/
  | main
  /-- The `pthread_cond_wait` of the main thread returns after a signal. -/
  | wake
  /-- The `pthread_cond_wait` of the main thread returns without a signal. -/
  | spuriousWake
  /-- Worker `j` executes `a->state = DSH_RCMD`. -/
  | connect (j : Nat)
  /-- Worker `j`, connected, executes `a->state = DSH_READING`. -/
  | connected (j : Nat)
  /-- Worker `j` executes `a->state = result`. -/
  | finish (j : Nat) (ok : Bool)
  /-- Worker `j` runs `lock; threadcount--; signal; unlock`. -/
  | exit (j : Nat)
deriving DecidableEq, Repr

/-- The state in which `dsh()` reaches the launch loop with `rshcount`
hosts: every entry NEW (dsh.c:994), `threadcount` 0. -/
def Sched.init (rshcount : Nat) : Sched :=
  { pc := .loopTop, i := 0, threadcount := 0, signalled := false,
    t := List.replicate rshcount ⟨DSH_NEW, false⟩ }

/-- Whether the main thread is outside its critical sections, so that a
worker can take `threadcount_mutex`. -/
def Sched.mutexFree (s : Sched) : Bool :=
  match s.pc with
  | .loopTop | .waiting | .drainWaiting => true
  | _ => false

/-- Whether the main thread is blocked on `threadcount_cond`. -/
def Sched.blocked (s : Sched) : Bool :=
  match s.pc with
  | .waiting | .drainWaiting => true
  | _ => false

/-- The return of `pthread_cond_wait`: the launch loop goes on to create
the thread (the wait sits under an `if`), the drain loop re-tests its
`while` condition. -/
def wakeUp (s : Sched) : Option Sched :=
  match s.pc with
  | .waiting => some { s with pc := .create, signalled := false }
  | .drainWaiting => some { s with pc := .drainCheck, signalled := false }
  | _ => none

/-- One statement of the main thread (dsh.c:1026-1055) with fan-out `F`. -/
def mainStep (F : Int) (s : Sched) : Option Sched :=
  match s.pc with
  | .loopTop =>
      if s.i < s.t.length then some { s with pc := .check }
      else some { s with pc := .drainCheck }
  | .check =>
      if F = s.threadcount then some { s with pc := .waiting, signalled := false }
      else some { s with pc := .create }
  | .create =>
      some { s with pc := .incr, t := s.t.modify (fun w => { w with live := true }) s.i }
  | .incr =>
      some { s with pc := .loopTop, threadcount := s.threadcount + 1, i := s.i + 1 }
  | .drainCheck =>
      if s.threadcount > 0 then some { s with pc := .drainWaiting, signalled := false }
      else some { s with pc := .finished }
  | .waiting | .drainWaiting | .finished => none

/-- One step of a worker thread (`_rsh_thread` / `_rcp_thread`). -/
def workerStep (s : Sched) (j : Nat) (f : WorkerSt → Option WorkerSt) : Option Sched :=
  match s.t[j]? with
  | none => none
  | some w =>
      if w.live then
        match f w with
        | some w' => some { s with t := s.t.set j w' }
        | none => none
      else none

/-- One atomic step; `none` when the event is not enabled in the state. -/
def step (F : Int) (s : Sched) : Event → Option Sched
  | .main => mainStep F s
  | .wake => if s.signalled then wakeUp s else none
  | .spuriousWake => wakeUp s
  | .connect j =>
      workerStep s j fun w =>
        if w.state = DSH_NEW then some { w with state := DSH_RCMD } else none
  | .connected j =>
      workerStep s j fun w =>
        if w.state = DSH_RCMD then some { w with state := DSH_READING } else none
  | .finish j ok =>
      workerStep s j fun w =>
        if w.state = DSH_READING then
          some { w with state := if ok then DSH_DONE else DSH_FAILED }
        else if w.state = DSH_RCMD ∧ ok = false then some { w with state := DSH_FAILED }
        else none
  | .exit j =>
      if s.mutexFree then
        match workerStep s j fun w =>
            if w.state = DSH_DONE ∨ w.state = DSH_FAILED then some { w with live := false }
            else none with
        | some s' =>
            some { s' with threadcount := s'.threadcount - 1,
                           signalled := s'.signalled || s'.blocked }
        | none => none
      else none

/-- Run a sequence of events; `none` when one of them is not enabled. -/
def run (F : Int) : Sched → List Event → Option Sched
  | s, [] => some s
  | s, e :: es =>
      match step F s e with
      | some s' => run F s' es
      | none => none

/-- The number of workers in CONNECTING or STREAMING. -/
def Sched.active (s : Sched) : Nat :=
  s.t.countP fun w => w.state = DSH_RCMD ∨ w.state = DSH_READING

/-- The number of worker threads that exist and have not yet given back
their slot. -/
def Sched.liveCount (s : Sched) : Nat :=
  s.t.countP fun w => w.live

/-- The invariant of the scheduler in executions without spurious
wake-ups. -/
structure SchedInv (F : Int) (s : Sched) : Prop where
  live_eq : (s.liveCount : Int) = s.threadcount + (if s.pc = .incr then 1 else 0)
  active_live : ∀ w ∈ s.t, (w.state = DSH_RCMD ∨ w.state = DSH_READING) → w.live = true
  fresh : ∀ j w, s.i + (if s.pc = .incr then 1 else 0) ≤ j → s.t[j]? = some w → w.live = false
  bound : s.pc = .check ∨ s.pc = .waiting ∨ s.pc = .create ∨ s.pc = .incr → s.i < s.t.length
  tc_le : s.threadcount ≤ F
  tc_lt : s.pc = .create ∨ s.pc = .incr ∨ (s.pc = .waiting ∧ s.signalled = true) →
    s.threadcount < F

/-- An execution of `dsh()` with two hosts and fan-out 1 in which the
admission wait returns without a worker having exited. -/
def spuriousTrace : List Event :=
  [.main, .main, .main, .main, .connect 0, .main, .main, .spuriousWake,
   .main, .main, .connect 1]

/-! ## Exit status aggregation (dsh.c:1060-1068) -/

/-- The fields of `thd_t` that the final loop of `dsh()` reads. -/
structure thd_t where
  state : DshState
  rc : Int
deriving DecidableEq, Repr

/-- One iteration of the loop at dsh.c:1062: a FAILED entry sets `rc` to
`RC_FAILED`, then a larger `t[i].rc` replaces `rc`. -/
def statusStep (RC_FAILED : Int) (rc : Int) (w : thd_t) : Int :=
  let rc1 := if w.state = DSH_FAILED then RC_FAILED else rc
  if w.rc > rc1 then w.rc else rc1

/-- The value `dsh()` returns: `rc` starts at 0 and is only touched when
`opt->getstat` is set (option -S). -/
def dsh_status (RC_FAILED : Int) (getstat : Bool) (t : List thd_t) : Int :=
  if getstat then t.foldl (statusStep RC_FAILED) 0 else 0

/-! ## C strings and the libc functions used by `_extract_rc` -/

/-- The C string that starts at offset `p` of a memory area: the bytes up
to the first NUL. -/
def cstrAt (mem : List Nat) (p : Nat) : List Nat :=
  (mem.drop p).takeWhile (fun b => b != 0)

/-- The libc `strstr` on C strings: offset of the first occurrence of
`needle` in `hay`, `none` for a NULL result. -/
def strstr : List Nat → List Nat → Option Nat
  | [], needle => if needle.isPrefixOf [] then some 0 else none
  | b :: hay, needle =>
      if needle.isPrefixOf (b :: hay) then some 0
      else (strstr hay needle).map (· + 1)

/-- The libc `isspace` in the C locale. -/
def isspace (b : Nat) : Bool :=
  b == 32 || (9 ≤ b && b ≤ 13)

/-- The libc `isdigit`. -/
def isdigit (b : Nat) : Bool :=
  48 ≤ b && b ≤ 57

/-- The value of the longest run of decimal digits at the head of `s`,
continuing from `acc`. -/
def digitsValue : Nat → List Nat → Nat
  | acc, [] => acc
  | acc, b :: s => if isdigit b then digitsValue (10 * acc + (b - 48)) s else acc

/-- The conversion of a `long` to `int` on an LP64 platform: the low 32
bits, read as two's complement. -/
def toInt32 (v : Int) : Int :=
  let r := v % 4294967296
  if r < 2147483648 then r else r - 4294967296

/-- The optional sign in front of the digits: whether it is a minus, and
the text after it. -/
def strtolSign : List Nat → Bool × List Nat
  | 45 :: r => (true, r)
  | 43 :: r => (false, r)
  | s => (false, s)

/-- The libc `strtol(s, NULL, 10)` with a 64-bit `long`: white space, an
optional sign, decimal digits; the value saturates at `LONG_MIN` and
`LONG_MAX`. -/
def strtol (s : List Nat) : Int :=
  let r := strtolSign (s.dropWhile isspace)
  let v : Int := digitsValue 0 r.2
  if r.1 then max (-v) (-9223372036854775808) else min v 9223372036854775807

/-- The libc `atoi`, which is `(int) strtol(s, NULL, 10)`; its result is an
`int`, hence always in the range of 32 bits. -/
def atoi (s : List Nat) : Int :=
  toInt32 (strtol s)

/-! ## `_extract_rc` (dsh.c:688-702) -/

/-- The function `_extract_rc` on the buffer `buf` (a C string, stored with
its terminating NUL): the returned `int`, and the C string left in the
buffer. `RC_MAGIC` is the macro of dsh.h.

With `p` the result of `strstr`: when the buffer ends in a newline and
`p != buf`, `*p++ = '\n'` stores a newline and advances `p`; then
`*p = '\0'`, `p += strlen(RC_MAGIC)`, `ret = atoi(p)`. -/
def _extract_rc (RC_MAGIC : List Nat) (buf : List Nat) : Int × List Nat :=
  match strstr buf RC_MAGIC with
  | none => (0, buf)
  | some p0 =>
      let mem := buf ++ [0]
      let nl : Bool := buf.getLast? == some 10 && p0 != 0
      let mem1 := if nl then mem.set p0 10 else mem
      let p1 := if nl then p0 + 1 else p0
      let mem2 := mem1.set p1 0
      let p2 := p1 + RC_MAGIC.length
      (atoi (cstrAt mem2 p2), cstrAt mem2 0)

/-! ## The stdout branch of the loop of `_rsh_thread` (dsh.c:805-823) -/

/-- What one pass through the stdout branch does with the line `buf` that
`xfgets` delivered: `a->rc` afterwards, and the text handed to `out`
(`none` when nothing is printed). Both `if`s test `strlen(buf) > 0`, the
second one after `_extract_rc` has truncated the buffer. -/
def stdoutLine (RC_MAGIC : List Nat) (rc : Int) (buf : List Nat) : Int × Option (List Nat) :=
  if buf.length > 0 then
    let r := _extract_rc RC_MAGIC buf
    (r.1, if r.2.length > 0 then some r.2 else none)
  else (rc, none)

/-- The stdout branch over the successive lines of a worker, from the
`a->rc` and the output so far: the final `a->rc` and everything handed to
`out`, in order. -/
def stdoutLoop (RC_MAGIC : List Nat) : Int × List (List Nat) → List (List Nat) → Int × List (List Nat)
  | acc, [] => acc
  | (rc, emitted), buf :: rest =>
      let r := stdoutLine RC_MAGIC rc buf
      stdoutLoop RC_MAGIC (r.1, match r.2 with | some o => emitted ++ [o] | none => emitted) rest

/-- The stdout lines of a worker processed from the initial `t[i].rc = 0`
(dsh.c:1000). -/
def rshStdout (RC_MAGIC : List Nat) (lines : List (List Nat)) : Int × List (List Nat) :=
  stdoutLoop RC_MAGIC (0, []) lines

/-! ## The connection and the files of a copy worker -/

/-- The steps of the rcp dialogue, as the driver takes them. -/
inductive Act
  /-- A metadata line handed to `_rcp_sendstr`. -/
  | str (line : List Nat)
  /-- A chunk of file contents handed to `_rcp_write` by
  `_rcp_send_file_data`. -/
  | data (chunk : List Nat)
  /-- The NUL byte of step 6 of `_rcp_sendfile`. -/
  | nul
  /-- A call of `_rcp_response`, with the value it returned. -/
  | response (result : Int)
deriving DecidableEq, Repr

/-- The socket of a copy worker, seen from `dsh.c`. -/
structure Conn where
  /-- The bytes the peer sends that have not been read yet. -/
  inp : List Nat
  /-- The bytes that `write` has accepted so far. -/
  out : List Nat
  /-- The results of the coming calls of `write`: a value `r > 0` accepts
  `min r n` of the `n` bytes offered, a value `r <= 0` is returned as it is.
  When the list is used up `write` accepts all it is offered. -/
  wres : List Int
  /-- The steps of the dialogue taken so far. -/
  acts : List Act
  /-- The remote error messages reported through `err` so far. -/
  errs : List (List Nat)
deriving DecidableEq, Repr

/-- The fields of `struct stat` that `_rcp_sendfile` reads. -/
structure Stat where
  st_mode : Nat
  st_size : Int
  st_atime : Int
  st_mtime : Int
deriving DecidableEq, Repr

/-- A file as `_rcp_sendfile` meets it: the result of `stat`, and what
`open` and the successive calls of `read` deliver. -/
structure File where
  sb : Stat
  /-- For `none` the call of `open` fails. Otherwise the results of the
  successive calls of `read`: `none` is an error, `some chunk` the bytes
  delivered; after the last entry `read` returns 0 (end of file). -/
  reads : Option (List (Option (List Nat)))
deriving DecidableEq, Repr

/-- The file system: `none` where `stat` fails. -/
abbrev FS := List Nat → Option File

/-- The bytes of a file that is read without error. -/
def File.contents (f : File) : List Nat :=
  match f.reads with
  | none => []
  | some rs => (rs.map fun r => r.getD []).flatten

/-- The POSIX file type tests on `st_mode`. -/
def S_ISDIR (m : Nat) : Bool := m &&& 0o170000 == 0o040000

/-- The POSIX test for a regular file. -/
def S_ISREG (m : Nat) : Bool := m &&& 0o170000 == 0o100000

/-- The macro `RCP_MODEMASK` (dsh.c:498),
`S_ISUID|S_ISGID|S_ISVTX|S_IRWXU|S_IRWXG|S_IRWXO`. -/
def RCP_MODEMASK : Nat := 0o4000 ||| 0o2000 ||| 0o1000 ||| 0o700 ||| 0o070 ||| 0o007

/-! ## `sprintf` conversions -/

/-- The digits of `n` in base `base`, most significant first, as ASCII
codes, in front of `acc`. -/
def digitsCore (base : Nat) : Nat → Nat → List Nat → List Nat
  | 0, _, acc => acc
  | fuel + 1, n, acc =>
      let acc1 := (48 + n % base) :: acc
      if n / base = 0 then acc1 else digitsCore base fuel (n / base) acc1

/-- The conversion of an unsigned value without padding. -/
def fmtNat (base n : Nat) : List Nat := digitsCore base (n + 1) n []

/-- The conversion `%04o`: octal, padded with zeros to at least four
digits. -/
def fmtOct04 (n : Nat) : List Nat :=
  let d := fmtNat 8 n
  List.replicate (4 - d.length) 48 ++ d

/-- The conversions `%d`, `%ld` and `%lld`. -/
def fmtDec (v : Int) : List Nat :=
  if v < 0 then 45 :: fmtNat 10 (-v).toNat else fmtNat 10 v.toNat

/-- Modelled from the spec: `xbasename` (xstring.c) is not among the
sources; the spec names its result the basename of the path, the part
after the last slash. -/
def xbasename (path : List Nat) : List Nat :=
  (path.splitOn 47).getLast?.getD path

/-- The line of step 1, `sprintf(tmpstr, "T%ld %ld %ld %ld\n", ...)`. -/
def lineT (sb : Stat) : List Nat :=
  84 :: fmtDec sb.st_atime ++ 32 :: fmtDec 0 ++ 32 :: fmtDec sb.st_mtime ++ 32 :: fmtDec 0 ++ [10]

/-- The line of step 3a, `sprintf(tmpstr, "D%04o %d %s\n", ...)`. -/
def lineD (sb : Stat) (file : List Nat) : List Nat :=
  68 :: fmtOct04 (sb.st_mode &&& RCP_MODEMASK) ++ 32 :: fmtDec 0 ++ 32 :: xbasename file ++ [10]

/-- The line of step 3b, `sprintf(tmpstr, "C%04o %lld %s\n", ...)`. -/
def lineC (sb : Stat) (file : List Nat) : List Nat :=
  67 :: fmtOct04 (sb.st_mode &&& RCP_MODEMASK) ++ 32 :: fmtDec sb.st_size ++ 32 :: xbasename file ++ [10]

/-! ## `_rcp_response` (dsh.c:467-496) -/

/-- The loop `for (; i < BUFSIZ; i++)` of `_rcp_response`, from index `i`
on the input `inp`: the final `i`, the input left, and the stores
`errstr[i] = b` made by the successful reads, in order. -/
def readErrstr (BUFSIZ : Nat) : Nat → List Nat → List (Nat × Nat) → Nat × List Nat × List (Nat × Nat)
  | i, [], ws => (i, [], ws)
  | i, b :: rest, ws =>
      if i < BUFSIZ then
        if b = 10 then (i, rest, ws ++ [(i, b)])
        else readErrstr BUFSIZ (i + 1) rest (ws ++ [(i, b)])
      else (i, b :: rest, ws)

/-- What a call of `_rcp_response` does. -/
structure Response where
  /-- The value returned. -/
  result : Int
  /-- The input that has not been read. -/
  rest : List Nat
  /-- The stores into `errstr`, as pairs of index and byte, in order; the
  last one is the terminating NUL. -/
  stores : List (Nat × Nat)
  /-- The message given to `err`, if any. -/
  msg : Option (List Nat)
deriving DecidableEq, Repr

/-- The body of `_rcp_response` on the bytes `inp` that the peer sends.
`result` starts at -1; a first byte 0 sets it to 0; for every other first
byte the message is read and `if (resp != 1) result = 0` is executed. -/
def rcpResponse (BUFSIZ : Nat) : List Nat → Response
  | [] => { result := -1, rest := [], stores := [], msg := none }
  | resp :: inp =>
      if resp = 0 then { result := 0, rest := inp, stores := [], msg := none }
      else
        let first : List (Nat × Nat) := if resp = 1 ∨ resp = 2 then [] else [(0, resp)]
        let r := readErrstr BUFSIZ first.length inp first
        let i := r.1
        { result := if resp ≠ 1 then 0 else -1,
          rest := r.2.1,
          stores := r.2.2 ++ [(i, 0)],
          msg := some (cstrAt ((r.2.2.map Prod.snd).take i ++ [0]) 0) }

/-- The function `_rcp_response` on a connection. -/
def _rcp_response (BUFSIZ : Nat) (c : Conn) : Int × Conn :=
  let r := rcpResponse BUFSIZ c.inp
  (r.result, { c with inp := r.rest,
                      acts := c.acts ++ [.response r.result],
                      errs := match r.msg with
                              | some m => c.errs ++ [m]
                              | none => c.errs })

/-! ## `_rcp_write`, `_rcp_sendstr`, `_rcp_send_file_data` -/

/-- The loop of `_rcp_write` (dsh.c:390-399) over the coming results of
`write`, with `rem` the unwritten suffix. `none` stands for the failure of
`assert(outbytes != 0)`, which ends the process. -/
def rcpWriteLoop (size : Int) : List Int → Conn → List Nat → Option (Int × Conn)
  | wres, c, [] => some (size, { c with wres := wres })
  | [], c, rem => some (size, { c with wres := [], out := c.out ++ rem })
  | r :: wres, c, b :: rem =>
      if r < 0 then some (-1, { c with wres := wres })
      else if r = 0 then none
      else rcpWriteLoop size wres { c with out := c.out ++ (b :: rem).take r.toNat }
             ((b :: rem).drop r.toNat)

/-- The function `_rcp_write`: -1 on failure, `size` on success. -/
def _rcp_write (c : Conn) (buf : List Nat) : Option (Int × Conn) :=
  rcpWriteLoop buf.length c.wres c buf

/-- The function `_rcp_sendstr` (dsh.c:449-459): the two assertions, then
the string is written; -1 on failure, 0 on success. -/
def _rcp_sendstr (c : Conn) (str : List Nat) : Option (Int × Conn) :=
  if str.length > 0 ∧ str.getLast? = some 10 then
    match _rcp_write { c with acts := c.acts ++ [.str str] } str with
    | none => none
    | some (r, c1) => if r < 0 then some (-1, c1) else some (0, c1)
  else none

/-- The loop `do ... while (inbytes > 0)` of `_rcp_send_file_data` over
the results of the successive calls of `read`. -/
def sendFileLoop : List (Option (List Nat)) → Conn → Option (Int × Conn)
  | [], c => some (0, c)
  | none :: _, c => some (-1, c)
  | some chunk :: reads, c =>
      if chunk.length > 0 then
        match _rcp_write { c with acts := c.acts ++ [.data chunk] } chunk with
        | none => none
        | some (r, c1) => if r < 0 then some (-1, c1) else sendFileLoop reads c1
      else some (0, c)

/-- The function `_rcp_send_file_data` (dsh.c:410-438): -1 on failure, 0
on success. -/
def _rcp_send_file_data (c : Conn) (f : File) : Option (Int × Conn) :=
  match f.reads with
  | none => some (-1, c)
  | some reads => sendFileLoop reads c

/-! ## `_rcp_sendfile` (dsh.c:500-573) and `_rcp_thread` (dsh.c:597-682) -/

/-- The pattern `if (... < 0) goto fail;` of `_rcp_sendfile`: a negative
result of the step ends the function with `result` still 0. -/
def orFail (x : Option (Int × Conn)) (k : Conn → Option (Int × Conn)) : Option (Int × Conn) :=
  match x with
  | none => none
  | some (r, c) => if r < 0 then some (0, c) else k c

/-- Steps 3 to 7 of `_rcp_sendfile` (dsh.c:529-567): the D or C line, its
response, and for a regular file the data, the NUL byte and the last
response. -/
def sendfileBody (BUFSIZ : Nat) (f : File) (file : List Nat) (c2 : Conn) :
    Option (Int × Conn) :=
  orFail (_rcp_sendstr c2 (if S_ISDIR f.sb.st_mode then lineD f.sb file
                           else lineC f.sb file)) fun c3 =>
  orFail (some (_rcp_response BUFSIZ c3)) fun c4 =>
  if S_ISREG f.sb.st_mode then
    orFail (_rcp_send_file_data c4 f) fun c5 =>
    orFail (_rcp_write { c5 with acts := c5.acts ++ [.nul] } [0]) fun c6 =>
    orFail (some (_rcp_response BUFSIZ c6)) fun c7 => some (1, c7)
  else some (1, c4)

/-- The function `_rcp_sendfile`: 1 on success, 0 on failure. With `popt`
the T line and its response come first (dsh.c:514-527), and a failure of
either ends the function. The buffer `tmpstr` is taken to be large enough
for the lines. -/
def _rcp_sendfile (BUFSIZ : Nat) (fs : FS) (c : Conn) (file : List Nat) (popt : Bool) :
    Option (Int × Conn) :=
  match fs file with
  | none => some (0, c)
  | some f =>
      if popt then
        orFail (_rcp_sendstr c (lineT f.sb)) fun c1 =>
        orFail (some (_rcp_response BUFSIZ c1)) fun c2 =>
        sendfileBody BUFSIZ f file c2
      else sendfileBody BUFSIZ f file c

/-- The loop `for (i = 0; i < list_length(a->pcp_infiles); i++)` of
`_rcp_thread`; the value of `_rcp_sendfile` is not looked at. -/
def sendFiles (BUFSIZ : Nat) (fs : FS) (popt : Bool) : Conn → List (List Nat) → Option Conn
  | c, [] => some c
  | c, file :: files =>
      match _rcp_sendfile BUFSIZ fs c file popt with
      | none => none
      | some (_, c1) => sendFiles BUFSIZ fs popt c1 files

/-- The function `_rcp_thread` from the return of the transport on:
`conn` is `none` when `a->fd == -1`. The value is the final `a->state`
and the connection as it is closed; `none` when an assertion ended the
process. -/
def _rcp_thread (BUFSIZ : Nat) (fs : FS) (conn : Option Conn) (infiles : List (List Nat))
    (popt : Bool) : Option (DshState × Option Conn) :=
  match conn with
  | none => some (DSH_FAILED, none)
  | some c =>
      let r := _rcp_response BUFSIZ c
      if r.1 ≥ 0 then
        match sendFiles BUFSIZ fs popt r.2 infiles with
        | none => none
        | some c1 => some (DSH_DONE, some c1)
      else some (DSH_DONE, some r.2)

/-- A connection on which nothing has happened yet: the peer will send
`inp`, and the calls of `write` will return `wres`. -/
def Conn.fresh (inp : List Nat) (wres : List Int) : Conn :=
  { inp := inp, out := [], wres := wres, acts := [], errs := [] }

/-- A regular file whose contents `read` delivers in the given chunks. -/
def regularFile (perm : Nat) (atime mtime : Int) (chunks : List (List Nat)) : File :=
  { sb := { st_mode := 0o100000 ||| perm, st_size := chunks.flatten.length,
            st_atime := atime, st_mtime := mtime },
    reads := some (chunks.map some) }

/-- A small tree: the directory `/dir` with the file `x` in it, and the
file `/b` next to it. -/
def demoFS : FS := fun path =>
  if path = bytes "/dir" then
    some { sb := { st_mode := 0o040755, st_size := 4096, st_atime := 10, st_mtime := 20 },
           reads := none }
  else if path = bytes "/dir/x" then some (regularFile 0o644 11 21 [bytes "hi"])
  else if path = bytes "/b" then some (regularFile 0o600 12 22 [bytes "z"])
  else none

/-- The input list `[/dir, /b]` after expansion. -/
def demoFiles : List (List Nat) := [bytes "/dir", bytes "/dir/x", bytes "/b"]

/-- The byte stream a copy worker sends once the transport is open, when
the peer sends `inp` and no `write` falls short. -/
def rcpStream (BUFSIZ : Nat) (fs : FS) (inp : List Nat) (infiles : List (List Nat))
    (popt : Bool) : Option (List Nat) :=
  match _rcp_thread BUFSIZ fs (some (Conn.fresh inp [])) infiles popt with
  | some (_, some c) => some c.out
  | _ => none

/-- The metadata line of a step of the dialogue, if it is one. -/
def Act.line? : Act → Option (List Nat)
  | .str line => some line
  | _ => none

/-- The metadata lines a copy worker sends once the transport is open, in
order, when the peer sends `inp` and the calls of `write` return `wres`. -/
def rcpLines (BUFSIZ : Nat) (fs : FS) (inp : List Nat) (wres : List Int)
    (infiles : List (List Nat)) (popt : Bool) : List (List Nat) :=
  match _rcp_thread BUFSIZ fs (some (Conn.fresh inp wres)) infiles popt with
  | some (_, some c) => c.acts.filterMap Act.line?
  | _ => []

/-- A step of the dialogue that is not a metadata line, or is one that
begins with `T`, `D` or `C`. -/
def Act.allowed : Act → Prop
  | .str line => line.head? = some 84 ∨ line.head? = some 68 ∨ line.head? = some 67
  | _ => True

/-- Every step that `c1` has and `c` has not is an allowed one. -/
def Pres (c c1 : Conn) : Prop :=
  ∀ a ∈ c1.acts, a ∈ c.acts ∨ a.allowed

/-! ## Occurrences of a substring -/

/-- The string `needle` stands at offset `p` of `hay`. -/
def OccursAt (needle hay : List Nat) (p : Nat) : Prop :=
  p ≤ hay.length ∧ needle <+: hay.drop p

/-- The first occurrence of `needle` in `hay` is at offset `p`. -/
def FirstOccAt (needle hay : List Nat) (p : Nat) : Prop :=
  OccursAt needle hay p ∧ ∀ q, q < p → ¬ OccursAt needle hay q

/-! ## The remote command of a copy worker (dsh.c:606-615) -/

/-- Modelled from the spec: `xstrcat` (xstring.c) is not among the
sources; the spec has the command put together piece by piece as
`rcp [-r] [-p] [-d] -t <target>`, so `xstrcat(&cmd, s)` is taken to append
`s` to the string `cmd`, a NULL `cmd` standing for no text yet. -/
def xstrcat (cmd : Option (List Nat)) (s : List Nat) : Option (List Nat) :=
  some (cmd.getD [] ++ s)

/-- The construction of the remote rcp command at the head of
`_rcp_thread`, from `cmd = NULL`. `_PATH_RCP` is a macro of a header that
is not among the sources. -/
def rcpCommand (_PATH_RCP : List Nat) (pcp_ropt pcp_popt : Bool)
    (pcp_infiles : List (List Nat)) (pcp_outfile : List Nat) : Option (List Nat) :=
  let cmd0 : Option (List Nat) := none
  let cmd1 := xstrcat cmd0 _PATH_RCP
  let cmd2 := if pcp_ropt then xstrcat cmd1 (bytes " -r") else cmd1
  let cmd3 := if pcp_popt then xstrcat cmd2 (bytes " -p") else cmd2
  let cmd4 := if pcp_infiles.length > 1 then xstrcat cmd3 (bytes " -d") else cmd3
  let cmd5 := xstrcat cmd4 (bytes " -t ")
  xstrcat cmd5 pcp_outfile

/-! ## The watchdog `_wdog` (dsh.c:291-321) -/

/-- The fields of `thd_t` that the watchdog reads. -/
structure WdogEntry where
  state : DshState
  start : Int
  connect : Int
deriving DecidableEq, Repr

/-- The body of the `switch` in `_wdog` for one entry, with `now` the
value of `time(NULL)`: whether `pthread_kill(t[i].thread, SIGALRM)` is
called. -/
def wdogKills (connect_timeout command_timeout : Int) (now : Int) (w : WdogEntry) : Bool :=
  match w.state with
  | DSH_RCMD =>
      if connect_timeout > 0 then
        if w.start + connect_timeout < now then true else false
      else false
  | DSH_READING =>
      if command_timeout > 0 ∧ w.connect + command_timeout < now then true else false
  | DSH_NEW | DSH_DONE | DSH_FAILED => false

/-- The loop `for (i = 0; t[i].host != NULL; i++)` of `_wdog` from index
`i` on: the value of `i` when the loop ends, and the indices of the
workers that were sent SIGALRM. `now j` is the value of `time(NULL)` when
entry `j` is looked at. -/
def wdogScan (connect_timeout command_timeout : Int) (now : Nat → Int) :
    Nat → List WdogEntry → Nat × List Nat
  | i, [] => (i, [])
  | i, w :: rest =>
      let r := wdogScan connect_timeout command_timeout now (i + 1) rest
      (r.1, if wdogKills connect_timeout command_timeout (now i) w then i :: r.2 else r.2)

/-- The argument of `sleep` at the end of a pass of `_wdog`, with `i` as
the scan has left it: `i == 0 ? connect_timeout : WDOG_POLL`. -/
def wdogSleep (connect_timeout WDOG_POLL : Int) (i : Nat) : Int :=
  if i = 0 then connect_timeout else WDOG_POLL

/-- The arguments of the successive calls of `sleep` in `_wdog`, one for
each pass of `for (;;)`; `tables` holds the worker table as each pass
finds it. -/
def wdogSleeps (connect_timeout command_timeout WDOG_POLL : Int) (now : Nat → Int) :
    List (List WdogEntry) → List Int
  | [] => []
  | t :: tables =>
      wdogSleep connect_timeout WDOG_POLL (wdogScan connect_timeout command_timeout now 0 t).1
        :: wdogSleeps connect_timeout command_timeout WDOG_POLL now tables

/-! ## The interrupt handler (dsh.c:155-271) -/

/-- The values of `thd_t.rcmd_type`. -/
inductive RcmdType
  | RCMD_BSD
  | RCMD_K4
  | RCMD_QSHELL
  | RCMD_SSH
deriving DecidableEq, Repr

open RcmdType

/-- The switches of config.h that decide which transports are compiled
in. -/
structure BuildConfig where
  HAVE_KRB4 : Bool
  HAVE_ELAN : Bool
  HAVE_SSH : Bool
deriving DecidableEq, Repr

/-- The fields of `thd_t` that the signal handlers read. -/
structure SigEntry where
  state : DshState
  rcmd_type : RcmdType
  efd : Int
deriving DecidableEq, Repr

/-- A call of a transport's signal function. -/
inductive FwdCall
  | xrcmd_signal (efd signum : Int)
  | k4cmd_signal (efd signum : Int)
  | qcmd_signal (efd signum : Int)
deriving DecidableEq, Repr

/-- The `switch (t[i].rcmd_type)` of `_fwd_signal` for an entry in
`DSH_READING`: the call made, if any, and whether the `default` branch
ended the process through `errx`. -/
def fwdOne (cfg : BuildConfig) (signum : Int) (w : SigEntry) : Option FwdCall × Bool :=
  match w.rcmd_type with
  | RCMD_BSD => (some (.xrcmd_signal w.efd signum), false)
  | RCMD_K4 => if cfg.HAVE_KRB4 then (some (.k4cmd_signal w.efd signum), false) else (none, true)
  | RCMD_QSHELL => if cfg.HAVE_ELAN then (some (.qcmd_signal w.efd signum), false) else (none, true)
  | RCMD_SSH => if cfg.HAVE_SSH then (none, false) else (none, true)

/-- The function `_fwd_signal`: the calls of the transports' signal
functions, in order, and whether `errx` cut the loop short. -/
def _fwd_signal (cfg : BuildConfig) (signum : Int) : List SigEntry → List FwdCall × Bool
  | [] => ([], false)
  | w :: rest =>
      if w.state = DSH_READING then
        match fwdOne cfg signum w with
        | (call, true) => (call.toList, true)
        | (call, false) =>
            let r := _fwd_signal cfg signum rest
            (call.toList ++ r.1, r.2)
      else _fwd_signal cfg signum rest

/-- The function `_list_slowthreads`: the entries, by index, for which a
line is printed. Workers in `DSH_READING` and `DSH_RCMD` are always
listed, the others only with `debug` set. -/
def _list_slowthreads (debug : Bool) : Nat → List SigEntry → List (Nat × DshState)
  | _, [] => []
  | i, w :: rest =>
      let more := _list_slowthreads debug (i + 1) rest
      match w.state with
      | DSH_READING | DSH_RCMD => (i, w.state) :: more
      | DSH_NEW | DSH_FAILED | DSH_DONE => if debug then (i, w.state) :: more else more

/-- What a call of `_int_handler` does. -/
inductive IntrOutcome
  /-- The notice is printed, `last_intr` is set and the workers are
  listed. -/
  | listed (last_intr : Int) (lines : List (Nat × DshState))
  /-- The signal is forwarded and `errx` ends the process. -/
  | aborted (calls : List FwdCall)
deriving DecidableEq, Repr

/-- The function `_int_handler` with the static `last_intr` as it stands;
`now1` and `now2` are the values of its two calls of `time(NULL)`. -/
def _int_handler (cfg : BuildConfig) (INTR_TIME : Int) (debug : Bool) (signum : Int)
    (last_intr : Int) (now1 now2 : Int) (t : List SigEntry) : IntrOutcome :=
  if now1 - last_intr > INTR_TIME then
    .listed now2 (_list_slowthreads debug 0 t)
  else
    .aborted (_fwd_signal cfg signum t).1

/-- A sequence of interrupts, from `last_intr` on: the outcome of each,
up to and with the one that ends the process. Every interrupt comes with
its two clock readings and the worker table of its moment. -/
def intrRun (cfg : BuildConfig) (INTR_TIME : Int) (debug : Bool) (signum : Int) :
    Int → List (Int × Int × List SigEntry) → List IntrOutcome
  | _, [] => []
  | last_intr, (now1, now2, t) :: rest =>
      match _int_handler cfg INTR_TIME debug signum last_intr now1 now2 t with
      | .listed l lines => .listed l lines :: intrRun cfg INTR_TIME debug signum l rest
      | .aborted calls => [.aborted calls]

/-- Whether the transport of the entry is one that `dsh()` accepts with
this build (the `switch` at the head of `dsh()`). -/
def BuildConfig.knows (cfg : BuildConfig) : RcmdType → Bool
  | RCMD_BSD => true
  | RCMD_K4 => cfg.HAVE_KRB4
  | RCMD_QSHELL => cfg.HAVE_ELAN
  | RCMD_SSH => cfg.HAVE_SSH

/-- The calls that forward `signum` to the STREAMING workers of the table
whose transport has a signal function: every transport but ssh. -/
def expectedForwards (signum : Int) (t : List SigEntry) : List FwdCall :=
  t.filterMap fun w =>
    if w.state = DSH_READING then
      match w.rcmd_type with
      | RCMD_BSD => some (.xrcmd_signal w.efd signum)
      | RCMD_K4 => some (.k4cmd_signal w.efd signum)
      | RCMD_QSHELL => some (.qcmd_signal w.efd signum)
      | RCMD_SSH => none
    else none

/-! ## The command worker `_rsh_thread` (dsh.c:708-870) -/

/-- What one pass of the select loop of `_rsh_thread` meets. -/
inductive SelectEv
  /-- The call of `select` returns -1 with `errno == EINTR`. -/
  | eintr
  /-- The call of `select` returns -1 with another `errno`. -/
  | error
  /-- The call of `select` returns a set of readable descriptors. `out` is
  `some (rv, buf)` when `a->fd` is in the set and `xfgets(&buf, fp)` then
  returns `rv` and leaves `buf`; `err` is the same for `a->efd`. -/
  | ready (out : Option (Int × List Nat)) (err : Option (Int × List Nat))
deriving DecidableEq, Repr

/-- A diagnostic of `_rsh_thread`. -/
inductive RshDiag
  | commandTimeout
  | selectError
  | xfgetsError
deriving DecidableEq, Repr

/-- The variables of the select loop. -/
structure RshLoop where
  /-- Whether `a->fd` is in `wantrfds`. -/
  wantOut : Bool
  /-- Whether `a->efd` is in `wantrfds`. -/
  wantErr : Bool
  /-- The field `a->rc`. -/
  rc : Int
  /-- The lines handed to `out`. -/
  outs : List (List Nat)
  /-- The lines of the remote stderr handed to `err`. -/
  errlines : List (List Nat)
  /-- The diagnostics printed. -/
  diags : List RshDiag
deriving DecidableEq, Repr

/-- The stdout branch of a pass (dsh.c:805-823) when `a->fd` is
readable. -/
def rshStdoutReady (RC_MAGIC : List Nat) (l : RshLoop) (rv : Int) (buf : List Nat) : RshLoop :=
  let l1 := if rv ≤ 0 then { l with wantOut := false } else l
  let l2 := if rv = -1 then { l1 with diags := l1.diags ++ [.xfgetsError] } else l1
  let r := stdoutLine RC_MAGIC l2.rc buf
  { l2 with rc := r.1,
            outs := match r.2 with
                    | some o => l2.outs ++ [o]
                    | none => l2.outs }

/-- The stderr branch of a pass (dsh.c:826-841) when `a->efd` is
readable. -/
def rshStderrReady (l : RshLoop) (rv : Int) (buf : List Nat) : RshLoop :=
  let l1 := if rv ≤ 0 then { l with wantErr := false } else l
  let l2 := if rv = -1 then { l1 with diags := l1.diags ++ [.xfgetsError] } else l1
  if buf.length > 0 then { l2 with errlines := l2.errlines ++ [buf] } else l2

/-- The select loop of `_rsh_thread` (dsh.c:786-848) over what its passes
meet: the value of `result` at its end and the variables. The value is
`none` when the events run out while the loop still waits in `select`. -/
def rshLoop (RC_MAGIC : List Nat) (dsh_sopt : Bool) :
    List SelectEv → RshLoop → Option (DshState × RshLoop)
  | [], l => if l.wantOut || (dsh_sopt && l.wantErr) then none else some (DSH_DONE, l)
  | ev :: rest, l =>
      if l.wantOut || (dsh_sopt && l.wantErr) then
        match ev with
        | .eintr => some (DSH_FAILED, { l with diags := l.diags ++ [.commandTimeout] })
        | .error => some (DSH_FAILED, { l with diags := l.diags ++ [.selectError] })
        | .ready out err =>
            let l1 :=
              match out with
              | some (rv, buf) => if l.wantOut then rshStdoutReady RC_MAGIC l rv buf else l
              | none => l
            let l2 :=
              match err with
              | some (rv, buf) =>
                  if dsh_sopt && l1.wantErr then rshStderrReady l1 rv buf else l1
              | none => l1
            rshLoop RC_MAGIC dsh_sopt rest l2
      else some (DSH_DONE, l)

/-- A run of a worker thread, as far as the phase field goes. -/
structure ThreadRun where
  /-- The values assigned to `a->state`, in order. -/
  writes : List DshState
  /-- Whether the thread came to its last assignment, `a->state = result`. -/
  returned : Bool
deriving DecidableEq, Repr

/-- The function `_rsh_thread` from `a->state = DSH_RCMD` on. The
`switch (a->rcmd_type)` ends the process through `errx` for a transport
that the build does not know; otherwise `connected` tells whether the
transport gave a descriptor (`a->fd != -1`). The initial `a->rc` is 0
(dsh.c:1000). -/
def _rsh_thread (RC_MAGIC : List Nat) (cfg : BuildConfig) (rcmd_type : RcmdType)
    (dsh_sopt : Bool) (connected : Bool) (evs : List SelectEv) :
    ThreadRun × Option RshLoop :=
  if cfg.knows rcmd_type then
    if connected then
      match rshLoop RC_MAGIC dsh_sopt evs
          { wantOut := true, wantErr := dsh_sopt, rc := 0, outs := [], errlines := [],
            diags := [] } with
      | some (result, l) => (⟨[DSH_RCMD, DSH_READING, result], true⟩, some l)
      | none => (⟨[DSH_RCMD, DSH_READING], false⟩, none)
    else (⟨[DSH_RCMD, DSH_FAILED], true⟩, none)
  else (⟨[DSH_RCMD], false⟩, none)

/-- What holds of the scheduler in every execution, spurious wake-ups
included. -/
structure DrainInv (s : Sched) : Prop where
  live_eq : (s.liveCount : Int) = s.threadcount + (if s.pc = .incr then 1 else 0)
  fresh : ∀ j w, s.i + (if s.pc = .incr then 1 else 0) ≤ j → s.t[j]? = some w → w.live = false
  old : ∀ j w, j < s.i + (if s.pc = .incr then 1 else 0) → s.t[j]? = some w →
    w.live = true ∨ w.state = DSH_DONE ∨ w.state = DSH_FAILED
  bound : s.pc = .check ∨ s.pc = .waiting ∨ s.pc = .create ∨ s.pc = .incr → s.i < s.t.length
  drained : s.pc = .drainCheck ∨ s.pc = .drainWaiting ∨ s.pc = .finished → s.i = s.t.length
  fin : s.pc = .finished → s.threadcount ≤ 0
  i_le : s.i ≤ s.t.length

/-- An execution with one host in which the worker fails to connect and
`dsh()` leaves its drain loop. -/
def drainTrace : List Event :=
  [.main, .main, .main, .main, .connect 0, .finish 0 false, .exit 0, .main, .main]

/-! ## Expansion of the input files (dsh.c:323-373) -/

/-- The entries that `readdir` delivers for a directory, in order. Each
comes with what the system calls say of the file `name/d_name` in the
file tree: the mode that `stat` gives (`none` when it fails), whether
`access(..., R_OK)` succeeds, whether `opendir` succeeds, and the entries
of that file if it is a directory. -/
inductive Entries where
  | nil
  | cons (d_ino : Nat) (d_name : List Nat) (st_mode : Option Nat) (readable opens : Bool)
      (sub : Entries) (rest : Entries)
deriving DecidableEq, Repr

/-- A pathname with what the system calls say of it in the file tree. The
C list holds the pathname; the file tree is fixed. -/
structure Item where
  name : List Nat
  /-- The mode that `stat` gives, `none` when `stat` fails. -/
  st_mode : Option Nat
  /-- Whether `access(name, R_OK)` succeeds. -/
  readable : Bool
  /-- Whether `opendir(name)` succeeds. -/
  opens : Bool
  /-- What `readdir` then delivers. -/
  entries : Entries
deriving DecidableEq, Repr

/-- The loop `while ((dp = readdir(dir)))` of `_rexpand_dir` for the
directory `name`, whose `access(name, R_OK)` gives `readable`; `list` is
the list so far. `none` stands for the end of the process through `errx`.
The call `_rexpand_dir(list, file)` on a subdirectory is `opendir` and
this loop again. The buffer `file` is taken to be large enough. -/
def rexpandLoop (name : List Nat) (readable : Bool) : Entries → List Item → Option (List Item)
  | .nil, list => some list
  | .cons d_ino d_name st_mode rd opens sub rest, list =>
      if d_ino = 0 then rexpandLoop name readable rest list
      else if d_name = bytes "." ∨ d_name = bytes ".." then rexpandLoop name readable rest list
      else
        match st_mode with
        | none => none
        | some m =>
            if readable = false then none
            else if S_ISDIR m = false ∧ S_ISREG m = false then none
            else
              let file := name ++ 47 :: d_name
              let list1 := list ++ [⟨file, st_mode, rd, opens, sub⟩]
              if S_ISDIR m then
                if opens then
                  match rexpandLoop file rd sub list1 with
                  | none => none
                  | some list2 => rexpandLoop name readable rest list2
                else none
              else rexpandLoop name readable rest list1

/-- The function `_rexpand_dir`: `opendir`, then the loop. -/
def _rexpand_dir (list : List Item) (dir : Item) : Option (List Item) :=
  if dir.opens then rexpandLoop dir.name dir.readable dir.entries list else none

/-- The loop of `_expand_dirs` over the input list, with `new` the list
so far. -/
def expandLoop : List Item → List Item → Option (List Item)
  | [], new => some new
  | it :: infiles, new =>
      if it.readable = false then none
      else
        match it.st_mode with
        | none => none
        | some m =>
            let new1 := new ++ [it]
            if S_ISDIR m then
              match _rexpand_dir new1 it with
              | none => none
              | some new2 => expandLoop infiles new2
            else expandLoop infiles new1

/-- The function `_expand_dirs`; `none` when `errx` ends the process. -/
def _expand_dirs (infiles : List Item) : Option (List Item) :=
  expandLoop infiles []

/-- Whether `stat` succeeded and gave the mode of a directory. -/
def isDirMode (st_mode : Option Nat) : Bool :=
  match st_mode with
  | some m => S_ISDIR m
  | none => false

/-- Whether `readdir` entry is one that the expansion passes over: a zero
inode, `.` or `..`. -/
def skipped (d_ino : Nat) (d_name : List Nat) : Bool :=
  d_ino == 0 || d_name == bytes "." || d_name == bytes ".."

/-- The descendants of the directory `name` in depth-first pre-order, as
the specification lists them: each entry, in the order `readdir` gives
them, named `name/d_name` and followed at once by its own descendants;
`.`, `..` and entries with a zero inode are left out. -/
def descendants (name : List Nat) : Entries → List Item
  | .nil => []
  | .cons d_ino d_name st_mode rd opens sub rest =>
      if skipped d_ino d_name then descendants name rest
      else
        (⟨name ++ 47 :: d_name, st_mode, rd, opens, sub⟩ ::
          (if isDirMode st_mode then descendants (name ++ 47 :: d_name) sub else []))
          ++ descendants name rest

/-- The expansion as the specification has it: every input path,
followed at once by its descendants. -/
def specExpand (infiles : List Item) : List Item :=
  infiles.flatMap fun it =>
    it :: (if isDirMode it.st_mode then descendants it.name it.entries else [])

/-- Whether `stat` succeeded and gave a regular file or a directory. -/
def regOrDir (st_mode : Option Nat) : Bool :=
  match st_mode with
  | some m => S_ISDIR m || S_ISREG m
  | none => false

/-- Whether every entry that the expansion does not pass over, and
everything below it, is a readable regular file or a readable directory
that can be opened. -/
def Entries.good : Entries → Bool
  | .nil => true
  | .cons d_ino d_name st_mode rd opens sub rest =>
      (skipped d_ino d_name ||
        (regOrDir st_mode && rd && (!isDirMode st_mode || (opens && sub.good))))
      && rest.good

/-- Whether the path and all its descendants are readable regular files
or readable directories that can be opened. -/
def Item.good (it : Item) : Bool :=
  regOrDir it.st_mode && it.readable &&
    (!isDirMode it.st_mode || (it.opens && it.entries.good))

/-- A regular, readable file named `name`. -/
def plainItem (name : List Nat) : Item :=
  ⟨name, some 0o100644, true, false, .nil⟩

/-- The directory `/dir` with the files `x` and `y`, as `readdir` lists
it: `.`, `..`, an entry with inode 0, `x`, `y`. -/
def dirXY : Item :=
  ⟨bytes "/dir", some 0o040755, true, true,
    .cons 2 (bytes ".") (some 0o040755) true true .nil <|
    .cons 1 (bytes "..") (some 0o040755) true true .nil <|
    .cons 0 (bytes "gone") (some 0o100644) true false .nil <|
    .cons 3 (bytes "x") (some 0o100644) true false .nil <|
    .cons 4 (bytes "y") (some 0o100644) true false .nil .nil⟩

/-- The directory `/d` whose only file `secret` is not readable. -/
def dirSecret : Item :=
  ⟨bytes "/d", some 0o040755, true, true,
    .cons 3 (bytes "secret") (some 0o100600) false false .nil .nil⟩

/-- A readable named pipe. -/
def fifoItem : Item :=
  ⟨bytes "/pipe", some 0o010644, true, false, .nil⟩

/-- Whether the loop of `_rexpand_dir` gets through the entries without
`errx`, for a directory whose `access(name, R_OK)` gives `readable`: every
entry not passed over can be stat'ed and is a regular file or a directory,
the directory itself is readable, and every subdirectory can be opened and
gets through in its turn. -/
def canExpand (readable : Bool) : Entries → Bool
  | .nil => true
  | .cons d_ino d_name st_mode rd opens sub rest =>
      (skipped d_ino d_name ||
        (regOrDir st_mode && readable && (!isDirMode st_mode || (opens && canExpand rd sub))))
      && canExpand readable rest

/-- Whether `_expand_dirs` gets past the input path without `errx`. -/
def Item.expands (it : Item) : Bool :=
  it.readable && it.st_mode.isSome &&
    (!isDirMode it.st_mode || (it.opens && canExpand it.readable it.entries))

/-! ## The passes of the select loop, one at a time -/

/-- Whether the condition of the `while` at dsh.c:786 holds. -/
def rshWaiting (dsh_sopt : Bool) (l : RshLoop) : Bool :=
  l.wantOut || (dsh_sopt && l.wantErr)

/-- The variables of the select loop when `_rsh_thread` enters it
(dsh.c:769-781, with `a->rc` 0 from dsh.c:1000). -/
def rshStart (dsh_sopt : Bool) : RshLoop :=
  { wantOut := true, wantErr := dsh_sopt, rc := 0, outs := [], errlines := [], diags := [] }

/-- The body of the loop after a `select` that returned a set of readable
descriptors (dsh.c:804-841). -/
def rshPass (RC_MAGIC : List Nat) (dsh_sopt : Bool) (l : RshLoop)
    (out err : Option (Int × List Nat)) : RshLoop :=
  let l1 :=
    match out with
    | some (rv, buf) => if l.wantOut then rshStdoutReady RC_MAGIC l rv buf else l
    | none => l
  match err with
  | some (rv, buf) => if dsh_sopt && l1.wantErr then rshStderrReady l1 rv buf else l1
  | none => l1

/-- Whether the call of `select` succeeds. -/
def SelectEv.isReady : SelectEv → Bool
  | .ready _ _ => true
  | _ => false

/-- The variables after the passes of the loop over the leading events in
which `select` succeeds, as long as the condition of the `while` holds. -/
def rshPasses (RC_MAGIC : List Nat) (dsh_sopt : Bool) : List SelectEv → RshLoop → RshLoop
  | [], l => l
  | ev :: rest, l =>
      if rshWaiting dsh_sopt l then
        match ev with
        | .ready out err => rshPasses RC_MAGIC dsh_sopt rest (rshPass RC_MAGIC dsh_sopt l out err)
        | _ => l
      else l

/-! ## The calls of `write` that `_rcp_write` makes -/

/-- The calls `write(fd, bufp, towrite)` of the loop of `_rcp_write`
(dsh.c:390-397) over the coming results of `write`, with `rem` the
unwritten suffix: for each call the bytes it is offered and the value it
returns. -/
def rcpWriteCalls : List Int → List Nat → List (List Nat × Int)
  | _, [] => []
  | [], b :: rem => [(b :: rem, ((b :: rem).length : Int))]
  | r :: wres, b :: rem =>
      if r ≤ 0 then [(b :: rem, r)]
      else (b :: rem, min r ((b :: rem).length : Int))
             :: rcpWriteCalls wres ((b :: rem).drop r.toNat)

/-- A sequence of calls of `write` that writes `rem` by short writes: each
call is offered exactly the still unwritten suffix, it accepts at least
one byte and at most what it is offered, and nothing is left unwritten
after the last call. -/
def WriteChain : List Nat → List (List Nat × Int) → Prop
  | rem, [] => rem = []
  | rem, call :: calls =>
      call.1 = rem ∧ 1 ≤ call.2 ∧ call.2 ≤ (call.1.length : Int) ∧
        WriteChain (rem.drop call.2.toNat) calls

/-! ## Lists of strings (common/list.c) -/

/-- The macro `LIST_CHUNK`: the number of slots allocated at first and at
each expansion. -/
def LIST_CHUNK : Nat := 16

/-- The macro `SPACES`: the separators used when `sep` is NULL. -/
def SPACES : List Nat := bytes "\n\t "

/-- The type `struct list_implementation`. A slot of `data` holds the
string its pointer refers to; the slots from `nitems` on hold whatever was
left there (the empty string stands for a slot that was never assigned). -/
structure list_t where
  size : Nat
  nitems : Nat
  data : List (List Nat)
deriving DecidableEq, Repr

/-- The entries of a list: the slots `data[0]` to `data[nitems - 1]`. -/
def list_t.items (l : list_t) : List (List Nat) :=
  l.data.take l.nitems

/-- What the functions of list.c keep true of a list: `data` has `size`
slots and `nitems` does not exceed `size`. -/
def list_t.wf (l : list_t) : Prop :=
  l.data.length = l.size ∧ l.nitems ≤ l.size

instance (l : list_t) : Decidable l.wf := by
  unfold list_t.wf
  infer_instance

/-- The function `list_new` (list.c:103-115). -/
def list_new : list_t :=
  { size := LIST_CHUNK, nitems := 0, data := List.replicate LIST_CHUNK [] }

/-- The function `list_expand` (list.c:121-127): `LIST_CHUNK` more
slots. -/
def list_expand (l : list_t) : list_t :=
  { l with size := l.size + LIST_CHUNK, data := l.data ++ List.replicate LIST_CHUNK [] }

/-- The function `list_push` (list.c:150-158); `none` stands for the
failure of `assert(l->size > l->nitems)`. -/
def list_push (l : list_t) (word : List Nat) : Option list_t :=
  let l1 := if l.size = l.nitems then list_expand l else l
  if l1.size > l1.nitems then
    some { l1 with data := l1.data.set l1.nitems word, nitems := l1.nitems + 1 }
  else none

/-- The loop of `list_test` over the entries: the comparison is
`strcmp`. -/
def testLoop (item : List Nat) : List (List Nat) → Bool
  | [] => false
  | x :: xs => if x = item then true else testLoop item xs

/-- The function `list_test` (list.c:283-295). -/
def list_test (l : list_t) (item : List Nat) : Bool :=
  testLoop item l.items

/-- The loop `for (i = n; i < l->nitems - 1; i++) l->data[i] = l->data[i + 1]`
of `list_del`, with `k` the number of passes left. -/
def delLoop (data : List (List Nat)) : Nat → Nat → List (List Nat)
  | _, 0 => data
  | i, k + 1 => delLoop (data.set i (data.getD (i + 1) [])) (i + 1) k

/-- The function `list_del` (list.c:363-373); `none` stands for the
failure of `assert(n < l->nitems && n >= 0)`. -/
def list_del (l : list_t) (n : Int) : Option list_t :=
  if n < l.nitems ∧ n ≥ 0 then
    some { l with data := delLoop l.data n.toNat (l.nitems - 1 - n.toNat),
                  nitems := l.nitems - 1 }
  else none

/-- The loop of `list_subtract` (list.c:310-312) from the index `i`; each
pass either moves on to the next index or deletes an entry, so the entries
of `l1` at the start bound the number of passes, which is `fuel`. -/
def subtractLoop (l2 : list_t) : Nat → list_t → Int → Option list_t
  | 0, l1, _ => some l1
  | fuel + 1, l1, i =>
      if i < l1.nitems then
        if list_test l2 (l1.data.getD i.toNat []) then
          match list_del l1 i with
          | none => none
          | some l => subtractLoop l2 fuel l (i - 1 + 1)
        else subtractLoop l2 fuel l1 (i + 1)
      else some l1

/-- The function `list_subtract` (list.c:303-313) on two distinct lists:
the list `l1` afterwards, `l2` being read only. -/
def list_subtract (l1 l2 : list_t) : Option list_t :=
  subtractLoop l2 l1.nitems l1 0

/-- The loop of `list_merge` (list.c:328-330) over the entries of `l2`
that are still to come. -/
def mergeLoop : List (List Nat) → list_t → Option list_t
  | [], l1 => some l1
  | x :: rest, l1 =>
      if !list_test l1 x then
        match list_push l1 x with
        | none => none
        | some l => mergeLoop rest l
      else mergeLoop rest l1

/-- The function `list_merge` (list.c:321-331) on two distinct lists: the
list `l1` afterwards, `l2` being read only. -/
def list_merge (l1 l2 : list_t) : Option list_t :=
  mergeLoop l2.items l1

/-- An access to a slot of the array `data`. -/
inductive Access
  | read (i : Nat)
  | write (i : Nat)
deriving DecidableEq, Repr

/-- The loop `for (i = 0; i < l->nitems; i++) l->data[i] = l->data[i + 1]`
of `list_shift`, with `k` the number of passes left: the array afterwards
and the accesses made. A read past the end of the array gives the empty
string here. -/
def shiftLoop (data : List (List Nat)) : Nat → Nat → List (List Nat) × List Access
  | _, 0 => (data, [])
  | i, k + 1 =>
      let r := shiftLoop (data.set i (data.getD (i + 1) [])) (i + 1) k
      (r.1, .read (i + 1) :: .write i :: r.2)

/-- The function `list_shift` (list.c:183-198): the word returned (`none`
for NULL), the list afterwards and the accesses to slots of `data`. -/
def list_shift (l : list_t) : Option (List Nat) × list_t × List Access :=
  if l.nitems ≠ 0 then
    let r := shiftLoop l.data 0 l.nitems
    (some (l.data.getD 0 []), { l with data := r.1, nitems := l.nitems - 1 },
      .read 0 :: r.2)
  else (none, l, [])

/-- The test `strchr(sep, c) != NULL` of `_next_tok` for a character `c`
that is not NUL. -/
def isSep (sep : List Nat) (c : Nat) : Bool :=
  sep.contains c

/-- The function `_next_tok` (list.c:74-97) on the string `*str` points
to: the token returned (`none` for NULL) and the string `*str` points to
afterwards. The separators after the token are overwritten with NUL, and
the token is the C string at its first character after that. -/
def _next_tok (sep : List Nat) (str : List Nat) : Option (List Nat) × List Nat :=
  match str.dropWhile (isSep sep) with
  | [] => (none, [])
  | c :: s1 =>
      let run := (c :: s1).takeWhile (fun b => !isSep sep b)
      let after := (c :: s1).dropWhile (fun b => !isSep sep b)
      let seps := after.takeWhile (isSep sep)
      let rest := after.dropWhile (isSep sep)
      (some (cstrAt (run ++ seps.map (fun _ => 0) ++ rest ++ [0]) 0), rest)

/-- The loop of `list_split` (list.c:214-217). A token is not empty, so
the length of the string plus one bounds the number of calls of
`_next_tok`, which is `fuel`. -/
def splitLoop (sep : List Nat) : Nat → List Nat → list_t → Option list_t
  | 0, _, l => some l
  | fuel + 1, str, l =>
      match _next_tok sep str with
      | (none, _) => some l
      | (some tok, rest) =>
          if tok.length > 0 then
            match list_push l tok with
            | none => none
            | some l1 => splitLoop sep fuel rest l1
          else splitLoop sep fuel rest l

/-- The function `list_split` (list.c:207-220); `sep` is `none` for
NULL. -/
def list_split (sep : Option (List Nat)) (str : List Nat) : Option list_t :=
  splitLoop (sep.getD SPACES) (str.length + 1) str list_new

/-- The loop of `list_join` (list.c:234-238) over the entries that are
still to come, with `result` `none` for NULL. -/
def joinLoop (sep : List Nat) : List (List Nat) → Option (List Nat) → Option (List Nat)
  | [], result => result
  | x :: rest, result =>
      let r1 := if result ≠ none then xstrcat result sep else result
      joinLoop sep rest (xstrcat r1 x)

/-- The function `list_join` (list.c:229-241). -/
def list_join (sep : List Nat) (l : list_t) : Option (List Nat) :=
  joinLoop sep l.items none

/-- The list that holds the given strings after `list_new` and one
`list_push` for each. -/
def listOf (ws : List (List Nat)) : Option list_t :=
  ws.foldl (fun l w => l.bind fun l1 => list_push l1 w) (some list_new)

/-- The maximal runs of characters of `str` that do not satisfy `p`, in
the order in which they appear: the pieces between the characters that
satisfy `p`, the empty pieces left out. -/
def maximalRuns (p : Nat → Bool) (str : List Nat) : List (List Nat) :=
  (str.splitOnP p).filter (fun r => !r.isEmpty)

/-- The index of the slot an access goes to. -/
def Access.index : Access → Nat
  | .read i => i
  | .write i => i

/-- The strings of `xs` in the order of their first occurrence, each
once. -/
def firstOccurrences : List (List Nat) → List (List Nat)
  | [] => []
  | x :: xs => x :: (firstOccurrences xs).filter (fun y => decide (y ≠ x))

/-- C1: with two hosts and fan-out 1, one return of the admission wait
that no worker's exit caused lets `dsh()` create the second worker while
the first is still connecting: `threadcount` is 2 and two workers are in
CONNECTING, both above the fan-out. -/
theorem dsh_spurious_wakeup_exceeds_fanout :
    (run 1 (Sched.init 2) spuriousTrace).map (fun s => (s.threadcount, s.active))
      = some (2, 2) := by
  decide

theorem schedInv_init (F : Int) (N : Nat) (hF : 1 ≤ F) : SchedInv F (Sched.init N) := by
  refine ⟨?_, ?_, ?_, ?_, ?_, ?_⟩
  · simp [Sched.init, Sched.liveCount, List.countP_replicate]
  · intro w hw
    simp [Sched.init, List.mem_replicate] at hw
    simp [hw.2]
  · intro j w _ hj
    simp [Sched.init, List.getElem?_replicate] at hj
    rw [← hj.2]
  · simp [Sched.init]
  · simp [Sched.init]; omega
  · simp [Sched.init]

theorem countP_set_of_get (p : WorkerSt → Bool) (l : List WorkerSt) (j : Nat) (w v : WorkerSt)
    (h : l[j]? = some w) :
    (l.set j v).countP p + (if p w then 1 else 0) = l.countP p + (if p v then 1 else 0) := by
  obtain ⟨hj, hw⟩ := List.getElem?_eq_some_iff.mp h
  have h1 := List.countP_set p l j v hj
  have h2 := List.boole_getElem_le_countP p l j hj
  rw [hw] at h1 h2
  omega

theorem workerStep_some (s s1 : Sched) (j : Nat) (f : WorkerSt → Option WorkerSt)
    (h : workerStep s j f = some s1) :
    ∃ w v, s.t[j]? = some w ∧ w.live = true ∧ f w = some v ∧ s1 = { s with t := s.t.set j v } := by
  simp only [workerStep] at h
  cases hg : s.t[j]? with
  | none => simp [hg] at h
  | some w =>
      simp only [hg] at h
      split_ifs at h with hl
      cases hf : f w with
      | none => simp [hf] at h
      | some v =>
          simp only [hf, Option.some.injEq] at h
          exact ⟨w, v, rfl, hl, hf, h.symm⟩

/-- A worker that changes its phase and stays alive keeps the invariant. -/
theorem schedInv_set_live (F : Int) (s : Sched) (j : Nat) (w v : WorkerSt)
    (hinv : SchedInv F s) (hget : s.t[j]? = some w) (hw : w.live = true) (hv : v.live = true) :
    SchedInv F { s with t := s.t.set j v } := by
  obtain ⟨h1, h2, h3, h4, h5, h6⟩ := hinv
  refine ⟨?_, ?_, ?_, ?_, h5, h6⟩
  · have := countP_set_of_get (fun w => w.live) s.t j w v hget
    simp only [hw, hv, if_true] at this
    simp only [Sched.liveCount] at h1 ⊢
    omega
  · intro u hu hact
    rcases List.mem_or_eq_of_mem_set hu with hu | hu
    · exact h2 u hu hact
    · rw [hu]; exact hv
  · intro k u hk hu
    have hne : j ≠ k := by
      intro hjk
      subst hjk
      have := h3 j w hk hget
      rw [hw] at this
      cases this
    simp only [List.getElem?_set_ne hne] at hu
    exact h3 k u hk hu
  · simpa using h4

theorem schedInv_main (F : Int) (s s1 : Sched) (hinv : SchedInv F s)
    (h : mainStep F s = some s1) : SchedInv F s1 := by
  obtain ⟨pc, i, tc, sg, t⟩ := s
  obtain ⟨h1, h2, h3, h4, h5, h6⟩ := hinv
  simp only [Sched.liveCount] at h1 h2 h3 h4 h5 h6
  cases pc with
  | loopTop =>
      simp only [mainStep] at h
      split_ifs at h with hlt
      · simp only [Option.some.injEq] at h
        subst h
        exact ⟨by simpa [Sched.liveCount] using h1, h2, by simpa using h3, fun _ => hlt, h5,
          by simp⟩
      · simp only [Option.some.injEq] at h
        subst h
        exact ⟨by simpa [Sched.liveCount] using h1, h2, by simpa using h3, by simp, h5, by simp⟩
  | check =>
      have hb : i < t.length := h4 (Or.inl rfl)
      simp only [mainStep] at h
      split_ifs at h with heq
      · simp only [Option.some.injEq] at h
        subst h
        exact ⟨by simpa [Sched.liveCount] using h1, h2, by simpa using h3, fun _ => hb, h5,
          by simp⟩
      · simp only [Option.some.injEq] at h
        subst h
        refine ⟨by simpa [Sched.liveCount] using h1, h2, by simpa using h3, fun _ => hb, h5, ?_⟩
        intro _
        show tc < F
        omega
  | waiting => simp [mainStep] at h
  | create =>
      have hb : i < t.length := h4 (Or.inr (Or.inr (Or.inl rfl)))
      have hlt : tc < F := h6 (Or.inl rfl)
      simp only [mainStep, Option.some.injEq] at h
      subst h
      have hget : t[i]? = some t[i] := List.getElem?_eq_getElem hb
      have hfresh : t[i].live = false := h3 i t[i] (by simp) hget
      have hmod : t.modify (fun w => { w with live := true }) i
          = t.set i { t[i] with live := true } := List.modify_eq_set_get _ hb
      refine ⟨?_, ?_, ?_, fun _ => by simpa [hmod] using hb, h5, fun _ => hlt⟩
      · have := countP_set_of_get (fun w => w.live) t i t[i] { t[i] with live := true } hget
        simp only [hfresh, if_true, Bool.false_eq_true, if_false] at this
        simp only [Sched.liveCount, hmod]
        simp at h1
        simp
        omega
      · intro u hu hact
        rw [hmod] at hu
        rcases List.mem_or_eq_of_mem_set hu with hu | hu
        · exact h2 u hu hact
        · rw [hu]
      · intro k u hk hu
        simp only [if_true] at hk
        simp only [hmod] at hu
        rw [List.getElem?_set_ne (by omega)] at hu
        exact h3 k u (by simp; omega) hu
  | incr =>
      have hlt : tc < F := h6 (Or.inr (Or.inl rfl))
      simp only [mainStep, Option.some.injEq] at h
      subst h
      refine ⟨?_, h2, ?_, by simp, ?_, by simp⟩
      · simp at h1
        simp [Sched.liveCount]
        omega
      · intro k u hk hu
        exact h3 k u (by simpa using hk) hu
      · show tc + 1 ≤ F
        omega
  | drainCheck =>
      simp only [mainStep] at h
      split_ifs at h
      · simp only [Option.some.injEq] at h
        subst h
        exact ⟨by simpa [Sched.liveCount] using h1, h2, by simpa using h3, by simp, h5, by simp⟩
      · simp only [Option.some.injEq] at h
        subst h
        exact ⟨by simpa [Sched.liveCount] using h1, h2, by simpa using h3, by simp, h5, by simp⟩
  | drainWaiting => simp [mainStep] at h
  | finished => simp [mainStep] at h

theorem schedInv_wake (F : Int) (s s1 : Sched) (hinv : SchedInv F s)
    (hsig : s.signalled = true) (h : wakeUp s = some s1) : SchedInv F s1 := by
  obtain ⟨pc, i, tc, sg, t⟩ := s
  obtain ⟨h1, h2, h3, h4, h5, h6⟩ := hinv
  simp only [Sched.liveCount] at h1 h2 h3 h4 h5 h6 hsig
  cases pc <;> simp only [wakeUp, Option.some.injEq] at h <;> try cases h
  · have hb : i < t.length := h4 (Or.inr (Or.inl rfl))
    have hlt : tc < F := h6 (Or.inr (Or.inr ⟨rfl, hsig⟩))
    exact ⟨by simpa [Sched.liveCount] using h1, h2, by simpa using h3, fun _ => hb, h5,
      fun _ => hlt⟩
  · exact ⟨by simpa [Sched.liveCount] using h1, h2, by simpa using h3, by simp, h5, by simp⟩

theorem schedInv_exit (F : Int) (s s1 : Sched) (j : Nat) (hinv : SchedInv F s)
    (h : step F s (.exit j) = some s1) : SchedInv F s1 := by
  simp only [step] at h
  split_ifs at h with hfree
  split at h
  · rename_i s2 hs2
    obtain ⟨w, v, hget, hlive, hf, hs2eq⟩ := workerStep_some s s2 j _ hs2
    split_ifs at hf with hterm
    simp only [Option.some.injEq] at hf h
    subst hf hs2eq h
    obtain ⟨h1, h2, h3, h4, h5, h6⟩ := hinv
    have hpc : s.pc ≠ .incr := by
      intro hpc
      simp [Sched.mutexFree, hpc] at hfree
    have hcnt := countP_set_of_get (fun w => w.live) s.t j w { w with live := false } hget
    simp only [hlive, if_true, Bool.false_eq_true, if_false] at hcnt
    refine ⟨?_, ?_, ?_, ?_, ?_, ?_⟩
    · simp only [Sched.liveCount, if_neg hpc] at h1 ⊢
      omega
    · intro u hu hact
      rcases List.mem_or_eq_of_mem_set hu with hu | hu
      · exact h2 u hu hact
      · rw [hu] at hact
        rcases hterm with ht | ht <;> rcases hact with ha | ha <;> simp_all
    · intro k u hk hu
      by_cases hjk : j = k
      · subst hjk
        have hlt : j < s.t.length := (List.getElem?_eq_some_iff.mp hget).1
        simp only [List.getElem?_set_self hlt, Option.some.injEq] at hu
        rw [← hu]
      · simp only [List.getElem?_set_ne hjk] at hu
        exact h3 k u hk hu
    · simpa using h4
    · show s.threadcount - 1 ≤ F
      omega
    · intro _
      show s.threadcount - 1 < F
      omega
  · cases h

theorem schedInv_step (F : Int) (s s1 : Sched) (e : Event) (hinv : SchedInv F s)
    (hne : e ≠ .spuriousWake) (h : step F s e = some s1) : SchedInv F s1 := by
  cases e with
  | main => exact schedInv_main F s s1 hinv h
  | wake =>
      simp only [step] at h
      split_ifs at h with hsig
      exact schedInv_wake F s s1 hinv hsig h
  | spuriousWake => exact absurd rfl hne
  | connect j =>
      obtain ⟨w, v, hget, hlive, hf, hs⟩ := workerStep_some s s1 j _ h
      split_ifs at hf
      simp only [Option.some.injEq] at hf
      subst hf hs
      exact schedInv_set_live F s j w _ hinv hget hlive hlive
  | connected j =>
      obtain ⟨w, v, hget, hlive, hf, hs⟩ := workerStep_some s s1 j _ h
      split_ifs at hf
      simp only [Option.some.injEq] at hf
      subst hf hs
      exact schedInv_set_live F s j w _ hinv hget hlive hlive
  | finish j ok =>
      obtain ⟨w, v, hget, hlive, hf, hs⟩ := workerStep_some s s1 j _ h
      split_ifs at hf <;>
      · simp only [Option.some.injEq] at hf
        subst hf hs
        exact schedInv_set_live F s j w _ hinv hget hlive hlive
  | exit j => exact schedInv_exit F s s1 j hinv h

theorem schedInv_run (F : Int) (es : List Event) (s s1 : Sched) (hinv : SchedInv F s)
    (hns : Event.spuriousWake ∉ es) (h : run F s es = some s1) : SchedInv F s1 := by
  induction es generalizing s with
  | nil =>
      simp only [run, Option.some.injEq] at h
      rw [← h]
      exact hinv
  | cons e es ih =>
      simp only [run] at h
      cases hs : step F s e with
      | none => simp [hs] at h
      | some s2 =>
          simp only [hs] at h
          have hne : e ≠ .spuriousWake := fun he => hns (by simp [he])
          exact ih s2 (schedInv_step F s s2 e hinv hne hs)
            (fun hmem => hns (List.mem_cons_of_mem _ hmem)) h

/-- In every execution of the launch and drain loops in which
`pthread_cond_wait` returns only after a signal, `threadcount` stays at or
below the fan-out, and so does the number of workers in CONNECTING or
STREAMING. -/
theorem fanout_bound_without_spurious (F : Int) (N : Nat) (hF : 1 ≤ F) (es : List Event)
    (hns : Event.spuriousWake ∉ es) (s : Sched) (h : run F (Sched.init N) es = some s) :
    s.threadcount ≤ F ∧ (s.active : Int) ≤ F := by
  have hinv := schedInv_run F es _ s (schedInv_init F N hF) hns h
  refine ⟨hinv.tc_le, ?_⟩
  have hle : s.active ≤ s.liveCount := by
    simp only [Sched.active, Sched.liveCount]
    apply List.countP_mono_left
    intro w hw hact
    have := hinv.active_live w hw (by simpa using hact)
    simpa using this
  have h1 := hinv.live_eq
  by_cases hpc : s.pc = .incr
  · have := hinv.tc_lt (Or.inr (Or.inl hpc))
    simp only [hpc, if_true] at h1
    omega
  · have := hinv.tc_le
    simp only [if_neg hpc] at h1
    omega

/-! ## Theorems: the exit status -/

theorem statusStep_fixed (R : Int) (w : thd_t) (h : w.rc ≤ R) : statusStep R R w = R := by
  simp only [statusStep]
  split_ifs <;> omega

theorem statusStep_failed (R rc : Int) (w : thd_t) (h : w.rc ≤ R)
    (hf : w.state = DSH_FAILED) : statusStep R rc w = R := by
  simp only [statusStep, hf, if_true]
  split_ifs <;> omega

theorem foldl_status_fixed (R : Int) (t : List thd_t) (h : ∀ w ∈ t, w.rc ≤ R) :
    t.foldl (statusStep R) R = R := by
  induction t with
  | nil => rfl
  | cons w t ih =>
      rw [List.foldl_cons, statusStep_fixed R w (h w (List.mem_cons_self _ _))]
      exact ih fun v hv => h v (List.mem_cons_of_mem _ hv)

theorem foldl_status_failed (R : Int) (t : List thd_t) (h : ∀ w ∈ t, w.rc ≤ R)
    (hf : ∃ w ∈ t, w.state = DSH_FAILED) (rc : Int) :
    t.foldl (statusStep R) rc = R := by
  induction t generalizing rc with
  | nil => obtain ⟨w, hw, _⟩ := hf; cases hw
  | cons w t ih =>
      have ht : ∀ v ∈ t, v.rc ≤ R := fun v hv => h v (List.mem_cons_of_mem _ hv)
      rw [List.foldl_cons]
      by_cases hw : w.state = DSH_FAILED
      · rw [statusStep_failed R rc w (h w (List.mem_cons_self _ _)) hw]
        exact foldl_status_fixed R t ht
      · apply ih ht
        obtain ⟨v, hv, hvf⟩ := hf
        rcases List.mem_cons.mp hv with rfl | hv
        · exact absurd hvf hw
        · exact ⟨v, hv, hvf⟩

theorem foldl_status_done (R : Int) (t : List thd_t) (hd : ∀ w ∈ t, w.state = DSH_DONE)
    (rc : Int) :
    rc ≤ t.foldl (statusStep R) rc ∧ (∀ w ∈ t, w.rc ≤ t.foldl (statusStep R) rc) ∧
      (t.foldl (statusStep R) rc = rc ∨ ∃ w ∈ t, w.rc = t.foldl (statusStep R) rc) := by
  induction t generalizing rc with
  | nil => simp
  | cons w t ih =>
      have hw : w.state = DSH_DONE := hd w (List.mem_cons_self _ _)
      have hstep : statusStep R rc w = if w.rc > rc then w.rc else rc := by
        simp [statusStep, hw]
      obtain ⟨h1, h2, h3⟩ := ih (fun v hv => hd v (List.mem_cons_of_mem _ hv)) (statusStep R rc w)
      rw [List.foldl_cons]
      have hge : rc ≤ statusStep R rc w ∧ w.rc ≤ statusStep R rc w := by
        rw [hstep]
        split_ifs <;> omega
      refine ⟨by omega, ?_, ?_⟩
      · intro v hv
        rcases List.mem_cons.mp hv with rfl | hv
        · omega
        · exact h2 v hv
      · rcases h3 with h3 | ⟨v, hv, hveq⟩
        · rw [h3]
          by_cases hgt : w.rc > rc
          · right
            exact ⟨w, List.mem_cons_self _ _, by rw [hstep, if_pos hgt]⟩
          · left
            rw [hstep, if_neg hgt]
        · right
          exact ⟨v, List.mem_cons_of_mem _ hv, hveq⟩

/-- C3: with status collection on, all workers DONE and no negative
remote-rc, the value of `dsh()` bounds every remote-rc of the table, is one
of them unless the table is empty, and is 0 exactly when all of them are
0. -/
theorem dsh_status_is_max (RC_FAILED : Int) (t : List thd_t)
    (hd : ∀ w ∈ t, w.state = DSH_DONE) (hn : ∀ w ∈ t, 0 ≤ w.rc) :
    (∀ w ∈ t, w.rc ≤ dsh_status RC_FAILED true t) ∧
      (t = [] ∨ ∃ w ∈ t, w.rc = dsh_status RC_FAILED true t) ∧
      (dsh_status RC_FAILED true t = 0 ↔ ∀ w ∈ t, w.rc = 0) := by
  obtain ⟨h1, h2, h3⟩ := foldl_status_done RC_FAILED t hd 0
  have hs : dsh_status RC_FAILED true t = t.foldl (statusStep RC_FAILED) 0 := by
    simp [dsh_status]
  rw [hs]
  have hzero : t.foldl (statusStep RC_FAILED) 0 = 0 → ∀ w ∈ t, w.rc = 0 := by
    intro h0 w hw
    have := h2 w hw
    have := hn w hw
    omega
  refine ⟨h2, ?_, hzero, ?_⟩
  · rcases h3 with h3 | h3
    · cases t with
      | nil => exact Or.inl rfl
      | cons w t =>
          right
          exact ⟨w, List.mem_cons_self _ _, by
            rw [h3]; exact hzero h3 w (List.mem_cons_self _ _)⟩
    · exact Or.inr h3
  · intro hall
    rcases h3 with h3 | ⟨w, hw, hweq⟩
    · exact h3
    · rw [← hweq]
      exact hall w hw

theorem dsh_status_is_max_witness :
    dsh_status 254 true [⟨DSH_DONE, 0⟩, ⟨DSH_DONE, 7⟩, ⟨DSH_DONE, 0⟩] = 7 ∧
      ∀ w ∈ [(⟨DSH_DONE, 0⟩ : thd_t), ⟨DSH_DONE, 7⟩, ⟨DSH_DONE, 0⟩],
        w.rc ≤ dsh_status 254 true [⟨DSH_DONE, 0⟩, ⟨DSH_DONE, 7⟩, ⟨DSH_DONE, 0⟩] :=
  ⟨by decide,
   (dsh_status_is_max 254 [⟨DSH_DONE, 0⟩, ⟨DSH_DONE, 7⟩, ⟨DSH_DONE, 0⟩]
      (by decide) (by decide)).1⟩

/-! ## Theorems: the return-code sentinel -/

/-- C4: on a line with text before the magic and a newline at its end,
`_extract_rc` starts `atoi` one byte too far: for `hi XXRETCODE:7` plus
newline it returns 0, for 17 it returns 7; without the newline the 7 is
returned. -/
theorem extract_rc_skips_first_digit :
    _extract_rc (bytes "XXRETCODE:") (bytes "hi XXRETCODE:7\n") = (0, bytes "hi \n") ∧
      _extract_rc (bytes "XXRETCODE:") (bytes "hi XXRETCODE:17\n") = (7, bytes "hi \n") ∧
      _extract_rc (bytes "XXRETCODE:") (bytes "hi XXRETCODE:7") = (7, bytes "hi ") ∧
      _extract_rc (bytes "XXRETCODE:") (bytes "XXRETCODE:7\n") = (7, []) := by
  decide

theorem stdoutLine_nonempty (M : List Nat) (rc : Int) (buf : List Nat) (h : buf ≠ []) :
    (stdoutLine M rc buf).1 = (_extract_rc M buf).1 := by
  have : buf.length > 0 := List.length_pos.mpr h
  simp [stdoutLine, this]

theorem stdoutLoop_rc (M : List Nat) (lines : List (List Nat)) (hne : ∀ l ∈ lines, l ≠ [])
    (acc : Int × List (List Nat)) :
    (stdoutLoop M acc lines).1 = (lines.getLast?.map fun l => (_extract_rc M l).1).getD acc.1 := by
  induction lines generalizing acc with
  | nil => simp [stdoutLoop]
  | cons l rest ih =>
      obtain ⟨rc, emitted⟩ := acc
      have hl : l ≠ [] := hne l (List.mem_cons_self _ _)
      have hrest : ∀ k ∈ rest, k ≠ [] := fun k hk => hne k (List.mem_cons_of_mem _ hk)
      simp only [stdoutLoop]
      rw [ih hrest]
      cases rest with
      | nil => simp [stdoutLine_nonempty M rc l hl]
      | cons k rest =>
          rw [List.getLast?_cons_cons]
          cases hlast : (k :: rest).getLast? with
          | none => simp at hlast
          | some x => simp

theorem extract_rc_no_magic (M buf : List Nat) (h : strstr buf M = none) :
    _extract_rc M buf = (0, buf) := by
  simp [_extract_rc, h]

/-- C5, as the code has it: after any sequence of non-empty lines the
remote-rc is what `_extract_rc` returns for the last line (0 when there
was no line); a line without the magic is emitted unchanged and sets the
remote-rc to 0. -/
theorem rsh_rc_from_last_line (M : List Nat) (lines : List (List Nat))
    (hne : ∀ l ∈ lines, l ≠ []) :
    (rshStdout M lines).1 = (lines.getLast?.map fun l => (_extract_rc M l).1).getD 0 ∧
      ∀ l ∈ lines, strstr l M = none → ∀ rc, stdoutLine M rc l = (0, some l) := by
  refine ⟨stdoutLoop_rc M lines hne (0, []), ?_⟩
  intro l hl hno rc
  have hpos : l.length > 0 := List.length_pos.mpr (hne l hl)
  simp [stdoutLine, hpos, extract_rc_no_magic M l hno]

theorem rsh_rc_from_last_line_witness :
    (rshStdout (bytes "XXRETCODE:") [bytes "XXRETCODE:7\n", bytes "XXRETCODE:3\n"]).1 = 3 ∧
      (rshStdout (bytes "XXRETCODE:") [bytes "XXRETCODE:7\n", bytes "XXRETCODE:3\n"]).1
        = (([bytes "XXRETCODE:7\n", bytes "XXRETCODE:3\n"].getLast?.map
            fun l => (_extract_rc (bytes "XXRETCODE:") l).1).getD 0) :=
  ⟨by decide,
   (rsh_rc_from_last_line (bytes "XXRETCODE:") [bytes "XXRETCODE:7\n", bytes "XXRETCODE:3\n"]
      (by decide)).1⟩

/-- C5 fails as stated: a line without the magic after the sentinel line
sets the remote-rc back to 0, where the claim keeps the 7. -/
theorem rsh_rc_reset_counterexample :
    strstr (bytes "hello\n") (bytes "XXRETCODE:") = none ∧
      rshStdout (bytes "XXRETCODE:") [bytes "XXRETCODE:7\n"] = (7, []) ∧
      rshStdout (bytes "XXRETCODE:") [bytes "XXRETCODE:7\n", bytes "hello\n"]
        = (0, [bytes "hello\n"]) := by
  decide

/-! ### The buffer after `_extract_rc` -/

theorem occursAt_zero (M hay : List Nat) : OccursAt M hay 0 ↔ M <+: hay := by
  simp [OccursAt]

theorem occursAt_succ (M hay : List Nat) (b p : Nat) :
    OccursAt M (b :: hay) (p + 1) ↔ OccursAt M hay p := by
  simp [OccursAt]

theorem occursAt_nil (M : List Nat) (p : Nat) (h : OccursAt M [] p) : M = [] := by
  simpa using h.2

theorem strstr_spec (M : List Nat) (hay : List Nat) :
    (∀ p, strstr hay M = some p → FirstOccAt M hay p) ∧
      (strstr hay M = none → ∀ p, ¬ OccursAt M hay p) := by
  induction hay with
  | nil =>
      constructor
      · intro p hp
        simp only [strstr] at hp
        split_ifs at hp with h
        cases hp
        refine ⟨(occursAt_zero M []).mpr (List.isPrefixOf_iff_prefix.mp h), ?_⟩
        intro q hq
        cases hq
      · intro hnone p hocc
        simp only [strstr] at hnone
        split_ifs at hnone with h
        apply h
        rw [List.isPrefixOf_iff_prefix, occursAt_nil M p hocc]
  | cons b hay ih =>
      obtain ⟨ih1, ih2⟩ := ih
      constructor
      · intro p hp
        simp only [strstr] at hp
        split_ifs at hp with h
        · cases hp
          refine ⟨(occursAt_zero M _).mpr (List.isPrefixOf_iff_prefix.mp h), ?_⟩
          intro q hq
          cases hq
        · cases hs : strstr hay M with
          | none => simp [hs] at hp
          | some p' =>
              simp [hs] at hp
              subst hp
              obtain ⟨ho, hmin⟩ := ih1 p' hs
              refine ⟨(occursAt_succ M hay b p').mpr ho, ?_⟩
              intro q hq hocc
              cases q with
              | zero => exact h (List.isPrefixOf_iff_prefix.mpr ((occursAt_zero M _).mp hocc))
              | succ q =>
                  exact hmin q (by omega) ((occursAt_succ M hay b q).mp hocc)
      · intro hnone p hocc
        simp only [strstr] at hnone
        split_ifs at hnone with h
        cases hs : strstr hay M with
        | some p' => simp [hs] at hnone
        | none =>
            cases p with
            | zero => exact h (List.isPrefixOf_iff_prefix.mpr ((occursAt_zero M _).mp hocc))
            | succ p => exact ih2 hs p ((occursAt_succ M hay b p).mp hocc)

theorem firstOccAt_unique (M hay : List Nat) (p q : Nat) (hp : FirstOccAt M hay p)
    (hq : FirstOccAt M hay q) : p = q := by
  rcases Nat.lt_trichotomy p q with h | h | h
  · exact absurd hp.1 (hq.2 p h)
  · exact h
  · exact absurd hq.1 (hp.2 q h)

theorem strstr_of_firstOccAt (M hay : List Nat) (p : Nat) (hp : FirstOccAt M hay p) :
    strstr hay M = some p := by
  cases hs : strstr hay M with
  | none => exact absurd hp.1 ((strstr_spec M hay).2 hs p)
  | some q => rw [firstOccAt_unique M hay p q hp ((strstr_spec M hay).1 q hs)]

theorem strstr_of_not_occurs (M hay : List Nat) (h : ∀ p, ¬ OccursAt M hay p) :
    strstr hay M = none := by
  cases hs : strstr hay M with
  | none => rfl
  | some q => exact absurd ((strstr_spec M hay).1 q hs).1 (h q)

theorem takeWhile_set_zero (l : List Nat) (p : Nat) (hp : p < l.length)
    (hz : ∀ b ∈ l.take p, b ≠ 0) :
    (l.set p 0).takeWhile (fun b => b != 0) = l.take p := by
  induction l generalizing p with
  | nil => simp at hp
  | cons a l ih =>
      cases p with
      | zero => simp
      | succ p =>
          have ha : a ≠ 0 := hz a (by simp)
          simp only [List.set_cons_succ, List.take_succ_cons]
          rw [List.takeWhile_cons_of_pos (by simpa using ha)]
          rw [ih p (by simpa using hp) (fun b hb => hz b (by simp [hb]))]

theorem takeWhile_set_newline (l : List Nat) (p : Nat) (hp : p + 1 < l.length)
    (hz : ∀ b ∈ l.take p, b ≠ 0) :
    ((l.set p 10).set (p + 1) 0).takeWhile (fun b => b != 0) = l.take p ++ [10] := by
  induction l generalizing p with
  | nil => simp at hp
  | cons a l ih =>
      cases p with
      | zero =>
          cases l with
          | nil => simp at hp
          | cons a' l => simp
      | succ p =>
          have ha : a ≠ 0 := hz a (by simp)
          simp only [List.set_cons_succ, List.take_succ_cons, List.cons_append]
          rw [List.takeWhile_cons_of_pos (by simpa using ha)]
          rw [ih p (by simpa using hp) (fun b hb => hz b (by simp [hb]))]

/-- C6: when the first occurrence of the magic in the buffer is at offset
`p`, `_extract_rc` leaves the first `p` bytes, followed by one newline
exactly when the buffer ended in a newline and `p > 0`; a buffer in which
the magic does not occur is left as it was. -/
theorem extract_rc_buffer (M buf : List Nat) (hM : M ≠ []) (hz : ∀ b ∈ buf, b ≠ 0) :
    (∀ p, FirstOccAt M buf p →
        (_extract_rc M buf).2
          = buf.take p ++ (if buf.getLast? = some 10 ∧ 0 < p then [10] else [])) ∧
      ((∀ p, ¬ OccursAt M buf p) → (_extract_rc M buf).2 = buf) := by
  constructor
  · intro p hp
    have hs := strstr_of_firstOccAt M buf p hp
    have hMlen : 0 < M.length := List.length_pos.mpr hM
    have hle : p ≤ buf.length := hp.1.1
    have hpre : M.length ≤ (buf.drop p).length := hp.1.2.length_le
    rw [List.length_drop] at hpre
    have hz1 : ∀ b ∈ (buf ++ [0]).take p, b ≠ 0 := by
      intro b hb
      rw [List.take_append_of_le_length hle] at hb
      exact hz b (List.mem_of_mem_take hb)
    simp only [_extract_rc, hs]
    by_cases hnl : buf.getLast? = some 10 ∧ 0 < p
    · have hb : (buf.getLast? == some 10 && p != 0) = true := by
        simp [hnl.1, Nat.pos_iff_ne_zero.mp hnl.2]
      simp only [hb, if_true, if_pos hnl, cstrAt, List.drop_zero]
      rw [takeWhile_set_newline (buf ++ [0]) p (by simp; omega) hz1,
        List.take_append_of_le_length hle]
    · have hb : (buf.getLast? == some 10 && p != 0) = false := by
        rcases Nat.eq_zero_or_pos p with h0 | h0
        · simp [h0]
        · have : ¬ buf.getLast? = some 10 := fun h => hnl ⟨h, h0⟩
          simp [this]
      simp only [hb, if_neg hnl, cstrAt, List.drop_zero, List.append_nil]
      simp only [Bool.false_eq_true, if_false]
      rw [takeWhile_set_zero (buf ++ [0]) p (by simp; omega) hz1,
        List.take_append_of_le_length hle]
  · intro hno
    rw [extract_rc_no_magic M buf (strstr_of_not_occurs M buf hno)]

theorem extract_rc_buffer_witness :
    FirstOccAt (bytes "XXRETCODE:") (bytes "hi XXRETCODE:0\n") 3 ∧
      (_extract_rc (bytes "XXRETCODE:") (bytes "hi XXRETCODE:0\n")).2 = bytes "hi \n" :=
  have hocc : FirstOccAt (bytes "XXRETCODE:") (bytes "hi XXRETCODE:0\n") 3 :=
    (strstr_spec (bytes "XXRETCODE:") (bytes "hi XXRETCODE:0\n")).1 3 (by decide)
  ⟨hocc,
   ((extract_rc_buffer (bytes "XXRETCODE:") (bytes "hi XXRETCODE:0\n") (by decide)
      (by decide)).1 3 hocc).trans (by decide)⟩

/-! ## Theorems: the rcp responses -/

/-- C7: what `_rcp_response` returns by the first byte of the response: 0
for 0x00, -1 for 0x01, 0 for 0x02 and for every other byte, -1 when there
is no byte to read. The values for 0x01 and for the fatal bytes are the
reverse of what the comment of the function announces. -/
theorem rcp_response_result (BUFSIZ : Nat) (inp : List Nat) (b : Nat) :
    (rcpResponse BUFSIZ (0 :: inp)).result = 0 ∧
      (rcpResponse BUFSIZ (1 :: inp)).result = -1 ∧
      (rcpResponse BUFSIZ (2 :: inp)).result = 0 ∧
      (rcpResponse BUFSIZ ((b + 3) :: inp)).result = 0 ∧
      (rcpResponse BUFSIZ []).result = -1 := by
  simp [rcpResponse]

/-- C8: a copy worker whose transport opened and whose peer answers the
metadata line of the file with the fatal response 0x02 `bad` LF ends in
DONE, and so does one whose peer gives that answer as its first response;
the driver reported the remote error in both runs. -/
theorem rcp_thread_done_after_fatal :
    (_rcp_thread 8192 demoFS (some (Conn.fresh (0 :: 2 :: bytes "bad\n") [])) [bytes "/b"]
        false).map (fun r => (r.1, r.2.map Conn.errs))
      = some (DSH_DONE, some [bytes "bad"]) ∧
    (_rcp_thread 8192 demoFS (some (Conn.fresh (2 :: bytes "bad\n") [])) [bytes "/b"]
        false).map (fun r => (r.1, r.2.map Conn.errs))
      = some (DSH_DONE, some [bytes "bad"]) := by
  decide

/-! ## Theorems: sending one file -/

theorem digitsCore_step (base fuel n : Nat) (acc : List Nat) :
    digitsCore base (fuel + 1) n acc =
      if n / base = 0 then (48 + n % base) :: acc
      else digitsCore base fuel (n / base) ((48 + n % base) :: acc) := rfl

/-- The conversion `%04o` of a value below 07777 + 1 gives four digits. -/
theorem fmtOct04_of_lt (m : Nat) (h : m < 4096) :
    fmtOct04 m = [48 + m / 512, 48 + m / 64 % 8, 48 + m / 8 % 8, 48 + m % 8] := by
  by_cases h1 : m / 8 = 0
  · have e : fmtNat 8 m = [48 + m % 8] := by
      simp only [fmtNat, digitsCore_step, if_pos h1]
    have a1 : m / 512 = 0 := by omega
    have a2 : m / 64 = 0 := by omega
    simp [fmtOct04, e, h1, a1, a2, List.replicate]
  · obtain ⟨k, rfl⟩ : ∃ k, m = k + 1 := ⟨m - 1, by omega⟩
    by_cases h2 : (k + 1) / 8 / 8 = 0
    · have e : fmtNat 8 (k + 1) = [48 + (k + 1) / 8 % 8, 48 + (k + 1) % 8] := by
        simp only [fmtNat, digitsCore_step, if_neg h1, if_pos h2]
      have a1 : (k + 1) / 512 = 0 := by omega
      have a2 : (k + 1) / 64 = 0 := by omega
      simp [fmtOct04, e, a1, a2, List.replicate]
    · obtain ⟨j, rfl⟩ : ∃ j, k = j + 1 := ⟨k - 1, by omega⟩
      by_cases h3 : (j + 1 + 1) / 8 / 8 / 8 = 0
      · have e : fmtNat 8 (j + 1 + 1) =
            [48 + (j + 1 + 1) / 8 / 8 % 8, 48 + (j + 1 + 1) / 8 % 8, 48 + (j + 1 + 1) % 8] := by
          simp only [fmtNat, digitsCore_step, if_neg h1, if_neg h2, if_pos h3]
        have a1 : (j + 1 + 1) / 512 = 0 := by omega
        have a2 : (j + 1 + 1) / 8 / 8 = (j + 1 + 1) / 64 := by omega
        simp [fmtOct04, e, a1, a2, List.replicate]
      · obtain ⟨i, rfl⟩ : ∃ i, j = i + 1 := ⟨j - 1, by omega⟩
        have h4 : (i + 1 + 1 + 1) / 8 / 8 / 8 / 8 = 0 := by omega
        have e : fmtNat 8 (i + 1 + 1 + 1) =
            [48 + (i + 1 + 1 + 1) / 8 / 8 / 8 % 8, 48 + (i + 1 + 1 + 1) / 8 / 8 % 8,
              48 + (i + 1 + 1 + 1) / 8 % 8, 48 + (i + 1 + 1 + 1) % 8] := by
          simp only [fmtNat, digitsCore_step, if_neg h1, if_neg h2, if_neg h3, if_pos h4]
        simp only [fmtOct04, e]
        simp
        omega

theorem digitsValue_digit (v d : Nat) (rest : List Nat) (hd : d < 10) :
    digitsValue v ((48 + d) :: rest) = digitsValue (10 * v + d) rest := by
  have h : isdigit (48 + d) = true := by
    simp [isdigit]
    omega
  simp [digitsValue, h]

/-- The digits that `digitsCore` puts in front of `acc` are decimal digits
which read back as `n`. -/
theorem digitsCore_value (fuel n : Nat) (acc : List Nat) (h : n < fuel) :
    ∃ ds, digitsCore 10 fuel n acc = ds ++ acc ∧ ds ≠ [] ∧ (∀ d ∈ ds, isdigit d = true) ∧
      ∀ v rest, digitsValue v (ds ++ rest) = digitsValue (v * 10 ^ ds.length + n) rest := by
  induction fuel generalizing n acc with
  | zero => omega
  | succ fuel ih =>
      rw [digitsCore_step]
      by_cases h0 : n / 10 = 0
      · rw [if_pos h0]
        refine ⟨[48 + n % 10], rfl, by simp, ?_, ?_⟩
        · intro d hd
          simp at hd
          subst hd
          simp [isdigit]
          omega
        · intro v rest
          rw [List.singleton_append, digitsValue_digit v (n % 10) rest (Nat.mod_lt _ (by omega))]
          congr 1
          simp
          omega
      · rw [if_neg h0]
        obtain ⟨ds, hds, hne, hdig, hval⟩ := ih (n / 10) ((48 + n % 10) :: acc) (by omega)
        refine ⟨ds ++ [48 + n % 10], by rw [hds]; simp, by simp, ?_, ?_⟩
        · intro d hd
          rcases List.mem_append.mp hd with hd | hd
          · exact hdig d hd
          · simp at hd
            subst hd
            simp [isdigit]
            omega
        · intro v rest
          rw [List.append_assoc, hval, List.singleton_append,
            digitsValue_digit _ (n % 10) rest (Nat.mod_lt _ (by omega))]
          congr 1
          rw [List.length_append, List.length_singleton, pow_succ]
          have := Nat.div_add_mod n 10
          nlinarith [this]

/-- The conversion `%ld` of a non-negative value is a run of decimal
digits that reads back as the value. -/
theorem fmtDec_value (n : Nat) :
    (∀ d ∈ fmtDec (n : Int), isdigit d = true) ∧ digitsValue 0 (fmtDec (n : Int)) = n := by
  obtain ⟨ds, hds, _, hdig, hval⟩ := digitsCore_value (n + 1) n [] (by omega)
  have hf : fmtDec (n : Int) = ds := by
    simp [fmtDec, fmtNat, hds]
  rw [hf]
  refine ⟨hdig, ?_⟩
  have := hval 0 []
  simp only [List.append_nil, Nat.zero_mul, Nat.zero_add] at this
  rw [this]
  rfl

/-! ### `atoi` and `_extract_rc` on the text of a number -/

theorem isdigit_bounds (d : Nat) (h : isdigit d = true) : 48 ≤ d ∧ d ≤ 57 := by
  simpa [isdigit] using h

/-- On a run of digits followed by nothing or by a newline, `atoi` gives
the value of the digits, as long as it fits an `int`. -/
theorem atoi_fmtDec (K : Nat) (hK : K < 2147483648) (rest : List Nat)
    (hrest : rest = [] ∨ rest = [10]) : atoi (fmtDec (K : Int) ++ rest) = K := by
  obtain ⟨ds, hds, hne, hdig, hval⟩ := digitsCore_value (K + 1) K [] (by omega)
  have hf : fmtDec (K : Int) = ds := by
    simp [fmtDec, fmtNat, hds]
  rw [hf]
  obtain ⟨d, ds1, rfl⟩ := List.exists_cons_of_ne_nil hne
  have hd := isdigit_bounds d (hdig d (by simp))
  have hsp : isspace d = false := by
    simp [isspace]
    omega
  have hv : digitsValue 0 (d :: ds1 ++ rest) = K := by
    have := hval 0 rest
    simp only [Nat.zero_mul, Nat.zero_add] at this
    rw [this]
    rcases hrest with h | h <;> subst h <;> simp [digitsValue, isdigit]
  have hsign : strtolSign (d :: (ds1 ++ rest)) = (false, d :: (ds1 ++ rest)) := by
    unfold strtolSign
    split
    · next heq => simp at heq; omega
    · next heq => simp at heq; omega
    · rfl
  have hst : strtol (d :: ds1 ++ rest) = K := by
    rw [List.cons_append] at hv
    simp only [strtol, List.cons_append, List.dropWhile_cons, hsp, Bool.false_eq_true, if_false,
      hsign, hv]
    omega
  simp only [atoi, hst, toInt32]
  omega

theorem fmtDec_digits (K : Nat) :
    fmtDec (K : Int) ≠ [] ∧ ∀ d ∈ fmtDec (K : Int), isdigit d = true := by
  obtain ⟨ds, hds, hne, hdig, _⟩ := digitsCore_value (K + 1) K [] (by omega)
  have hf : fmtDec (K : Int) = ds := by
    simp [fmtDec, fmtNat, hds]
  rw [hf]
  exact ⟨hne, hdig⟩

/-- Where the slip of the newline branch is not met -- the magic at the
start of the buffer, or no newline at its end -- `_extract_rc` returns the
number that follows the magic, if it fits an `int`. -/
theorem extract_rc_value_ok (M pre : List Nat) (K : Nat) (rest : List Nat) (hM : M ≠ [])
    (hK : K < 2147483648) (hrest : rest = [] ∨ rest = [10])
    (hocc : FirstOccAt M (pre ++ M ++ fmtDec (K : Int) ++ rest) pre.length)
    (hcase : pre = [] ∨ rest = []) :
    (_extract_rc M (pre ++ M ++ fmtDec (K : Int) ++ rest)).1 = K := by
  obtain ⟨hne, hdig⟩ := fmtDec_digits K
  have hs := strstr_of_firstOccAt _ _ _ hocc
  have hMlen : 0 < M.length := List.length_pos.mpr hM
  have hflag : ((pre ++ M ++ fmtDec (K : Int) ++ rest).getLast? == some 10
      && pre.length != 0) = false := by
    rcases hcase with h | h
    · subst h
      simp
    · subst h
      rw [List.append_nil, List.getLast?_append_of_ne_nil _ hne]
      cases hl : (fmtDec (K : Int)).getLast? with
      | none => simp
      | some x =>
          have hx := isdigit_bounds x (hdig x (List.mem_of_getLast?_eq_some hl))
          have : x ≠ 10 := by omega
          simp [this]
  have hnz : ∀ b ∈ fmtDec (K : Int) ++ rest, (b != 0) = true := by
    intro b hb
    rcases List.mem_append.mp hb with hb | hb
    · have := isdigit_bounds b (hdig b hb)
      simp
      omega
    · rcases hrest with h | h <;> subst h <;> simp at hb
      subst hb
      simp
  simp only [_extract_rc, hs, hflag, Bool.false_eq_true, if_false, cstrAt]
  rw [List.drop_set_of_lt _ _ (by omega)]
  have hsplit : pre ++ M ++ fmtDec (K : Int) ++ rest ++ [0]
      = (pre ++ M) ++ ((fmtDec (K : Int) ++ rest) ++ [0]) := by
    simp [List.append_assoc]
  rw [hsplit, List.drop_left' (by simp), List.takeWhile_append_of_pos hnz]
  simp only [List.takeWhile_cons, bne_self_eq_false, Bool.false_eq_true, if_false,
    List.append_nil]
  exact atoi_fmtDec K hK rest hrest

/-! ### The metadata lines -/

theorem modemask_lt (m : Nat) : m &&& RCP_MODEMASK < 4096 := by
  have h : RCP_MODEMASK = 4095 := by decide
  rw [h]
  exact Nat.lt_succ_of_le Nat.and_le_right

theorem rcpWriteLoop_ok (size : Int) (wres : List Int) (c : Conn) (rem : List Nat)
    (hw : ∀ r ∈ wres, 0 < r) :
    ∃ wres1, (∀ r ∈ wres1, 0 < r) ∧
      rcpWriteLoop size wres c rem
        = some (size, { c with out := c.out ++ rem, wres := wres1 }) := by
  induction wres generalizing c rem with
  | nil =>
      cases rem with
      | nil => exact ⟨[], hw, by simp [rcpWriteLoop]⟩
      | cons b rem => exact ⟨[], hw, by simp [rcpWriteLoop]⟩
  | cons r wres ih =>
      cases rem with
      | nil => exact ⟨r :: wres, hw, by simp [rcpWriteLoop]⟩
      | cons b rem =>
          have hr : 0 < r := hw r (List.mem_cons_self _ _)
          obtain ⟨w1, hw1, h1⟩ :=
            ih { c with out := c.out ++ (b :: rem).take r.toNat } ((b :: rem).drop r.toNat)
              (fun x hx => hw x (List.mem_cons_of_mem _ hx))
          refine ⟨w1, hw1, ?_⟩
          simp only [rcpWriteLoop]
          rw [if_neg (by omega), if_neg (by omega), h1]
          simp [List.append_assoc, List.take_append_drop]

theorem rcp_write_ok (c : Conn) (buf : List Nat) (hw : ∀ r ∈ c.wres, 0 < r) :
    ∃ wres1, (∀ r ∈ wres1, 0 < r) ∧
      _rcp_write c buf = some ((buf.length : Int), { c with out := c.out ++ buf, wres := wres1 }) :=
  rcpWriteLoop_ok buf.length c.wres c buf hw

theorem rcp_sendstr_ok (c : Conn) (str : List Nat) (hne : str ≠ [])
    (hlast : str.getLast? = some 10) (hw : ∀ r ∈ c.wres, 0 < r) :
    ∃ wres1, (∀ r ∈ wres1, 0 < r) ∧
      _rcp_sendstr c str
        = some (0, { c with acts := c.acts ++ [.str str], out := c.out ++ str, wres := wres1 }) := by
  obtain ⟨w1, hw1, h1⟩ := rcp_write_ok { c with acts := c.acts ++ [.str str] } str hw
  refine ⟨w1, hw1, ?_⟩
  have hpos : str.length > 0 := List.length_pos.mpr hne
  simp only [_rcp_sendstr, h1]
  rw [if_pos ⟨hpos, hlast⟩]
  simp

theorem sendFileLoop_ok (chunks : List (List Nat)) (c : Conn) (hch : ∀ ch ∈ chunks, ch ≠ [])
    (hw : ∀ r ∈ c.wres, 0 < r) :
    ∃ wres1, (∀ r ∈ wres1, 0 < r) ∧
      sendFileLoop (chunks.map some) c
        = some (0, { c with acts := c.acts ++ chunks.map .data,
                            out := c.out ++ chunks.flatten, wres := wres1 }) := by
  induction chunks generalizing c with
  | nil => exact ⟨c.wres, hw, by simp [sendFileLoop]⟩
  | cons ch chunks ih =>
      have hne : ch ≠ [] := hch ch (List.mem_cons_self _ _)
      have hpos : ch.length > 0 := List.length_pos.mpr hne
      obtain ⟨w1, hw1, h1⟩ := rcp_write_ok { c with acts := c.acts ++ [.data ch] } ch hw
      obtain ⟨w2, hw2, h2⟩ :=
        ih { c with acts := c.acts ++ [.data ch], out := c.out ++ ch, wres := w1 }
          (fun x hx => hch x (List.mem_cons_of_mem _ hx)) hw1
      refine ⟨w2, hw2, ?_⟩
      simp only [List.map_cons, sendFileLoop, if_pos hpos, h1]
      rw [if_neg (by omega), h2]
      simp [List.append_assoc]

theorem rcp_response_ok (BUFSIZ : Nat) (c : Conn) (rest : List Nat) (h : c.inp = 0 :: rest) :
    _rcp_response BUFSIZ c = (0, { c with inp := rest, acts := c.acts ++ [.response 0] }) := by
  simp [_rcp_response, h, rcpResponse]

theorem orFail_ok (r : Int) (c : Conn) (k : Conn → Option (Int × Conn)) (h : 0 ≤ r) :
    orFail (some (r, c)) k = k c := by
  simp only [orFail]
  rw [if_neg (by omega)]

theorem getLast?_of_eq_snoc (l pre : List Nat) (b : Nat) (h : l = pre ++ [b]) :
    l.getLast? = some b := by
  subst h
  simp

theorem lineT_last (sb : Stat) : (lineT sb).getLast? = some 10 :=
  getLast?_of_eq_snoc _
    (84 :: (fmtDec sb.st_atime ++ 32 :: (fmtDec 0 ++ 32 :: (fmtDec sb.st_mtime ++ 32 :: fmtDec 0))))
    10 (by simp [lineT])

theorem lineC_last (sb : Stat) (file : List Nat) : (lineC sb file).getLast? = some 10 :=
  getLast?_of_eq_snoc _
    (67 :: (fmtOct04 (sb.st_mode &&& RCP_MODEMASK) ++ 32 :: (fmtDec sb.st_size ++ 32 :: xbasename file)))
    10 (by simp [lineC])

theorem not_isdir_of_isreg (m : Nat) (h : S_ISREG m = true) : S_ISDIR m = false := by
  simp only [S_ISREG, beq_iff_eq] at h
  simp [S_ISDIR, h]

theorem contents_of_reads (f : File) (chunks : List (List Nat))
    (h : f.reads = some (chunks.map some)) : f.contents = chunks.flatten := by
  have hid : ((fun r : Option (List Nat) => r.getD []) ∘ some) = id := by
    funext x
    rfl
  simp [File.contents, h, List.map_map, hid]

/-- Steps 3b to 7 of `_rcp_sendfile` for a regular file, when the peer
answers 0x00 three times running and no write fails. -/
theorem rcp_sendfile_body_ok (BUFSIZ : Nat) (f : File) (file : List Nat)
    (chunks : List (List Nat)) (tail : List Nat) (c2 : Conn)
    (hreg : S_ISREG f.sb.st_mode = true) (hreads : f.reads = some (chunks.map some))
    (hch : ∀ ch ∈ chunks, ch ≠ []) (hw : ∀ r ∈ c2.wres, 0 < r)
    (hpeer : c2.inp = 0 :: 0 :: tail) :
    ∃ c1, sendfileBody BUFSIZ f file c2 = some (1, c1) ∧
      c1.inp = tail ∧
      c1.out = c2.out ++ lineC f.sb file ++ chunks.flatten ++ [0] ∧
      c1.acts = c2.acts ++ [Act.str (lineC f.sb file), Act.response 0] ++ chunks.map Act.data
          ++ [Act.nul, Act.response 0] ∧
      c1.errs = c2.errs := by
  obtain ⟨inp, out, wres, acts, errs⟩ := c2
  simp only at hw hpeer
  subst hpeer
  have hline : lineC f.sb file ≠ [] := by simp [lineC]
  obtain ⟨w3, hw3, h3⟩ := rcp_sendstr_ok ⟨0 :: 0 :: tail, out, wres, acts, errs⟩
    (lineC f.sb file) hline (lineC_last f.sb file) hw
  obtain ⟨w5, hw5, h5⟩ := sendFileLoop_ok chunks
    ⟨0 :: tail, out ++ lineC f.sb file, w3,
      acts ++ [Act.str (lineC f.sb file)] ++ [Act.response 0], errs⟩ hch hw3
  obtain ⟨w6, hw6, h6⟩ := rcp_write_ok
    ⟨0 :: tail, out ++ lineC f.sb file ++ chunks.flatten, w5,
      acts ++ [Act.str (lineC f.sb file)] ++ [Act.response 0] ++ chunks.map Act.data
        ++ [Act.nul], errs⟩ [0] hw5
  refine ⟨⟨tail, out ++ lineC f.sb file ++ chunks.flatten ++ [0], w6,
    acts ++ [Act.str (lineC f.sb file)] ++ [Act.response 0] ++ chunks.map Act.data
      ++ [Act.nul] ++ [Act.response 0], errs⟩, ?_, rfl, rfl, by simp, rfl⟩
  simp only [sendfileBody]
  rw [not_isdir_of_isreg _ hreg, hreg]
  simp only [Bool.false_eq_true, if_false, if_true]
  rw [h3, orFail_ok 0 _ _ (le_refl 0)]
  rw [rcp_response_ok BUFSIZ _ (0 :: tail) rfl, orFail_ok 0 _ _ (le_refl 0)]
  simp only [_rcp_send_file_data, hreads]
  rw [h5, orFail_ok 0 _ _ (le_refl 0)]
  rw [h6, orFail_ok _ _ _ (by simp)]
  rw [rcp_response_ok BUFSIZ _ tail rfl, orFail_ok 0 _ _ (le_refl 0)]

/-- C9, the claim as written fails: `_rcp_sendfile` sends what `read`
delivers up to the end of the file and never looks at `st_size` again. A
regular file for which `stat` gave the size 0 and whose reads deliver `hi`
has the C line with size 0 followed by two bytes of contents, and the
value is 1. And a regular file that `open` refuses has only its C line
written, and the value is 0. -/
theorem rcp_sendfile_size_counterexample :
    (_rcp_sendfile 8192
        (fun _ => some { sb := { st_mode := 0o100444, st_size := 0, st_atime := 1,
                                 st_mtime := 2 },
                         reads := some [some (bytes "hi")] })
        (Conn.fresh [0, 0, 0] []) (bytes "/x") false).map (fun r => (r.1, r.2.out))
      = some (1, bytes "C0444 0 x\nhi\x00") ∧
    (_rcp_sendfile 8192
        (fun _ => some { sb := { st_mode := 0o100444, st_size := 2, st_atime := 1,
                                 st_mtime := 2 },
                         reads := none })
        (Conn.fresh [0, 0, 0] []) (bytes "/x") false).map (fun r => (r.1, r.2.out))
      = some (0, bytes "C0444 2 x\n") := by
  decide

/-- C9, amended: for a regular file whose `open`, reads and writes succeed,
when the peer answers 0x00 every time, `_rcp_sendfile` returns 1 and has
written: with preserve-times the line `T<atime> 0 <mtime> 0` LF; the line
`C`, four octal digits of `st_mode & 07777`, a space, the decimal
`st_size` that `stat` gave, a space, the basename, LF; the bytes that the
reads deliver up to the end of the file, however many they are; one NUL.
One response is read after the T line, one after the C line, one after the
NUL, and no more. -/
theorem rcp_sendfile_regular (BUFSIZ : Nat) (fs : FS) (c : Conn) (file : List Nat)
    (popt : Bool) (f : File) (chunks : List (List Nat)) (tail : List Nat)
    (hstat : fs file = some f) (hreg : S_ISREG f.sb.st_mode = true)
    (hreads : f.reads = some (chunks.map some)) (hch : ∀ ch ∈ chunks, ch ≠ [])
    (hnn : 0 ≤ f.sb.st_size)
    (hw : ∀ r ∈ c.wres, 0 < r)
    (hpeer : c.inp = List.replicate (if popt then 3 else 2) 0 ++ tail) :
    ∃ c1, _rcp_sendfile BUFSIZ fs c file popt = some (1, c1) ∧
      c1.inp = tail ∧
      c1.out = c.out ++ (if popt then lineT f.sb else []) ++ lineC f.sb file
          ++ chunks.flatten ++ [0] ∧
      c1.acts = c.acts ++ (if popt then [Act.str (lineT f.sb), Act.response 0] else [])
          ++ [Act.str (lineC f.sb file), Act.response 0] ++ chunks.map Act.data
          ++ [Act.nul, Act.response 0] ∧
      c1.errs = c.errs ∧
      lineT f.sb = 84 :: (fmtDec f.sb.st_atime ++ bytes " 0 " ++ fmtDec f.sb.st_mtime
          ++ bytes " 0\n") ∧
      ((digitsValue 0 (fmtDec f.sb.st_size) : Nat) : Int) = f.sb.st_size ∧
      ∃ d3 d2 d1 d0 : Nat, d3 < 8 ∧ d2 < 8 ∧ d1 < 8 ∧ d0 < 8 ∧
        512 * d3 + 64 * d2 + 8 * d1 + d0 = f.sb.st_mode &&& 0o7777 ∧
        lineC f.sb file = 67 :: (48 + d3) :: (48 + d2) :: (48 + d1) :: (48 + d0) :: 32 ::
          (fmtDec f.sb.st_size ++ 32 :: (xbasename file ++ [10])) := by
  have hdec : ((digitsValue 0 (fmtDec f.sb.st_size) : Nat) : Int) = f.sb.st_size := by
    have e : f.sb.st_size = ((f.sb.st_size.toNat : Nat) : Int) := (Int.toNat_of_nonneg hnn).symm
    rw [e, (fmtDec_value f.sb.st_size.toNat).2]
  have hT : lineT f.sb = 84 :: (fmtDec f.sb.st_atime ++ bytes " 0 " ++ fmtDec f.sb.st_mtime
      ++ bytes " 0\n") := by
    have e1 : bytes " 0 " = [32, 48, 32] := by decide
    have e2 : bytes " 0\n" = [32, 48, 10] := by decide
    have e3 : fmtDec 0 = [48] := by decide
    simp [lineT, e1, e2, e3]
  have hC : ∃ d3 d2 d1 d0 : Nat, d3 < 8 ∧ d2 < 8 ∧ d1 < 8 ∧ d0 < 8 ∧
      512 * d3 + 64 * d2 + 8 * d1 + d0 = f.sb.st_mode &&& 0o7777 ∧
      lineC f.sb file = 67 :: (48 + d3) :: (48 + d2) :: (48 + d1) :: (48 + d0) :: 32 ::
        (fmtDec f.sb.st_size ++ 32 :: (xbasename file ++ [10])) := by
    have hmask : RCP_MODEMASK = 0o7777 := by decide
    have hlt := modemask_lt f.sb.st_mode
    rw [hmask] at hlt
    refine ⟨(f.sb.st_mode &&& 0o7777) / 512, (f.sb.st_mode &&& 0o7777) / 64 % 8,
      (f.sb.st_mode &&& 0o7777) / 8 % 8, (f.sb.st_mode &&& 0o7777) % 8,
      by omega, by omega, by omega, by omega, by omega, ?_⟩
    simp only [lineC, hmask, fmtOct04_of_lt _ hlt]
    simp
  obtain ⟨inp, out, wres, acts, errs⟩ := c
  simp only at hw hpeer
  subst hpeer
  simp only [_rcp_sendfile, hstat]
  cases popt with
  | false =>
      obtain ⟨c1, h1, h2, h3, h4, h5⟩ := rcp_sendfile_body_ok BUFSIZ f file chunks tail
        ⟨0 :: 0 :: tail, out, wres, acts, errs⟩ hreg hreads hch hw rfl
      refine ⟨c1, ?_, h2, ?_, ?_, h5, hT, hdec, hC⟩
      · simp only [Bool.false_eq_true, if_false]
        exact h1
      · rw [h3]
        simp
      · rw [h4]
        simp
  | true =>
      have hline : lineT f.sb ≠ [] := by simp [lineT]
      obtain ⟨w1, hw1, hs1⟩ := rcp_sendstr_ok ⟨0 :: 0 :: 0 :: tail, out, wres, acts, errs⟩
        (lineT f.sb) hline (lineT_last f.sb) hw
      obtain ⟨c1, h1, h2, h3, h4, h5⟩ := rcp_sendfile_body_ok BUFSIZ f file chunks tail
        ⟨0 :: 0 :: tail, out ++ lineT f.sb, w1,
          acts ++ [Act.str (lineT f.sb)] ++ [Act.response 0], errs⟩ hreg hreads hch hw1 rfl
      refine ⟨c1, ?_, h2, ?_, ?_, h5, hT, hdec, hC⟩
      · simp only [if_true]
        have e : List.replicate 3 0 ++ tail = 0 :: 0 :: 0 :: tail := rfl
        rw [e, hs1, orFail_ok 0 _ _ (le_refl 0)]
        rw [rcp_response_ok BUFSIZ _ (0 :: 0 :: tail) rfl, orFail_ok 0 _ _ (le_refl 0)]
        exact h1
      · rw [h3]
        simp
      · rw [h4]
        simp

theorem rcp_sendfile_regular_witness :
    ∃ c1, _rcp_sendfile 8192 demoFS (Conn.fresh [0, 0, 0, 7] [1, 5]) (bytes "/b") true
        = some (1, c1) ∧ c1.inp = [7] ∧ c1.out = bytes "T12 0 22 0\nC0600 1 b\nz\x00" :=
  have h := rcp_sendfile_regular 8192 demoFS (Conn.fresh [0, 0, 0, 7] [1, 5]) (bytes "/b") true
    (regularFile 0o600 12 22 [bytes "z"]) [bytes "z"] [7]
    (by decide) (by decide) (by decide) (by decide) (by decide) (by decide) (by decide)
  h.elim fun c1 hc => ⟨c1, hc.1, hc.2.1, hc.2.2.1.trans (by decide)⟩

/-- With preserve-times a failing write of the T line ends `_rcp_sendfile`
with the value 0 and nothing more sent (dsh.c:521-522). -/
theorem rcp_sendfile_time_line_failure :
    (_rcp_sendfile 8192 demoFS (Conn.fresh [0, 0, 0] [-1]) (bytes "/b") true).map
        (fun r => (r.1, r.2.out)) = some (0, []) := by
  decide

/-! ## Theorems: the lines a copy worker sends -/

theorem pres_refl (c : Conn) : Pres c c := fun _ ha => Or.inl ha

theorem pres_trans (c c1 c2 : Conn) (h1 : Pres c c1) (h2 : Pres c1 c2) : Pres c c2 := by
  intro a ha
  rcases h2 a ha with h | h
  · exact h1 a h
  · exact Or.inr h

theorem pres_of_acts_eq (c c1 : Conn) (h : c1.acts = c.acts) : Pres c c1 := by
  intro a ha
  rw [h] at ha
  exact Or.inl ha

theorem pres_snoc (c c1 : Conn) (a : Act) (h : c1.acts = c.acts ++ [a]) (ha : a.allowed) :
    Pres c c1 := by
  intro b hb
  rw [h] at hb
  rcases List.mem_append.mp hb with hb | hb
  · exact Or.inl hb
  · rw [List.mem_singleton.mp hb]
    exact Or.inr ha

theorem rcpWriteLoop_acts (size : Int) (wres : List Int) (c : Conn) (rem : List Nat)
    (r : Int) (c1 : Conn) (h : rcpWriteLoop size wres c rem = some (r, c1)) :
    c1.acts = c.acts := by
  induction wres generalizing c rem with
  | nil =>
      cases rem with
      | nil => simp [rcpWriteLoop] at h; rw [← h.2]
      | cons b rem => simp [rcpWriteLoop] at h; rw [← h.2]
  | cons x wres ih =>
      cases rem with
      | nil => simp [rcpWriteLoop] at h; rw [← h.2]
      | cons b rem =>
          simp only [rcpWriteLoop] at h
          split_ifs at h
          · simp at h; rw [← h.2]
          · exact ih { c with out := c.out ++ (b :: rem).take x.toNat } _ h

theorem rcp_write_acts (c : Conn) (buf : List Nat) (r : Int) (c1 : Conn)
    (h : _rcp_write c buf = some (r, c1)) : c1.acts = c.acts :=
  rcpWriteLoop_acts _ _ _ _ _ _ h

theorem rcp_sendstr_pres (c : Conn) (str : List Nat) (r : Int) (c1 : Conn)
    (hq : (Act.str str).allowed) (h : _rcp_sendstr c str = some (r, c1)) : Pres c c1 := by
  simp only [_rcp_sendstr] at h
  split_ifs at h
  cases hw : _rcp_write { c with acts := c.acts ++ [.str str] } str with
  | none => simp [hw] at h
  | some rc =>
      obtain ⟨r0, c0⟩ := rc
      have hacts := rcp_write_acts _ _ _ _ hw
      simp only [hw] at h
      split_ifs at h <;>
      · simp at h
        rw [← h.2]
        exact pres_snoc c c0 _ hacts hq

theorem rcp_response_pres (BUFSIZ : Nat) (c : Conn) : Pres c (_rcp_response BUFSIZ c).2 :=
  pres_snoc c _ (.response (rcpResponse BUFSIZ c.inp).result) rfl trivial

theorem sendFileLoop_pres (reads : List (Option (List Nat))) (c : Conn) (r : Int) (c1 : Conn)
    (h : sendFileLoop reads c = some (r, c1)) : Pres c c1 := by
  induction reads generalizing c with
  | nil => simp [sendFileLoop] at h; rw [← h.2]; exact pres_refl c
  | cons x reads ih =>
      cases x with
      | none => simp [sendFileLoop] at h; rw [← h.2]; exact pres_refl c
      | some chunk =>
          simp only [sendFileLoop] at h
          split_ifs at h
          · cases hw : _rcp_write { c with acts := c.acts ++ [.data chunk] } chunk with
            | none => simp [hw] at h
            | some rc =>
                obtain ⟨r0, c0⟩ := rc
                have hacts := rcp_write_acts _ _ _ _ hw
                have hp : Pres c c0 := pres_snoc c c0 _ hacts trivial
                simp only [hw] at h
                split_ifs at h
                · simp at h
                  rw [← h.2]
                  exact hp
                · exact pres_trans c c0 c1 hp (ih c0 h)
          · simp at h; rw [← h.2]; exact pres_refl c

theorem orFail_pres (c : Conn) (x : Option (Int × Conn)) (k : Conn → Option (Int × Conn))
    (r : Int) (c1 : Conn) (hx : ∀ r0 c0, x = some (r0, c0) → Pres c c0)
    (hk : ∀ c0 r1 c2, Pres c c0 → k c0 = some (r1, c2) → Pres c c2)
    (h : orFail x k = some (r, c1)) : Pres c c1 := by
  cases x with
  | none => simp [orFail] at h
  | some rc =>
      obtain ⟨r0, c0⟩ := rc
      simp only [orFail] at h
      split_ifs at h
      · simp at h
        rw [← h.2]
        exact hx r0 c0 rfl
      · exact hk c0 r c1 (hx r0 c0 rfl) h

theorem lineT_allowed (sb : Stat) : (Act.str (lineT sb)).allowed :=
  Or.inl (by simp [lineT])

theorem lineD_allowed (sb : Stat) (file : List Nat) : (Act.str (lineD sb file)).allowed :=
  Or.inr (Or.inl (by simp [lineD]))

theorem lineC_allowed (sb : Stat) (file : List Nat) : (Act.str (lineC sb file)).allowed :=
  Or.inr (Or.inr (by simp [lineC]))

theorem some_response_pres (BUFSIZ : Nat) (c c0 c1 : Conn) (r : Int) (hp : Pres c c0)
    (h : some (_rcp_response BUFSIZ c0) = some (r, c1)) : Pres c c1 := by
  simp only [Option.some.injEq] at h
  have := rcp_response_pres BUFSIZ c0
  rw [h] at this
  exact pres_trans c c0 c1 hp this

theorem sendfileBody_pres (BUFSIZ : Nat) (f : File) (file : List Nat) (c c2 : Conn)
    (r2 : Int) (c3 : Conn) (hp2 : Pres c c2)
    (h2 : sendfileBody BUFSIZ f file c2 = some (r2, c3)) : Pres c c3 := by
  simp only [sendfileBody] at h2
  refine orFail_pres c _ _ r2 c3 ?_ ?_ h2
  · intro r0 c0 hx
    refine pres_trans c c2 c0 hp2 (rcp_sendstr_pres c2 _ r0 c0 ?_ hx)
    split_ifs
    · exact lineD_allowed f.sb file
    · exact lineC_allowed f.sb file
  · intro c4 r4 c5 hp4 h4
    refine orFail_pres c _ _ r4 c5 ?_ ?_ h4
    · intro r0 c0 hx
      exact some_response_pres BUFSIZ c c4 c0 r0 hp4 hx
    · intro c6 r6 c7 hp6 h6
      split_ifs at h6
      · refine orFail_pres c _ _ r6 c7 ?_ ?_ h6
        · intro r0 c0 hx
          simp only [_rcp_send_file_data] at hx
          cases hr : f.reads with
          | none =>
              simp [hr] at hx
              rw [← hx.2]
              exact hp6
          | some reads =>
              simp only [hr] at hx
              exact pres_trans c c6 c0 hp6 (sendFileLoop_pres reads c6 r0 c0 hx)
        · intro c8 r8 c9 hp8 h8
          refine orFail_pres c _ _ r8 c9 ?_ ?_ h8
          · intro r0 c0 hx
            have hacts := rcp_write_acts _ _ _ _ hx
            exact pres_trans c c8 c0 hp8 (pres_snoc c8 c0 .nul hacts trivial)
          · intro c10 r10 c11 hp10 h10
            refine orFail_pres c _ _ r10 c11 ?_ ?_ h10
            · intro r0 c0 hx
              exact some_response_pres BUFSIZ c c10 c0 r0 hp10 hx
            · intro c12 r12 c13 hp12 h12
              simp at h12
              rw [← h12.2]
              exact hp12
      · simp at h6
        rw [← h6.2]
        exact hp6

theorem rcp_sendfile_pres (BUFSIZ : Nat) (fs : FS) (c : Conn) (file : List Nat) (popt : Bool)
    (r : Int) (c1 : Conn) (h : _rcp_sendfile BUFSIZ fs c file popt = some (r, c1)) :
    Pres c c1 := by
  simp only [_rcp_sendfile] at h
  cases hf : fs file with
  | none => simp [hf] at h; rw [← h.2]; exact pres_refl c
  | some f =>
      simp only [hf] at h
      cases popt with
      | false =>
          simp only [Bool.false_eq_true, if_false] at h
          exact sendfileBody_pres BUFSIZ f file c c r c1 (pres_refl c) h
      | true =>
          simp only [if_true] at h
          refine orFail_pres c _ _ r c1 ?_ ?_ h
          · intro r1 c2 h1
            exact rcp_sendstr_pres c _ r1 c2 (lineT_allowed f.sb) h1
          · intro c2 r2 c3 hp h2
            refine orFail_pres c _ _ r2 c3 ?_ ?_ h2
            · intro r0 c0 hx
              exact some_response_pres BUFSIZ c c2 c0 r0 hp hx
            · intro c4 r4 c5 hp4 h4
              exact sendfileBody_pres BUFSIZ f file c c4 r4 c5 hp4 h4

theorem sendFiles_pres (BUFSIZ : Nat) (fs : FS) (popt : Bool) (files : List (List Nat))
    (c c1 : Conn) (h : sendFiles BUFSIZ fs popt c files = some c1) : Pres c c1 := by
  induction files generalizing c with
  | nil => simp [sendFiles] at h; rw [← h]; exact pres_refl c
  | cons file files ih =>
      simp only [sendFiles] at h
      cases hs : _rcp_sendfile BUFSIZ fs c file popt with
      | none => simp [hs] at h
      | some rc =>
          obtain ⟨r0, c0⟩ := rc
          simp only [hs] at h
          exact pres_trans c c0 c1 (rcp_sendfile_pres BUFSIZ fs c file popt r0 c0 hs) (ih c0 h)

theorem rcp_thread_pres (BUFSIZ : Nat) (fs : FS) (c : Conn) (infiles : List (List Nat))
    (popt : Bool) (st : DshState) (c1 : Conn)
    (h : _rcp_thread BUFSIZ fs (some c) infiles popt = some (st, some c1)) : Pres c c1 := by
  simp only [_rcp_thread] at h
  split_ifs at h
  · cases hs : sendFiles BUFSIZ fs popt (_rcp_response BUFSIZ c).2 infiles with
    | none => simp [hs] at h
    | some c0 =>
        simp [hs] at h
        rw [← h.2]
        exact pres_trans c _ c0 (rcp_response_pres BUFSIZ c) (sendFiles_pres BUFSIZ fs popt _ _ _ hs)
  · simp at h
    rw [← h.2]
    exact rcp_response_pres BUFSIZ c

/-- C10, as the code has it: of the metadata lines a copy worker sends,
every one begins with `T`, `D` or `C`; none is the end-of-directory line
`E` LF, so the entries after a directory's contents follow them
directly. -/
theorem rcp_lines_never_end_directory (BUFSIZ : Nat) (fs : FS) (inp : List Nat)
    (wres : List Int) (infiles : List (List Nat)) (popt : Bool) (line : List Nat)
    (h : line ∈ rcpLines BUFSIZ fs inp wres infiles popt) :
    (line.head? = some 84 ∨ line.head? = some 68 ∨ line.head? = some 67) ∧
      line ≠ bytes "E\n" := by
  have key : line.head? = some 84 ∨ line.head? = some 68 ∨ line.head? = some 67 := by
    simp only [rcpLines] at h
    split at h
    · rename_i st c hrun
      obtain ⟨a, ha, hline⟩ := List.mem_filterMap.mp h
      cases a with
      | str l =>
          simp only [Act.line?, Option.some.injEq] at hline
          subst hline
          rcases rcp_thread_pres BUFSIZ fs _ infiles popt st c hrun _ ha with h0 | h0
          · simp [Conn.fresh] at h0
          · exact h0
      | data ch => simp [Act.line?] at hline
      | nul => simp [Act.line?] at hline
      | response r => simp [Act.line?] at hline
    · simp at h
  refine ⟨key, ?_⟩
  intro heq
  rw [heq] at key
  revert key
  decide

theorem rcp_lines_never_end_directory_witness :
    bytes "C0600 1 b\n" ∈ rcpLines 8192 demoFS (List.replicate 6 0) [] demoFiles false ∧
      bytes "C0600 1 b\n" ≠ bytes "E\n" :=
  ⟨by decide,
   (rcp_lines_never_end_directory 8192 demoFS (List.replicate 6 0) [] demoFiles false
      (bytes "C0600 1 b\n") (by decide)).2⟩

/-- C10 fails as stated: for the list `/dir`, `/dir/x`, `/b` the worker
sends the `D` line of the directory, the `C` line and contents of `x`, and
then at once the `C` line of `/b`; the bytes `E` LF occur nowhere in the
stream. -/
theorem rcp_no_end_of_directory_counterexample :
    rcpStream 8192 demoFS (List.replicate 6 0) demoFiles false
        = some (bytes "D0755 0 dir\nC0644 2 x\nhi\x00C0600 1 b\nz\x00") ∧
      strstr (bytes "D0755 0 dir\nC0644 2 x\nhi\x00C0600 1 b\nz\x00") (bytes "E\n") = none ∧
      rcpLines 8192 demoFS (List.replicate 6 0) [] demoFiles false
        = [bytes "D0755 0 dir\n", bytes "C0644 2 x\n", bytes "C0600 1 b\n"] := by
  decide

/-! ## Theorems: a fatal answer to the metadata line -/

/-- C11: when the peer answers the `C` line of the regular file `/b` with
0x02 `bad` LF, `_rcp_sendfile` takes the answer for a good one: it goes on
to send the contents and the NUL, reads the next response and returns 1.
It is the answer 0x01 that makes it stop before the contents and return
0. -/
theorem rcp_sendfile_sends_data_after_fatal :
    (_rcp_sendfile 8192 demoFS (Conn.fresh (2 :: bytes "bad\n" ++ [0]) []) (bytes "/b")
        false).map (fun r => (r.1, r.2.out, r.2.acts))
      = some (1, bytes "C0600 1 b\nz\x00",
          [Act.str (bytes "C0600 1 b\n"), Act.response 0, Act.data (bytes "z"), Act.nul,
            Act.response 0]) ∧
    (_rcp_sendfile 8192 demoFS (Conn.fresh (1 :: bytes "bad\n" ++ [0]) []) (bytes "/b")
        false).map (fun r => (r.1, r.2.out, r.2.acts))
      = some (0, bytes "C0600 1 b\n", [Act.str (bytes "C0600 1 b\n"), Act.response (-1)]) := by
  decide

/-! ## Theorems: the remote command -/

/-- C12: the command of a copy worker is the rcp path, then ` -r` exactly
when the recursive flag is set, then ` -p` exactly when the preserve flag
is set, then ` -d` exactly when the input list has more than one entry,
then ` -t ` and the target, and nothing else. -/
theorem rcp_command_text (_PATH_RCP : List Nat) (pcp_ropt pcp_popt : Bool)
    (pcp_infiles : List (List Nat)) (pcp_outfile : List Nat) :
    rcpCommand _PATH_RCP pcp_ropt pcp_popt pcp_infiles pcp_outfile
      = some (_PATH_RCP ++ (if pcp_ropt = true then bytes " -r" else [])
          ++ (if pcp_popt = true then bytes " -p" else [])
          ++ (if 1 < pcp_infiles.length then bytes " -d" else [])
          ++ bytes " -t " ++ pcp_outfile) := by
  cases pcp_ropt <;> cases pcp_popt <;> by_cases h : 1 < pcp_infiles.length <;>
    simp [rcpCommand, xstrcat, h]

/-! ## Theorems: the watchdog -/

theorem wdogScan_fst (ct cmt : Int) (now : Nat → Int) (t : List WdogEntry) (i : Nat) :
    (wdogScan ct cmt now i t).1 = i + t.length := by
  induction t generalizing i with
  | nil => simp [wdogScan]
  | cons w rest ih =>
      simp only [wdogScan, ih, List.length_cons]
      omega

/-- On a table that is not empty the watchdog sleeps `WDOG_POLL` after
every pass, the first one included. -/
theorem wdogSleeps_nonempty (ct cmt poll : Int) (now : Nat → Int)
    (tables : List (List WdogEntry)) (h : ∀ t ∈ tables, t ≠ []) :
    wdogSleeps ct cmt poll now tables = tables.map fun _ => poll := by
  induction tables with
  | nil => rfl
  | cons t tables ih =>
      have ht : t ≠ [] := h t (List.mem_cons_self _ _)
      have hlen : 0 < t.length := List.length_pos.mpr ht
      simp only [wdogSleeps, List.map_cons, wdogScan_fst, wdogSleep]
      rw [if_neg (by omega), ih fun u hu => h u (List.mem_cons_of_mem _ hu)]

/-- C19: with one worker in the table, a connect timeout of 10 and a poll
interval of 2, the watchdog sleeps 2 seconds after its first pass and 2
after the second; it sleeps the connect timeout only when the table is
empty. -/
theorem wdog_first_sleep_is_poll :
    wdogSleeps 10 0 2 (fun _ => 0) [[⟨DSH_RCMD, 0, 0⟩], [⟨DSH_RCMD, 0, 0⟩]] = [2, 2] ∧
      wdogSleeps 10 0 2 (fun _ => 0) [[], []] = [10, 10] := by
  decide

theorem wdogScan_mem (ct cmt : Int) (now : Nat → Int) (t : List WdogEntry) (i j : Nat) :
    j ∈ (wdogScan ct cmt now i t).2 ↔
      ∃ w, i ≤ j ∧ t[j - i]? = some w ∧ wdogKills ct cmt (now j) w = true := by
  induction t generalizing i with
  | nil => simp [wdogScan]
  | cons w rest ih =>
      simp only [wdogScan]
      constructor
      · intro hj
        split_ifs at hj with hk
        · rcases List.mem_cons.mp hj with rfl | hj
          · exact ⟨w, le_refl _, by simp, hk⟩
          · obtain ⟨v, hle, hget, hv⟩ := (ih (i + 1)).mp hj
            refine ⟨v, by omega, ?_, hv⟩
            have : j - i = (j - (i + 1)) + 1 := by omega
            rw [this, List.getElem?_cons_succ]
            exact hget
        · obtain ⟨v, hle, hget, hv⟩ := (ih (i + 1)).mp hj
          refine ⟨v, by omega, ?_, hv⟩
          have : j - i = (j - (i + 1)) + 1 := by omega
          rw [this, List.getElem?_cons_succ]
          exact hget
      · rintro ⟨v, hle, hget, hv⟩
        by_cases hji : j = i
        · subst hji
          simp only [Nat.sub_self, List.getElem?_cons_zero, Option.some.injEq] at hget
          subst hget
          simp [hv]
        · have hmem : j ∈ (wdogScan ct cmt now (i + 1) rest).2 := by
            refine (ih (i + 1)).mpr ⟨v, by omega, ?_, hv⟩
            have : j - i = (j - (i + 1)) + 1 := by omega
            rw [this, List.getElem?_cons_succ] at hget
            exact hget
          split_ifs
          · exact List.mem_cons_of_mem _ hmem
          · exact hmem

/-- C20: on a scan the watchdog sends SIGALRM to worker `j` exactly when
that worker is CONNECTING with a positive connect timeout and
`now > start + connect_timeout`, or STREAMING with a positive command
timeout and `now > connect + command_timeout`; workers in NEW, DONE or
FAILED get nothing, and a timeout of 0 switches its test off. -/
theorem wdog_interrupts_exactly (connect_timeout command_timeout : Int) (now : Nat → Int)
    (t : List WdogEntry) (j : Nat) :
    (j ∈ (wdogScan connect_timeout command_timeout now 0 t).2 ↔
      ∃ w, t[j]? = some w ∧
        ((w.state = DSH_RCMD ∧ connect_timeout > 0 ∧ now j > w.start + connect_timeout) ∨
          (w.state = DSH_READING ∧ command_timeout > 0 ∧
            now j > w.connect + command_timeout))) ∧
      (wdogScan 0 0 now 0 t).2 = [] := by
  have hk : ∀ (ct cmt : Int) (n : Int) (w : WdogEntry), wdogKills ct cmt n w = true ↔
      ((w.state = DSH_RCMD ∧ ct > 0 ∧ n > w.start + ct) ∨
        (w.state = DSH_READING ∧ cmt > 0 ∧ n > w.connect + cmt)) := by
    intro ct cmt n w
    obtain ⟨st, s0, c0⟩ := w
    cases st <;> simp [wdogKills]
  constructor
  · rw [wdogScan_mem]
    constructor
    · rintro ⟨w, _, hget, hw⟩
      exact ⟨w, by simpa using hget, (hk _ _ _ w).mp hw⟩
    · rintro ⟨w, hget, hw⟩
      exact ⟨w, Nat.zero_le _, by simpa using hget, (hk _ _ _ w).mpr hw⟩
  · apply List.eq_nil_iff_forall_not_mem.mpr
    intro j hj
    obtain ⟨w, _, _, hw⟩ := (wdogScan_mem 0 0 now t 0 j).mp hj
    have := (hk 0 0 (now j) w).mp hw
    omega

/-! ## Theorems: the interrupt handler -/

theorem fwd_signal_known (cfg : BuildConfig) (signum : Int) (t : List SigEntry)
    (hk : ∀ w ∈ t, cfg.knows w.rcmd_type = true) :
    _fwd_signal cfg signum t = (expectedForwards signum t, false) := by
  induction t with
  | nil => rfl
  | cons w rest ih =>
      have hw := hk w (List.mem_cons_self _ _)
      have ih1 := ih fun v hv => hk v (List.mem_cons_of_mem _ hv)
      obtain ⟨st, ty, efd⟩ := w
      by_cases hs : st = DSH_READING
      · subst hs
        cases ty <;> simp [BuildConfig.knows] at hw <;>
          simp [_fwd_signal, fwdOne, expectedForwards, hw, ih1, List.filterMap_cons]
      · simp [_fwd_signal, expectedForwards, hs, ih1, List.filterMap_cons]

/-- One call is expected for each STREAMING worker whose transport is not
ssh, and none for any other worker. -/
theorem expectedForwards_length (signum : Int) (t : List SigEntry) :
    (expectedForwards signum t).length
      = (t.filter fun w => decide (w.state = DSH_READING ∧ w.rcmd_type ≠ RCMD_SSH)).length := by
  induction t with
  | nil => rfl
  | cons w rest ih =>
      obtain ⟨st, ty, efd⟩ := w
      by_cases hs : st = DSH_READING
      · subst hs
        cases ty <;> simp [expectedForwards, List.filterMap_cons, List.filter_cons] at ih ⊢ <;>
          exact ih
      · simp [expectedForwards, List.filterMap_cons, List.filter_cons, hs] at ih ⊢
        exact ih

/-- C18: in normal mode an interrupt ends the process exactly when its
clock reading is no more than `INTR_TIME` above the time recorded by the
interrupt before it; `_fwd_signal` has then gone through the table and
handed the signal to the transport of every STREAMING worker, in table
order, and to no worker in another phase: the signal function of the
transport is called for bsd, kerberos and interconnect, and ssh has none.
Every other interrupt prints the notice, records its time, lists the
workers and lets the sequence go on; the first interrupt is one of these,
the recorded time being 0 at the start and the clock reading, in seconds
since 1970, being above `INTR_TIME`. -/
theorem int_handler_outcome (cfg : BuildConfig) (INTR_TIME : Int) (debug : Bool)
    (signum last_intr now1 now2 : Int) (t : List SigEntry)
    (rest : List (Int × Int × List SigEntry))
    (hk : ∀ w ∈ t, cfg.knows w.rcmd_type = true) (hclock : INTR_TIME < now1) :
    _int_handler cfg INTR_TIME debug signum last_intr now1 now2 t
        = (if now1 - last_intr ≤ INTR_TIME then .aborted (expectedForwards signum t)
           else .listed now2 (_list_slowthreads debug 0 t)) ∧
      intrRun cfg INTR_TIME debug signum last_intr ((now1, now2, t) :: rest)
        = (if now1 - last_intr ≤ INTR_TIME then [.aborted (expectedForwards signum t)]
           else .listed now2 (_list_slowthreads debug 0 t)
             :: intrRun cfg INTR_TIME debug signum now2 rest) ∧
      _int_handler cfg INTR_TIME debug signum 0 now1 now2 t
        = .listed now2 (_list_slowthreads debug 0 t) ∧
      intrRun cfg INTR_TIME debug signum 0 ((now1, now2, t) :: rest)
        = .listed now2 (_list_slowthreads debug 0 t)
            :: intrRun cfg INTR_TIME debug signum now2 rest ∧
      (expectedForwards signum t).length
        = (t.filter fun w => decide (w.state = DSH_READING ∧ w.rcmd_type ≠ RCMD_SSH)).length := by
  have h1 : ∀ last : Int, _int_handler cfg INTR_TIME debug signum last now1 now2 t
      = (if now1 - last ≤ INTR_TIME then .aborted (expectedForwards signum t)
         else .listed now2 (_list_slowthreads debug 0 t)) := by
    intro last
    simp only [_int_handler]
    by_cases h : now1 - last ≤ INTR_TIME
    · rw [if_neg (by omega), if_pos h, fwd_signal_known cfg signum t hk]
    · rw [if_pos (by omega), if_neg h]
  have h2 : ∀ last : Int, intrRun cfg INTR_TIME debug signum last ((now1, now2, t) :: rest)
      = (if now1 - last ≤ INTR_TIME then [.aborted (expectedForwards signum t)]
         else .listed now2 (_list_slowthreads debug 0 t)
           :: intrRun cfg INTR_TIME debug signum now2 rest) := by
    intro last
    simp only [intrRun, h1 last]
    by_cases h : now1 - last ≤ INTR_TIME
    · simp only [if_pos h]
    · simp only [if_neg h]
  have hfirst : ¬ (now1 - 0 ≤ INTR_TIME) := by omega
  refine ⟨h1 last_intr, h2 last_intr, ?_, ?_, ?_⟩
  · rw [h1 0, if_neg hfirst]
  · rw [h2 0, if_neg hfirst]
  · exact expectedForwards_length signum t

theorem int_handler_outcome_witness :
    intrRun ⟨false, false, true⟩ 1 false 2 0
        [(1000, 1000, [⟨DSH_READING, RCMD_BSD, 5⟩, ⟨DSH_RCMD, RCMD_BSD, 6⟩,
            ⟨DSH_READING, RCMD_SSH, -1⟩]),
         (1001, 1001, [⟨DSH_READING, RCMD_BSD, 5⟩, ⟨DSH_RCMD, RCMD_BSD, 6⟩,
            ⟨DSH_READING, RCMD_SSH, -1⟩])]
      = [.listed 1000 [(0, DSH_READING), (1, DSH_RCMD), (2, DSH_READING)],
         .aborted [.xrcmd_signal 5 2]] :=
  ((int_handler_outcome ⟨false, false, true⟩ 1 false 2 0 1000 1000
      [⟨DSH_READING, RCMD_BSD, 5⟩, ⟨DSH_RCMD, RCMD_BSD, 6⟩, ⟨DSH_READING, RCMD_SSH, -1⟩]
      [(1001, 1001, [⟨DSH_READING, RCMD_BSD, 5⟩, ⟨DSH_RCMD, RCMD_BSD, 6⟩,
          ⟨DSH_READING, RCMD_SSH, -1⟩])]
      (by decide) (by decide)).2.2.2.1).trans (by decide)

/-- The transport ssh has no signal function: for a STREAMING worker on
ssh `_fwd_signal` takes the branch `case RCMD_SSH: break;` and calls
nothing. -/
theorem fwd_signal_ssh_no_call :
    _int_handler ⟨false, false, true⟩ 1 false 2 1000 1001 1001
        [⟨DSH_READING, RCMD_SSH, -1⟩, ⟨DSH_READING, RCMD_BSD, 5⟩]
      = .aborted [.xrcmd_signal 5 2] ∧
    _int_handler ⟨false, false, true⟩ 1 false 2 1000 1001 1001
        [⟨DSH_READING, RCMD_SSH, -1⟩]
      = .aborted [] := by
  decide

/-! ## Theorems: the phases a worker writes -/

theorem drainInv_init (N : Nat) : DrainInv (Sched.init N) := by
  refine ⟨?_, ?_, ?_, ?_, ?_, ?_, ?_⟩
  · simp [Sched.init, Sched.liveCount, List.countP_replicate]
  · intro j w _ hj
    simp [Sched.init, List.getElem?_replicate] at hj
    rw [← hj.2]
  · intro j w hj
    simp [Sched.init] at hj
  · simp [Sched.init]
  · simp [Sched.init]
  · simp [Sched.init]
  · simp [Sched.init]

/-- A worker that changes its phase and stays alive keeps the
invariant. -/
theorem drainInv_set_live (s : Sched) (j : Nat) (w v : WorkerSt) (hinv : DrainInv s)
    (hget : s.t[j]? = some w) (hw : w.live = true) (hv : v.live = true) :
    DrainInv { s with t := s.t.set j v } := by
  obtain ⟨h1, h2, h3, h4, h5, h6, h7⟩ := hinv
  have hlt : j < s.t.length := (List.getElem?_eq_some_iff.mp hget).1
  refine ⟨?_, ?_, ?_, ?_, ?_, h6, by simpa using h7⟩
  · have := countP_set_of_get (fun w => w.live) s.t j w v hget
    simp only [hw, hv, if_true] at this
    simp only [Sched.liveCount] at h1 ⊢
    omega
  · intro k u hk hu
    have hne : j ≠ k := by
      intro hjk
      subst hjk
      have := h2 j w hk hget
      rw [hw] at this
      cases this
    simp only [List.getElem?_set_ne hne] at hu
    exact h2 k u hk hu
  · intro k u hk hu
    by_cases hjk : j = k
    · subst hjk
      simp only [List.getElem?_set_self hlt, Option.some.injEq] at hu
      rw [← hu]
      exact Or.inl hv
    · simp only [List.getElem?_set_ne hjk] at hu
      exact h3 k u hk hu
  · simpa using h4
  · simpa using h5

theorem drainInv_main (F : Int) (s s1 : Sched) (hinv : DrainInv s)
    (h : mainStep F s = some s1) : DrainInv s1 := by
  obtain ⟨pc, i, tc, sg, t⟩ := s
  obtain ⟨h1, h2, h3, h4, h5, h6, h7⟩ := hinv
  simp only [Sched.liveCount] at h1 h2 h3 h4 h5 h6 h7
  cases pc with
  | loopTop =>
      simp only [mainStep] at h
      split_ifs at h with hlt
      · simp only [Option.some.injEq] at h
        subst h
        exact ⟨by simpa [Sched.liveCount] using h1, by simpa using h2, by simpa using h3,
          fun _ => hlt, by simp, by simp, h7⟩
      · simp only [Option.some.injEq] at h
        subst h
        refine ⟨by simpa [Sched.liveCount] using h1, by simpa using h2, by simpa using h3,
          by simp, ?_, by simp, h7⟩
        intro _
        show i = t.length
        omega
  | check =>
      have hb : i < t.length := h4 (Or.inl rfl)
      simp only [mainStep] at h
      split_ifs at h with heq
      · simp only [Option.some.injEq] at h
        subst h
        exact ⟨by simpa [Sched.liveCount] using h1, by simpa using h2, by simpa using h3,
          fun _ => hb, by simp, by simp, h7⟩
      · simp only [Option.some.injEq] at h
        subst h
        exact ⟨by simpa [Sched.liveCount] using h1, by simpa using h2, by simpa using h3,
          fun _ => hb, by simp, by simp, h7⟩
  | waiting => simp [mainStep] at h
  | create =>
      have hb : i < t.length := h4 (Or.inr (Or.inr (Or.inl rfl)))
      simp only [mainStep, Option.some.injEq] at h
      subst h
      have hget : t[i]? = some t[i] := List.getElem?_eq_getElem hb
      have hfresh : t[i].live = false := h2 i t[i] (by simp) hget
      have hmod : t.modify (fun w => { w with live := true }) i
          = t.set i { t[i] with live := true } := List.modify_eq_set_get _ hb
      refine ⟨?_, ?_, ?_, fun _ => by simpa [hmod] using hb, by simp, by simp,
        by simpa [hmod] using h7⟩
      · have := countP_set_of_get (fun w => w.live) t i t[i] { t[i] with live := true } hget
        simp only [hfresh, if_true, Bool.false_eq_true, if_false] at this
        simp only [Sched.liveCount, hmod]
        simp at h1
        simp
        omega
      · intro k u hk hu
        simp only [if_true] at hk
        simp only [hmod] at hu
        rw [List.getElem?_set_ne (by omega)] at hu
        exact h2 k u (by simp; omega) hu
      · intro k u hk hu
        simp only [if_true] at hk
        simp only [hmod] at hu
        by_cases hik : i = k
        · subst hik
          simp only [List.getElem?_set_self hb, Option.some.injEq] at hu
          rw [← hu]
          exact Or.inl rfl
        · rw [List.getElem?_set_ne hik] at hu
          exact h3 k u (by simp; omega) hu
  | incr =>
      have hb : i < t.length := h4 (Or.inr (Or.inr (Or.inr rfl)))
      simp only [mainStep, Option.some.injEq] at h
      subst h
      refine ⟨?_, ?_, ?_, by simp, by simp, by simp, hb⟩
      · simp at h1
        simp [Sched.liveCount]
        omega
      · intro k u hk hu
        exact h2 k u (by simpa using hk) hu
      · intro k u hk hu
        exact h3 k u (by simpa using hk) hu
  | drainCheck =>
      have hd : i = t.length := h5 (Or.inl rfl)
      simp only [mainStep] at h
      split_ifs at h with hpos
      · simp only [Option.some.injEq] at h
        subst h
        exact ⟨by simpa [Sched.liveCount] using h1, by simpa using h2, by simpa using h3,
          by simp, fun _ => hd, by simp, h7⟩
      · simp only [Option.some.injEq] at h
        subst h
        refine ⟨by simpa [Sched.liveCount] using h1, by simpa using h2, by simpa using h3,
          by simp, fun _ => hd, ?_, h7⟩
        intro _
        show tc ≤ 0
        omega
  | drainWaiting => simp [mainStep] at h
  | finished => simp [mainStep] at h

theorem drainInv_wake (s s1 : Sched) (hinv : DrainInv s) (h : wakeUp s = some s1) :
    DrainInv s1 := by
  obtain ⟨pc, i, tc, sg, t⟩ := s
  obtain ⟨h1, h2, h3, h4, h5, h6, h7⟩ := hinv
  simp only [Sched.liveCount] at h1 h2 h3 h4 h5 h6 h7
  cases pc <;> simp only [wakeUp, Option.some.injEq] at h <;> try cases h
  · have hb : i < t.length := h4 (Or.inr (Or.inl rfl))
    exact ⟨by simpa [Sched.liveCount] using h1, by simpa using h2, by simpa using h3,
      fun _ => hb, by simp, by simp, h7⟩
  · have hd : i = t.length := h5 (Or.inr (Or.inl rfl))
    exact ⟨by simpa [Sched.liveCount] using h1, by simpa using h2, by simpa using h3,
      by simp, fun _ => hd, by simp, h7⟩

theorem drainInv_exit (F : Int) (s s1 : Sched) (j : Nat) (hinv : DrainInv s)
    (h : step F s (.exit j) = some s1) : DrainInv s1 := by
  simp only [step] at h
  split_ifs at h with hfree
  split at h
  · rename_i s2 hs2
    obtain ⟨w, v, hget, hlive, hf, hs2eq⟩ := workerStep_some s s2 j _ hs2
    split_ifs at hf with hterm
    simp only [Option.some.injEq] at hf h
    subst hf hs2eq h
    obtain ⟨h1, h2, h3, h4, h5, h6, h7⟩ := hinv
    have hlt : j < s.t.length := (List.getElem?_eq_some_iff.mp hget).1
    have hpc : s.pc ≠ .incr := by
      intro hpc
      simp [Sched.mutexFree, hpc] at hfree
    have hfin : s.pc ≠ .finished := by
      intro hpc
      simp [Sched.mutexFree, hpc] at hfree
    have hcnt := countP_set_of_get (fun w => w.live) s.t j w { w with live := false } hget
    simp only [hlive, if_true, Bool.false_eq_true, if_false] at hcnt
    refine ⟨?_, ?_, ?_, ?_, ?_, ?_, ?_⟩
    · simp only [Sched.liveCount, if_neg hpc] at h1 ⊢
      omega
    · intro k u hk hu
      by_cases hjk : j = k
      · subst hjk
        simp only [List.getElem?_set_self hlt, Option.some.injEq] at hu
        rw [← hu]
      · simp only [List.getElem?_set_ne hjk] at hu
        exact h2 k u hk hu
    · intro k u hk hu
      by_cases hjk : j = k
      · subst hjk
        simp only [List.getElem?_set_self hlt, Option.some.injEq] at hu
        rw [← hu]
        exact Or.inr hterm
      · simp only [List.getElem?_set_ne hjk] at hu
        exact h3 k u hk hu
    · simpa using h4
    · simpa using h5
    · intro hp
      exact absurd hp hfin
    · simpa using h7
  · cases h

theorem drainInv_step (F : Int) (s s1 : Sched) (e : Event) (hinv : DrainInv s)
    (h : step F s e = some s1) : DrainInv s1 := by
  cases e with
  | main => exact drainInv_main F s s1 hinv h
  | wake =>
      simp only [step] at h
      split_ifs at h with hsig
      exact drainInv_wake s s1 hinv h
  | spuriousWake => exact drainInv_wake s s1 hinv h
  | connect j =>
      obtain ⟨w, v, hget, hlive, hf, hs⟩ := workerStep_some s s1 j _ h
      split_ifs at hf
      simp only [Option.some.injEq] at hf
      subst hf hs
      exact drainInv_set_live s j w _ hinv hget hlive hlive
  | connected j =>
      obtain ⟨w, v, hget, hlive, hf, hs⟩ := workerStep_some s s1 j _ h
      split_ifs at hf
      simp only [Option.some.injEq] at hf
      subst hf hs
      exact drainInv_set_live s j w _ hinv hget hlive hlive
  | finish j ok =>
      obtain ⟨w, v, hget, hlive, hf, hs⟩ := workerStep_some s s1 j _ h
      split_ifs at hf <;>
      · simp only [Option.some.injEq] at hf
        subst hf hs
        exact drainInv_set_live s j w _ hinv hget hlive hlive
  | exit j => exact drainInv_exit F s s1 j hinv h

theorem drainInv_run (F : Int) (es : List Event) (s s1 : Sched) (hinv : DrainInv s)
    (h : run F s es = some s1) : DrainInv s1 := by
  induction es generalizing s with
  | nil =>
      simp only [run, Option.some.injEq] at h
      rw [← h]
      exact hinv
  | cons e es ih =>
      simp only [run] at h
      cases hs : step F s e with
      | none => simp [hs] at h
      | some s2 =>
          simp only [hs] at h
          exact ih s2 (drainInv_step F s s2 e hinv hs) h

theorem step_length (F : Int) (s s1 : Sched) (e : Event) (h : step F s e = some s1) :
    s1.t.length = s.t.length := by
  have hw : ∀ s2, wakeUp s = some s2 → s2.t.length = s.t.length := by
    intro s2 h2
    simp only [wakeUp] at h2
    split at h2 <;> simp at h2 <;> rw [← h2]
  have hws : ∀ (j : Nat) (f : WorkerSt → Option WorkerSt) (s2 : Sched),
      workerStep s j f = some s2 → s2.t.length = s.t.length := by
    intro j f s2 h2
    obtain ⟨w, v, _, _, _, hs⟩ := workerStep_some s s2 j f h2
    rw [hs]
    simp
  cases e with
  | main =>
      simp only [step, mainStep] at h
      split at h <;> try split_ifs at h
      all_goals (cases h <;> simp)
  | wake =>
      simp only [step] at h
      split_ifs at h
      exact hw s1 h
  | spuriousWake => exact hw s1 h
  | connect j => exact hws j _ s1 h
  | connected j => exact hws j _ s1 h
  | finish j ok => exact hws j _ s1 h
  | exit j =>
      simp only [step] at h
      split_ifs at h
      split at h
      · rename_i s2 hs2
        simp only [Option.some.injEq] at h
        rw [← h]
        exact hws j _ s2 hs2
      · cases h

theorem run_length (F : Int) (es : List Event) (s s1 : Sched) (h : run F s es = some s1) :
    s1.t.length = s.t.length := by
  induction es generalizing s with
  | nil =>
      simp only [run, Option.some.injEq] at h
      rw [← h]
  | cons e es ih =>
      simp only [run] at h
      cases hs : step F s e with
      | none => simp [hs] at h
      | some s2 =>
          simp only [hs] at h
          rw [ih s2 h, step_length F s s2 e hs]

/-- C17: in every state that an execution of `dsh()` with `N` hosts can
reach, spurious wake-ups included, in which the drain loop has been left,
the launch loop has created all `N` workers, `threadcount` is 0, no worker
thread is left that has not given back its slot, and every entry of the
table is DONE or FAILED. -/
theorem drain_loop_exit (F : Int) (N : Nat) (es : List Event) (s : Sched)
    (h : run F (Sched.init N) es = some s) (hfin : s.pc = .finished) :
    s.t.length = N ∧ s.i = N ∧ s.threadcount = 0 ∧
      ∀ w ∈ s.t, w.live = false ∧ (w.state = DSH_DONE ∨ w.state = DSH_FAILED) := by
  have hinv := drainInv_run F es _ s (drainInv_init N) h
  have hlen : s.t.length = N := by
    rw [run_length F es _ s h]
    simp [Sched.init]
  have hi : s.i = s.t.length := hinv.drained (Or.inr (Or.inr hfin))
  have htc := hinv.fin hfin
  have hle := hinv.live_eq
  simp only [hfin, if_false] at hle
  have hpc : ¬ (MainPc.finished = MainPc.incr) := by decide
  simp only [if_neg hpc] at hle
  have hzero : s.liveCount = 0 := by omega
  have hdead : ∀ w ∈ s.t, w.live = false := by
    intro w hw
    have := List.countP_eq_zero.mp hzero w hw
    simpa using this
  refine ⟨hlen, by omega, by omega, ?_⟩
  intro w hw
  refine ⟨hdead w hw, ?_⟩
  obtain ⟨j, hj, hget⟩ := List.getElem_of_mem hw
  have hget2 : s.t[j]? = some w := by
    rw [List.getElem?_eq_getElem hj, hget]
  rcases hinv.old j w (by simp [hfin]; omega) hget2 with hl | hterm
  · rw [hdead w hw] at hl
    cases hl
  · exact hterm

theorem drain_loop_exit_witness :
    run 1 (Sched.init 1) drainTrace
        = some ⟨.finished, 1, 0, false, [⟨DSH_FAILED, false⟩]⟩ ∧
      ∀ w ∈ [(⟨DSH_FAILED, false⟩ : WorkerSt)],
        w.live = false ∧ (w.state = DSH_DONE ∨ w.state = DSH_FAILED) :=
  ⟨by decide,
   (drain_loop_exit 1 1 drainTrace ⟨.finished, 1, 0, false, [⟨DSH_FAILED, false⟩]⟩
      (by decide) rfl).2.2.2⟩

/-! ## Theorems: the expansion of the input files -/

theorem skipped_false (d_ino : Nat) (d_name : List Nat) (h1 : ¬ d_ino = 0)
    (h2 : ¬ (d_name = bytes "." ∨ d_name = bytes "..")) : skipped d_ino d_name = false := by
  simp only [not_or] at h2
  simp [skipped, h1, h2.1, h2.2]

/-- The loop of `_rexpand_dir` either ends the process or appends the
descendants of the directory, in pre-order, to the list. -/
theorem rexpandLoop_eq (name : List Nat) (readable : Bool) (es : Entries) (list : List Item) :
    rexpandLoop name readable es list
      = if canExpand readable es then some (list ++ descendants name es) else none := by
  induction es generalizing name readable list with
  | nil => simp [rexpandLoop, canExpand, descendants]
  | cons d_ino d_name st_mode rd opens sub rest ihsub ihrest =>
      by_cases h1 : d_ino = 0
      · have hs : skipped d_ino d_name = true := by simp [skipped, h1]
        simp only [rexpandLoop, if_pos h1, canExpand, descendants, hs, ihrest, Bool.true_or,
          Bool.true_and, if_true]
      · by_cases h2 : d_name = bytes "." ∨ d_name = bytes ".."
        · have hs : skipped d_ino d_name = true := by
            rcases h2 with h | h <;> simp [skipped, h]
          simp only [rexpandLoop, if_neg h1, if_pos h2, canExpand, descendants, hs, ihrest,
            Bool.true_or, Bool.true_and, if_true]
        · have hs := skipped_false d_ino d_name h1 h2
          simp only [rexpandLoop, if_neg h1, if_neg h2, canExpand, descendants, hs,
            Bool.false_or, Bool.false_eq_true, if_false]
          cases st_mode with
          | none => simp [regOrDir]
          | some m =>
              cases readable with
              | false => simp
              | true =>
                  simp only [Bool.true_eq_false, if_false, regOrDir, isDirMode, Bool.and_true]
                  rcases Bool.eq_false_or_eq_true (S_ISDIR m) with hd | hd
                  · cases opens with
                    | false => simp [hd]
                    | true =>
                        simp only [hd, ihsub, ihrest]
                        cases hc : canExpand rd sub <;> cases hr : canExpand true rest <;> simp
                  · rcases Bool.eq_false_or_eq_true (S_ISREG m) with hr | hr
                    · simp only [hd, hr, ihrest]
                      cases hc : canExpand true rest <;> simp
                    · simp [hd, hr]

theorem rexpand_dir_eq (list : List Item) (dir : Item) :
    _rexpand_dir list dir
      = if dir.opens && canExpand dir.readable dir.entries then
          some (list ++ descendants dir.name dir.entries)
        else none := by
  simp only [_rexpand_dir, rexpandLoop_eq]
  cases dir.opens <;> simp

/-- The loop of `_expand_dirs` either ends the process or appends the
expansion of the remaining input paths to the list. -/
theorem expandLoop_eq (infiles new : List Item) :
    expandLoop infiles new
      = if infiles.all Item.expands then some (new ++ specExpand infiles) else none := by
  induction infiles generalizing new with
  | nil => simp [expandLoop, specExpand]
  | cons it infiles ih =>
      obtain ⟨nm, mode, rd, op, es⟩ := it
      have hspec : specExpand (⟨nm, mode, rd, op, es⟩ :: infiles)
          = ((⟨nm, mode, rd, op, es⟩ : Item) ::
              (if isDirMode mode then descendants nm es else []))
            ++ specExpand infiles := by
        simp [specExpand, List.flatMap_cons]
      rw [hspec]
      simp only [expandLoop, List.all_cons, Item.expands]
      cases rd with
      | false => simp
      | true =>
          cases mode with
          | none => simp
          | some m =>
              simp only [Bool.true_eq_false, if_false, Option.isSome_some, Bool.true_and,
                isDirMode, rexpand_dir_eq, ih]
              rcases Bool.eq_false_or_eq_true (S_ISDIR m) with hd | hd
              · simp only [hd, if_true, Bool.not_true, Bool.false_or]
                cases op <;> cases hc : canExpand true es <;>
                  cases ha : infiles.all Item.expands <;> simp
              · simp only [hd, Bool.false_eq_true, if_false, Bool.not_false, Bool.true_or,
                  Bool.true_and]
                cases ha : infiles.all Item.expands <;> simp

theorem expand_dirs_eq (infiles : List Item) :
    _expand_dirs infiles
      = if infiles.all Item.expands then some (specExpand infiles) else none := by
  simp [_expand_dirs, expandLoop_eq]

theorem canExpand_of_good (es : Entries) (h : es.good = true) : canExpand true es = true := by
  induction es with
  | nil => rfl
  | cons d_ino d_name st_mode rd opens sub rest ihsub ihrest =>
      simp only [Entries.good, Bool.and_eq_true, Bool.or_eq_true, Bool.not_eq_true'] at h
      obtain ⟨h1, h2⟩ := h
      simp only [canExpand, Bool.and_eq_true, Bool.or_eq_true, Bool.not_eq_true', Bool.and_true]
      refine ⟨?_, ihrest h2⟩
      rcases h1 with h1 | ⟨⟨h3, h4⟩, h5⟩
      · exact Or.inl h1
      · right
        refine ⟨h3, ?_⟩
        rcases h5 with h5 | ⟨h5, h6⟩
        · exact Or.inl h5
        · right
          subst h4
          exact ⟨h5, ihsub h6⟩

theorem expands_of_good (it : Item) (h : it.good = true) : it.expands = true := by
  simp only [Item.good, Bool.and_eq_true, Bool.or_eq_true, Bool.not_eq_true'] at h
  obtain ⟨⟨h1, h2⟩, h3⟩ := h
  have hsome : it.st_mode.isSome = true := by
    cases hm : it.st_mode with
    | none => simp [regOrDir, hm] at h1
    | some m => rfl
  simp only [Item.expands, Bool.and_eq_true, Bool.or_eq_true, Bool.not_eq_true']
  refine ⟨⟨h2, hsome⟩, ?_⟩
  rcases h3 with h3 | ⟨h3, h4⟩
  · exact Or.inl h3
  · right
    rw [h2]
    exact ⟨h3, canExpand_of_good _ h4⟩

/-- C13: when every path of the input list and everything below it is a
readable regular file or a readable directory that can be opened,
`_expand_dirs` returns the input paths in their order, each followed at
once by its descendants in depth-first pre-order, named parent, slash,
entry name, in the order of `readdir`, without `.`, `..` and entries of
inode 0. -/
theorem expand_dirs_listing (infiles : List Item) (hgood : ∀ it ∈ infiles, it.good = true) :
    _expand_dirs infiles = some (specExpand infiles) := by
  rw [expand_dirs_eq]
  have hall : infiles.all Item.expands = true := by
    rw [List.all_eq_true]
    intro it hit
    exact expands_of_good it (hgood it hit)
  rw [if_pos hall]

theorem expand_dirs_listing_witness :
    (_expand_dirs [plainItem (bytes "/a"), dirXY]).map (fun l => l.map Item.name)
      = some [bytes "/a", bytes "/dir", bytes "/dir/x", bytes "/dir/y"] :=
  have h := expand_dirs_listing [plainItem (bytes "/a"), dirXY] (by decide)
  by rw [h]; decide

theorem mem_specExpand (infiles : List Item) (x : Item) :
    x ∈ specExpand infiles ↔
      ∃ it ∈ infiles, x = it ∨
        (isDirMode it.st_mode = true ∧ x ∈ descendants it.name it.entries) := by
  simp only [specExpand, List.mem_flatMap, List.mem_cons]
  constructor
  · rintro ⟨it, hit, hx | hx⟩
    · exact ⟨it, hit, Or.inl hx⟩
    · split_ifs at hx with hd
      · exact ⟨it, hit, Or.inr ⟨hd, hx⟩⟩
      · cases hx
  · rintro ⟨it, hit, hx | ⟨hd, hx⟩⟩
    · exact ⟨it, hit, Or.inl hx⟩
    · exact ⟨it, hit, Or.inr (by rw [if_pos hd]; exact hx)⟩

/-- The descendants of a descendant are descendants. -/
theorem descendants_trans (es : Entries) (name : List Nat) (d x : Item)
    (hd : d ∈ descendants name es) (hdir : isDirMode d.st_mode = true)
    (hx : x ∈ descendants d.name d.entries) : x ∈ descendants name es := by
  induction es generalizing name with
  | nil => simp [descendants] at hd
  | cons d_ino d_name st_mode rd opens sub rest ihsub ihrest =>
      by_cases hs : skipped d_ino d_name = true
      · simp only [descendants, hs, if_true] at hd ⊢
        exact ihrest name hd
      · simp only [descendants, hs, Bool.false_eq_true, if_false] at hd ⊢
        rcases List.mem_append.mp hd with hd | hd
        · apply List.mem_append_left
          rcases List.mem_cons.mp hd with hd | hd
          · subst hd
            simp only at hdir hx
            rw [if_pos hdir]
            exact List.mem_cons_of_mem _ hx
          · by_cases hdm : isDirMode st_mode = true
            · rw [if_pos hdm] at hd ⊢
              exact List.mem_cons_of_mem _ (ihsub _ hd)
            · rw [if_neg hdm] at hd
              cases hd
        · exact List.mem_append_right _ (ihrest name hd)

/-- Where the loop of `_rexpand_dir` gets through, every descendant can
be stat'ed, and every directory among them can be opened and gets through
in its turn. -/
theorem canExpand_descendants (es : Entries) (name : List Nat) (readable : Bool) (d : Item)
    (hc : canExpand readable es = true) (hd : d ∈ descendants name es) :
    d.st_mode.isSome = true ∧
      (isDirMode d.st_mode = true → d.opens = true ∧ canExpand d.readable d.entries = true) := by
  induction es generalizing name readable with
  | nil => simp [descendants] at hd
  | cons d_ino d_name st_mode rd opens sub rest ihsub ihrest =>
      simp only [canExpand, Bool.and_eq_true, Bool.or_eq_true, Bool.not_eq_true'] at hc
      obtain ⟨hc1, hc2⟩ := hc
      by_cases hs : skipped d_ino d_name = true
      · simp only [descendants, hs, if_true] at hd
        exact ihrest name readable hc2 hd
      · simp only [descendants, hs, Bool.false_eq_true, if_false] at hd
        rcases hc1 with hc1 | ⟨⟨hreg, _⟩, hsub⟩
        · exact absurd hc1 hs
        · rcases List.mem_append.mp hd with hd | hd
          · rcases List.mem_cons.mp hd with hd | hd
            · subst hd
              refine ⟨?_, ?_⟩
              · cases st_mode with
                | none => simp [regOrDir] at hreg
                | some m => rfl
              · intro hdir
                rcases hsub with hsub | hsub
                · simp only at hdir
                  rw [hdir] at hsub
                  cases hsub
                · exact hsub
            · by_cases hdm : isDirMode st_mode = true
              · rw [if_pos hdm] at hd
                rcases hsub with hsub | hsub
                · rw [hdm] at hsub
                  cases hsub
                · exact ihsub _ rd hsub.2 hd
              · rw [if_neg hdm] at hd
                cases hd
          · exact ihrest name readable hc2 hd

theorem sublist_specExpand (l : List Item) : l.Sublist (specExpand l) := by
  induction l with
  | nil => simp [specExpand]
  | cons it l ih =>
      have hspec : specExpand (it :: l)
          = it :: ((if isDirMode it.st_mode then descendants it.name it.entries else [])
            ++ specExpand l) := by
        simp [specExpand, List.flatMap_cons]
      rw [hspec]
      exact List.Sublist.cons₂ it (List.Sublist.trans ih (List.sublist_append_right _ _))

theorem specExpand_eq_self_iff (l : List Item) :
    specExpand l = l ↔
      ∀ it ∈ l, isDirMode it.st_mode = true → descendants it.name it.entries = [] := by
  induction l with
  | nil => simp [specExpand]
  | cons it l ih =>
      have hspec : specExpand (it :: l)
          = it :: ((if isDirMode it.st_mode then descendants it.name it.entries else [])
            ++ specExpand l) := by
        simp [specExpand, List.flatMap_cons]
      rw [hspec]
      constructor
      · intro h
        simp only [List.cons.injEq, true_and] at h
        have hlen := congrArg List.length h
        have hsub := (sublist_specExpand l).length_le
        rw [List.length_append] at hlen
        have h0 : (if isDirMode it.st_mode then descendants it.name it.entries else [])
            = [] := List.length_eq_zero.mp (by omega)
        rw [h0, List.nil_append] at h
        intro x hx hdir
        rcases List.mem_cons.mp hx with hx | hx
        · subst hx
          rw [if_pos hdir] at h0
          exact h0
        · exact ih.mp h x hx hdir
      · intro h
        have h1 : (if isDirMode it.st_mode then descendants it.name it.entries else [])
            = [] := by
          split_ifs with hdir
          · exact h it (List.mem_cons_self _ _) hdir
          · rfl
        rw [h1, List.nil_append, ih.mpr fun x hx => h x (List.mem_cons_of_mem _ hx)]

/-- C14, as the code has it: when the expansion of a list succeeds and
every name it returns is readable, the expansion of the expanded list
succeeds too; its result has the first expansion as a subsequence and
names nothing that the first one does not name, the descendants of every
directory being listed once more after it. Both lists are the same exactly
when no directory of the first expansion has anything below it. -/
theorem expand_dirs_twice (infiles expanded : List Item)
    (h : _expand_dirs infiles = some expanded)
    (hr : ∀ it ∈ expanded, it.readable = true) :
    ∃ again, _expand_dirs expanded = some again ∧ expanded.Sublist again ∧
      (∀ it ∈ again, it ∈ expanded) ∧
      (again = expanded ↔
        ∀ it ∈ expanded, isDirMode it.st_mode = true →
          descendants it.name it.entries = []) := by
  rw [expand_dirs_eq] at h
  split_ifs at h with hall
  simp only [Option.some.injEq] at h
  rw [List.all_eq_true] at hall
  have hok : ∀ it ∈ expanded, it.expands = true := by
    intro it hit
    rw [← h] at hit
    obtain ⟨l, hl, hx | ⟨hdir, hx⟩⟩ := (mem_specExpand infiles it).mp hit
    · rw [hx]
      exact hall l hl
    · have hle := hall l hl
      simp only [Item.expands, Bool.and_eq_true, Bool.or_eq_true, Bool.not_eq_true'] at hle
      rcases hle.2 with hle2 | hle2
      · rw [hdir] at hle2
        cases hle2
      · obtain ⟨hsome, hsub⟩ := canExpand_descendants _ _ _ it hle2.2 hx
        have hrd := hr it (by rw [← h]; exact hit)
        simp only [Item.expands, Bool.and_eq_true, Bool.or_eq_true, Bool.not_eq_true']
        refine ⟨⟨hrd, hsome⟩, ?_⟩
        by_cases hd : isDirMode it.st_mode = true
        · exact Or.inr (hsub hd)
        · exact Or.inl (by simpa using hd)
  refine ⟨specExpand expanded, ?_, sublist_specExpand expanded, ?_,
    specExpand_eq_self_iff expanded⟩
  · rw [expand_dirs_eq, if_pos (List.all_eq_true.mpr hok)]
  · intro x hx
    obtain ⟨it, hit, hxit | ⟨hdir, hxd⟩⟩ := (mem_specExpand expanded x).mp hx
    · rw [hxit]
      exact hit
    · rw [← h] at hit ⊢
      obtain ⟨l, hl, hil | ⟨hldir, hild⟩⟩ := (mem_specExpand infiles it).mp hit
      · subst hil
        exact (mem_specExpand infiles x).mpr ⟨it, hl, Or.inr ⟨hdir, hxd⟩⟩
      · exact (mem_specExpand infiles x).mpr
          ⟨l, hl, Or.inr ⟨hldir, descendants_trans _ _ it x hild hdir hxd⟩⟩

theorem expand_dirs_twice_witness :
    ∃ again, _expand_dirs [dirXY, plainItem (bytes "/dir/x"), plainItem (bytes "/dir/y")]
        = some again ∧
      [dirXY, plainItem (bytes "/dir/x"), plainItem (bytes "/dir/y")].Sublist again :=
  have h := expand_dirs_twice [dirXY]
    [dirXY, plainItem (bytes "/dir/x"), plainItem (bytes "/dir/y")] (by decide) (by decide)
  h.elim fun again ha => ⟨again, ha.1, ha.2.1⟩

/-- C14 fails as stated: the expansion of `/dir`, which holds `x` and `y`,
is `/dir`, `/dir/x`, `/dir/y`; expanding that list gives `/dir`, `/dir/x`,
`/dir/y`, `/dir/x`, `/dir/y`. -/
theorem expand_dirs_twice_counterexample :
    (_expand_dirs [dirXY]).map (fun l => l.map Item.name)
        = some [bytes "/dir", bytes "/dir/x", bytes "/dir/y"] ∧
      ((_expand_dirs [dirXY]).bind _expand_dirs).map (fun l => l.map Item.name)
        = some [bytes "/dir", bytes "/dir/x", bytes "/dir/y", bytes "/dir/x",
            bytes "/dir/y"] := by
  decide

/-- C15: `_expand_dirs` returns a list for the directory `/d` although the
file `secret` in it is not readable, and for the named pipe `/pipe` given
as an input path; it does end the process for an input path that is not
readable and for a named pipe met below a directory. -/
theorem expand_dirs_unchecked :
    (_expand_dirs [dirSecret]).map (fun l => l.map fun it => (it.name, it.readable))
        = some [(bytes "/d", true), (bytes "/d/secret", false)] ∧
      (_expand_dirs [fifoItem]).map (fun l => l.map fun it => (it.name, regOrDir it.st_mode))
        = some [(bytes "/pipe", false)] ∧
      _expand_dirs [⟨bytes "/secret", some 0o100600, false, false, .nil⟩] = none ∧
      _expand_dirs [⟨bytes "/d", some 0o040755, true, true,
          .cons 3 (bytes "pipe") (some 0o010644) true false .nil .nil⟩] = none := by
  decide

/-! ## Theorems: failures in the middle of a command worker's run -/

theorem rshLoop_ready (RC_MAGIC : List Nat) (dsh_sopt : Bool) (out err : Option (Int × List Nat))
    (rest : List SelectEv) (l : RshLoop) :
    rshLoop RC_MAGIC dsh_sopt (.ready out err :: rest) l =
      if rshWaiting dsh_sopt l then
        rshLoop RC_MAGIC dsh_sopt rest (rshPass RC_MAGIC dsh_sopt l out err)
      else some (DSH_DONE, l) := by
  simp only [rshLoop, rshWaiting, rshPass]

theorem rshLoop_idle (RC_MAGIC : List Nat) (dsh_sopt : Bool) (evs : List SelectEv) (l : RshLoop)
    (h : rshWaiting dsh_sopt l = false) :
    rshLoop RC_MAGIC dsh_sopt evs l = some (DSH_DONE, l) := by
  simp only [rshWaiting] at h
  cases evs <;> simp [rshLoop, h]

/-- The loop over events in which `select` always succeeds: it ends, with
`result` still DONE, exactly when no stream is left in the wait set. -/
theorem rshLoop_all_ready (RC_MAGIC : List Nat) (dsh_sopt : Bool) (evs : List SelectEv)
    (l : RshLoop) (h : ∀ ev ∈ evs, ev.isReady = true) :
    rshLoop RC_MAGIC dsh_sopt evs l =
      if rshWaiting dsh_sopt (rshPasses RC_MAGIC dsh_sopt evs l) then none
      else some (DSH_DONE, rshPasses RC_MAGIC dsh_sopt evs l) := by
  induction evs generalizing l with
  | nil => simp only [rshLoop, rshPasses, rshWaiting]
  | cons ev rest ih =>
      cases ev with
      | eintr => have := h .eintr (List.mem_cons_self _ _); simp [SelectEv.isReady] at this
      | error => have := h .error (List.mem_cons_self _ _); simp [SelectEv.isReady] at this
      | ready out err =>
          rw [rshLoop_ready]
          by_cases hw : rshWaiting dsh_sopt l = true
          · rw [if_pos hw, ih _ (fun ev hev => h ev (List.mem_cons_of_mem _ hev))]
            simp only [rshPasses, hw, if_true]
          · simp only [rshPasses, hw, Bool.false_eq_true, if_false]

/-- The loop over events in which `select` succeeds and then fails with an
error other than EINTR. -/
theorem rshLoop_then_error (RC_MAGIC : List Nat) (dsh_sopt : Bool) (pre rest : List SelectEv)
    (l : RshLoop) (h : ∀ ev ∈ pre, ev.isReady = true) :
    rshLoop RC_MAGIC dsh_sopt (pre ++ .error :: rest) l =
      if rshWaiting dsh_sopt (rshPasses RC_MAGIC dsh_sopt pre l) then
        some (DSH_FAILED,
          { rshPasses RC_MAGIC dsh_sopt pre l with
            diags := (rshPasses RC_MAGIC dsh_sopt pre l).diags ++ [.selectError] })
      else some (DSH_DONE, rshPasses RC_MAGIC dsh_sopt pre l) := by
  induction pre generalizing l with
  | nil =>
      by_cases hw : rshWaiting dsh_sopt l = true
      · have hw2 := hw
        simp only [rshWaiting] at hw2
        simp only [List.nil_append, rshPasses, hw, if_true, rshLoop, hw2]
      · simp only [Bool.not_eq_true] at hw
        simp only [List.nil_append, rshPasses, hw, Bool.false_eq_true, if_false]
        exact rshLoop_idle _ _ _ _ hw
  | cons ev pre ih =>
      cases ev with
      | eintr => have := h .eintr (List.mem_cons_self _ _); simp [SelectEv.isReady] at this
      | error => have := h .error (List.mem_cons_self _ _); simp [SelectEv.isReady] at this
      | ready out err =>
          rw [List.cons_append, rshLoop_ready]
          by_cases hw : rshWaiting dsh_sopt l = true
          · rw [if_pos hw, ih _ (fun ev hev => h ev (List.mem_cons_of_mem _ hev))]
            simp only [rshPasses, hw, if_true]
          · simp only [rshPasses, hw, Bool.false_eq_true, if_false]

theorem rsh_thread_connected (RC_MAGIC : List Nat) (cfg : BuildConfig) (rcmd_type : RcmdType)
    (dsh_sopt : Bool) (evs : List SelectEv) (hk : cfg.knows rcmd_type = true) :
    _rsh_thread RC_MAGIC cfg rcmd_type dsh_sopt true evs =
      match rshLoop RC_MAGIC dsh_sopt evs (rshStart dsh_sopt) with
      | some (result, l) => (⟨[DSH_RCMD, DSH_READING, result], true⟩, some l)
      | none => (⟨[DSH_RCMD, DSH_READING], false⟩, none) := by
  simp only [_rsh_thread, hk, if_true, rshStart]

/-- C21, the claim as written fails: a command worker whose only pass
meets a failing read of the stdout line (`xfgets` returns -1) prints the
xfgets diagnostic, and ends with the phase set to DONE, not FAILED. -/
theorem rsh_read_error_counterexample :
    _rsh_thread (bytes "XXRETCODE:") ⟨false, false, false⟩ RCMD_BSD false true
        [.ready (some (-1, [])) none] =
      (⟨[DSH_RCMD, DSH_READING, DSH_DONE], true⟩,
        some { wantOut := false, wantErr := false, rc := 0, outs := [], errlines := [],
               diags := [.xfgetsError] }) := by
  decide

/-- C21, amended: after a successful connect, let the readiness wait
succeed in the passes `pre`. A wait that then fails with an error other
than interruption, while a stream is still in the wait set, makes
`_rsh_thread` print the select diagnostic and end with the phase FAILED.
A failing line read on stdout or on stderr prints the xfgets diagnostic
and takes the stream out of the wait set, and no more: a run in which no
wait fails ends with the phase DONE as soon as no stream is left in the
wait set, whatever reads failed. -/
theorem rsh_midstream_failures (RC_MAGIC : List Nat) (cfg : BuildConfig) (rcmd_type : RcmdType)
    (dsh_sopt : Bool) (pre rest : List SelectEv) (l : RshLoop) (buf : List Nat)
    (hk : cfg.knows rcmd_type = true) (hpre : ∀ ev ∈ pre, ev.isReady = true) :
    _rsh_thread RC_MAGIC cfg rcmd_type dsh_sopt true (pre ++ .error :: rest) =
        (if rshWaiting dsh_sopt (rshPasses RC_MAGIC dsh_sopt pre (rshStart dsh_sopt)) then
          (⟨[DSH_RCMD, DSH_READING, DSH_FAILED], true⟩,
            some { rshPasses RC_MAGIC dsh_sopt pre (rshStart dsh_sopt) with
                   diags := (rshPasses RC_MAGIC dsh_sopt pre (rshStart dsh_sopt)).diags
                              ++ [.selectError] })
        else
          (⟨[DSH_RCMD, DSH_READING, DSH_DONE], true⟩,
            some (rshPasses RC_MAGIC dsh_sopt pre (rshStart dsh_sopt)))) ∧
      _rsh_thread RC_MAGIC cfg rcmd_type dsh_sopt true pre =
        (if rshWaiting dsh_sopt (rshPasses RC_MAGIC dsh_sopt pre (rshStart dsh_sopt)) then
          (⟨[DSH_RCMD, DSH_READING], false⟩, none)
        else
          (⟨[DSH_RCMD, DSH_READING, DSH_DONE], true⟩,
            some (rshPasses RC_MAGIC dsh_sopt pre (rshStart dsh_sopt)))) ∧
      (rshStdoutReady RC_MAGIC l (-1) buf).wantOut = false ∧
      (rshStdoutReady RC_MAGIC l (-1) buf).wantErr = l.wantErr ∧
      (rshStdoutReady RC_MAGIC l (-1) buf).diags = l.diags ++ [.xfgetsError] ∧
      (rshStderrReady l (-1) buf).wantErr = false ∧
      (rshStderrReady l (-1) buf).wantOut = l.wantOut ∧
      (rshStderrReady l (-1) buf).diags = l.diags ++ [.xfgetsError] := by
  refine ⟨?_, ?_, ?_, ?_, ?_, ?_, ?_, ?_⟩
  · rw [rsh_thread_connected _ _ _ _ _ hk, rshLoop_then_error _ _ _ _ _ hpre]
    split_ifs <;> rfl
  · rw [rsh_thread_connected _ _ _ _ _ hk, rshLoop_all_ready _ _ _ _ hpre]
    split_ifs <;> rfl
  · simp [rshStdoutReady]
  · simp [rshStdoutReady]
  · simp [rshStdoutReady]
  · simp only [rshStderrReady]; split_ifs <;> simp_all
  · simp only [rshStderrReady]; split_ifs <;> simp_all
  · simp only [rshStderrReady]; split_ifs <;> simp_all

theorem rsh_midstream_failures_witness :
    _rsh_thread (bytes "XXRETCODE:") ⟨false, false, false⟩ RCMD_BSD true true
        ([.ready (some (-1, [])) none] ++ .error :: []) =
      (⟨[DSH_RCMD, DSH_READING, DSH_FAILED], true⟩,
        some { wantOut := false, wantErr := true, rc := 0, outs := [], errlines := [],
               diags := [.xfgetsError, .selectError] }) := by
  have h := (rsh_midstream_failures (bytes "XXRETCODE:") ⟨false, false, false⟩ RCMD_BSD true
    [.ready (some (-1, [])) none] [] (rshStart true) [] (by decide) (by decide)).1
  rw [h]
  decide

/-! ## Theorems: `_rcp_write` and short writes -/

theorem rcpWriteCalls_chain (wres : List Int) (rem : List Nat) (hw : ∀ r ∈ wres, 0 < r) :
    WriteChain rem (rcpWriteCalls wres rem) ∧
      (rcpWriteCalls wres rem).length ≤ rem.length ∧
      ((rcpWriteCalls wres rem).map (fun call => call.1.take call.2.toNat)).flatten = rem := by
  induction wres generalizing rem with
  | nil =>
      cases rem with
      | nil => simp [rcpWriteCalls, WriteChain]
      | cons b rem =>
          refine ⟨?_, ?_, ?_⟩
          · simp only [rcpWriteCalls, WriteChain, Int.toNat_ofNat,
              List.drop_length, and_true, true_and, le_refl]
            simp only [List.length_cons]
            push_cast
            omega
          · simp [rcpWriteCalls]
          · simp [rcpWriteCalls]
  | cons r wres ih =>
      cases rem with
      | nil => simp [rcpWriteCalls, WriteChain]
      | cons b rem =>
          have hr : 0 < r := hw r (List.mem_cons_self _ _)
          obtain ⟨h1, h2, h3⟩ := ih ((b :: rem).drop r.toNat)
            (fun x hx => hw x (List.mem_cons_of_mem _ hx))
          have hlen : (0 : Int) < ((b :: rem).length : Int) := by
            simp only [List.length_cons]; push_cast; omega
          have hdrop : (b :: rem).drop (min r ((b :: rem).length : Int)).toNat
              = (b :: rem).drop r.toNat := by
            rcases le_total r ((b :: rem).length : Int) with hle | hle
            · rw [min_eq_left hle]
            · rw [min_eq_right hle, Int.toNat_ofNat, List.drop_length]
              symm
              apply List.drop_eq_nil_of_le
              omega
          have htake : (b :: rem).take (min r ((b :: rem).length : Int)).toNat
              = (b :: rem).take r.toNat := by
            rcases le_total r ((b :: rem).length : Int) with hle | hle
            · rw [min_eq_left hle]
            · rw [min_eq_right hle, Int.toNat_ofNat, List.take_length]
              symm
              apply List.take_of_length_le
              omega
          simp only [rcpWriteCalls]
          rw [if_neg (by omega)]
          refine ⟨?_, ?_, ?_⟩
          · simp only [WriteChain, true_and]
            refine ⟨?_, min_le_right _ _, ?_⟩
            · exact le_min (by omega) (by omega)
            · rw [hdrop]; exact h1
          · have hd : ((b :: rem).drop r.toNat).length + 1 ≤ (b :: rem).length := by
              rw [List.length_drop]
              have : 0 < r.toNat := by omega
              simp only [List.length_cons]
              omega
            simp only [List.length_cons] at hd ⊢
            omega
          · simp only [List.map_cons, List.flatten_cons, h3, htake]
            exact List.take_append_drop _ _

theorem rcpWriteLoop_negative (size : Int) (wres : List Int) (c : Conn) (rem : List Nat)
    (h : ∃ call ∈ rcpWriteCalls wres rem, call.2 < 0) :
    ∃ c1, rcpWriteLoop size wres c rem = some (-1, c1) := by
  induction wres generalizing c rem with
  | nil =>
      cases rem with
      | nil => simp [rcpWriteCalls] at h
      | cons b rem =>
          simp only [rcpWriteCalls, List.mem_singleton, exists_eq_left, List.length_cons] at h
          omega
  | cons r wres ih =>
      cases rem with
      | nil => simp [rcpWriteCalls] at h
      | cons b rem =>
          by_cases hr : r ≤ 0
          · simp only [rcpWriteCalls, if_pos hr, List.mem_singleton, exists_eq_left] at h
            exact ⟨_, by simp only [rcpWriteLoop]; rw [if_pos h]⟩
          · simp only [rcpWriteCalls, if_neg hr, List.mem_cons] at h
            obtain ⟨call, hc | hc, hneg⟩ := h
            · subst hc
              simp only [List.length_cons] at hneg
              have := le_min (a := r) (b := ((rem.length + 1 : Nat) : Int)) (c := 1)
                (by omega) (by push_cast; omega)
              omega
            · obtain ⟨c1, h1⟩ := ih { c with out := c.out ++ (b :: rem).take r.toNat }
                ((b :: rem).drop r.toNat) ⟨call, hc, hneg⟩
              exact ⟨c1, by simp only [rcpWriteLoop]; rw [if_neg (by omega), if_neg (by omega), h1]⟩

/-- C22: when every call of `write` accepts at least one byte (and, as
`write` does, at most what it is offered), `_rcp_write` returns the size
of the buffer after at most that many calls; each call is offered exactly
the still unwritten suffix, and the bytes the calls accept, put end to
end, are the buffer, which is what the descriptor has received. If a call
of `write` returns a negative value, `_rcp_write` returns -1. -/
theorem rcp_write_short_writes (c : Conn) (buf : List Nat) :
    ((∀ r ∈ c.wres, 0 < r) →
        (∃ c1, _rcp_write c buf = some ((buf.length : Int), c1) ∧ c1.out = c.out ++ buf) ∧
        (rcpWriteCalls c.wres buf).length ≤ buf.length ∧
        WriteChain buf (rcpWriteCalls c.wres buf) ∧
        ((rcpWriteCalls c.wres buf).map (fun call => call.1.take call.2.toNat)).flatten = buf) ∧
      ((∃ call ∈ rcpWriteCalls c.wres buf, call.2 < 0) →
        ∃ c1, _rcp_write c buf = some (-1, c1)) := by
  refine ⟨fun hw => ?_, fun hneg => rcpWriteLoop_negative _ _ _ _ hneg⟩
  obtain ⟨w1, _, h1⟩ := rcp_write_ok c buf hw
  obtain ⟨h2, h3, h4⟩ := rcpWriteCalls_chain c.wres buf hw
  exact ⟨⟨_, h1, rfl⟩, h3, h2, h4⟩

theorem rcp_write_short_writes_witness :
    ((∃ c1, _rcp_write (Conn.fresh [] [2, 1, 5]) (bytes "C0644") =
          some (5, c1) ∧ c1.out = bytes "C0644") ∧
        (rcpWriteCalls [2, 1, 5] (bytes "C0644")).length ≤ 5 ∧
        rcpWriteCalls [2, 1, 5] (bytes "C0644") =
          [(bytes "C0644", 2), (bytes "644", 1), (bytes "44", 2)]) ∧
      (∃ c1, _rcp_write (Conn.fresh [] [2, -1]) (bytes "C0644") =
          some (-1, c1)) := by
  have h := rcp_write_short_writes (Conn.fresh [] [2, 1, 5]) (bytes "C0644")
  have h1 := h.1 (by decide)
  have h2 := (rcp_write_short_writes (Conn.fresh [] [2, -1]) (bytes "C0644")).2
    ⟨(bytes "644", -1), by decide, by decide⟩
  exact ⟨⟨h1.1, h1.2.1, by decide⟩, h2⟩

/-! ## Theorems: the indices of `errstr` that `_rcp_response` writes -/

theorem readErrstr_full (B : Nat) (inp : List Nat) (i : Nat) (ws : List (Nat × Nat))
    (hi : i ≤ B) (hlen : B - i ≤ inp.length) (hnl : ∀ b ∈ inp.take (B - i), b ≠ 10) :
    (readErrstr B i inp ws).1 = B := by
  induction inp generalizing i ws with
  | nil =>
      simp only [List.length_nil] at hlen
      simp only [readErrstr]
      omega
  | cons b rest ih =>
      simp only [readErrstr]
      by_cases hlt : i < B
      · have hb : b ≠ 10 := by
          apply hnl
          have : B - i = (B - i - 1) + 1 := by omega
          rw [this, List.take_succ_cons]
          exact List.mem_cons_self _ _
        rw [if_pos hlt, if_neg hb]
        apply ih (i + 1) _ (by omega)
        · simp only [List.length_cons] at hlen
          omega
        · intro x hx
          apply hnl
          have : B - i = (B - (i + 1)) + 1 := by omega
          rw [this, List.take_succ_cons]
          exact List.mem_cons_of_mem _ hx
      · rw [if_neg hlt]
        show i = B
        omega

theorem readErrstr_stores (B : Nat) (inp : List Nat) (i : Nat) (ws : List (Nat × Nat))
    (hws : ∀ p ∈ ws, p.1 < B) :
    (∀ p ∈ (readErrstr B i inp ws).2.2, p.1 < B) ∧ (readErrstr B i inp ws).1 ≤ max i B := by
  induction inp generalizing i ws with
  | nil => exact ⟨by simpa [readErrstr] using hws, by simp [readErrstr]⟩
  | cons b rest ih =>
      simp only [readErrstr]
      by_cases hlt : i < B
      · have hws1 : ∀ p ∈ ws ++ [(i, b)], p.1 < B := by
          intro p hp
          rcases List.mem_append.mp hp with hp | hp
          · exact hws p hp
          · simp only [List.mem_singleton] at hp
            subst hp
            exact hlt
        rw [if_pos hlt]
        by_cases hb : b = 10
        · rw [if_pos hb]
          exact ⟨hws1, by simp⟩
        · rw [if_neg hb]
          obtain ⟨h1, h2⟩ := ih (i + 1) _ hws1
          refine ⟨h1, ?_⟩
          have : max (i + 1) B = B := max_eq_right (by omega)
          rw [this] at h2
          exact le_trans h2 (le_max_right _ _)
      · rw [if_neg hlt]
        exact ⟨hws, by simp⟩

/-- The NUL that ends the message is stored at index `BUFSIZ`, past the
end of `errstr`, when the peer's message has no LF within its first
`BUFSIZ` bytes; every byte of the message is stored below `BUFSIZ`. -/
theorem rcp_response_nul_index (BUFSIZ : Nat) (resp : Nat) (msg : List Nat)
    (hresp : resp = 1 ∨ resp = 2) (hlen : BUFSIZ ≤ msg.length)
    (hnl : ∀ b ∈ msg.take BUFSIZ, b ≠ 10) :
    (BUFSIZ, 0) ∈ (rcpResponse BUFSIZ (resp :: msg)).stores := by
  have hne : resp ≠ 0 := by omega
  have hfull := readErrstr_full BUFSIZ msg 0 [] (Nat.zero_le _) (by simpa using hlen)
    (by simpa using hnl)
  simp only [rcpResponse, if_neg hne, if_pos hresp, List.length_nil, hfull, List.mem_append,
    List.mem_singleton, or_true]

/-- C27: `_rcp_response` on the code 1 followed by 8192 bytes `x` without
LF, with `BUFSIZ` 8192: the terminating NUL is stored at index 8192 of
`errstr`, which has the indices 0 to 8191. -/
theorem rcp_response_writes_past_errstr :
    (8192, 0) ∈ (rcpResponse 8192 (1 :: List.replicate 8192 120)).stores :=
  rcp_response_nul_index 8192 1 (List.replicate 8192 120) (Or.inl rfl)
    (by rw [List.length_replicate]) (fun b hb => by
      have := List.eq_of_mem_replicate (List.mem_of_mem_take hb)
      omega)

/-! ## Theorems: the order of the worker table and the status -/

theorem statusStep_comm_le (R : Int) (rc : Int) (v w : thd_t)
    (hv : v.state ≠ DSH_FAILED) (hw : w.state ≠ DSH_FAILED) :
    statusStep R (statusStep R rc v) w = statusStep R (statusStep R rc w) v := by
  simp only [statusStep, hv, hw, if_false]
  split_ifs <;> omega

/-- The status does not depend on the order of the table when no
remote-rc is above `RC_FAILED`. -/
theorem dsh_status_perm_of_le (RC_FAILED : Int) (getstat : Bool) (t1 t2 : List thd_t)
    (hp : t1.Perm t2) (hle : ∀ w ∈ t1, w.rc ≤ RC_FAILED) :
    dsh_status RC_FAILED getstat t1 = dsh_status RC_FAILED getstat t2 := by
  cases getstat with
  | false => simp [dsh_status]
  | true =>
      simp only [dsh_status, if_true]
      by_cases hf : ∃ w ∈ t1, w.state = DSH_FAILED
      · have hf2 : ∃ w ∈ t2, w.state = DSH_FAILED := by
          obtain ⟨w, hw, hwf⟩ := hf
          exact ⟨w, hp.subset hw, hwf⟩
        rw [foldl_status_failed RC_FAILED t1 hle hf 0,
          foldl_status_failed RC_FAILED t2 (fun w hw => hle w (hp.symm.subset hw)) hf2 0]
      · apply List.Perm.foldl_eq' hp
        intro v hv w hw rc
        apply statusStep_comm_le
        · exact fun h => hf ⟨v, hv, h⟩
        · exact fun h => hf ⟨w, hw, h⟩

/-- Whatever the value of `RC_FAILED`, negative values apart, a remote-rc
one above it gives the two orders of the table different values. -/
theorem dsh_status_order_any (R : Int) (h : 0 ≤ R) :
    dsh_status R true [⟨DSH_DONE, R + 1⟩, ⟨DSH_FAILED, 0⟩] = R ∧
      dsh_status R true [⟨DSH_FAILED, 0⟩, ⟨DSH_DONE, R + 1⟩] = R + 1 := by
  simp only [dsh_status, if_true, List.foldl_cons, List.foldl_nil, statusStep]
  constructor <;> split_ifs <;> first | rfl | omega

/-- C28: with `RC_FAILED` 254 and status collection on, the table of a
worker DONE with remote-rc 255 and a FAILED worker gives 254, and the same
two entries in the other order give 255. -/
theorem dsh_status_depends_on_order :
    dsh_status 254 true [⟨DSH_DONE, 255⟩, ⟨DSH_FAILED, 0⟩] = 254 ∧
      dsh_status 254 true [⟨DSH_FAILED, 0⟩, ⟨DSH_DONE, 255⟩] = 255 ∧
      List.Perm [(⟨DSH_DONE, 255⟩ : thd_t), ⟨DSH_FAILED, 0⟩] [⟨DSH_FAILED, 0⟩, ⟨DSH_DONE, 255⟩] :=
  ⟨by decide, by decide, List.Perm.swap _ _ _⟩

/-! ## Theorems: the lists of common/list.c -/

theorem take_set_succ (xs : List (List Nat)) (n : Nat) (w : List Nat) (h : n < xs.length) :
    (xs.set n w).take (n + 1) = xs.take n ++ [w] := by
  induction xs generalizing n with
  | nil => simp at h
  | cons x xs ih =>
      cases n with
      | zero => simp
      | succ n =>
          simp only [List.length_cons, Nat.add_lt_add_iff_right] at h
          simp [ih n h]

theorem list_new_wf : list_new.wf ∧ list_new.items = [] := by
  decide

theorem list_push_ok (l : list_t) (w : List Nat) (h : l.wf) :
    ∃ l1, list_push l w = some l1 ∧ l1.wf ∧ l1.items = l.items ++ [w] := by
  obtain ⟨hlen, hle⟩ := h
  by_cases hfull : l.size = l.nitems
  · refine ⟨{ list_expand l with
              data := (list_expand l).data.set l.nitems w, nitems := l.nitems + 1 }, ?_, ?_, ?_⟩
    · simp only [list_push, if_pos hfull]
      rw [if_pos (by simp only [list_expand, LIST_CHUNK]; omega)]
      simp only [list_expand]
    · simp only [list_t.wf, list_expand, LIST_CHUNK, List.length_set, List.length_append,
        List.length_replicate]
      omega
    · simp only [list_t.items, list_expand]
      have hlt : l.nitems < (l.data ++ List.replicate LIST_CHUNK ([] : List Nat)).length := by
        simp only [List.length_append, List.length_replicate, LIST_CHUNK]
        omega
      rw [take_set_succ _ _ _ hlt, List.take_append_of_le_length (by omega)]
  · refine ⟨{ l with data := l.data.set l.nitems w, nitems := l.nitems + 1 }, ?_, ?_, ?_⟩
    · simp only [list_push, if_neg hfull]
      rw [if_pos (by omega)]
    · simp only [list_t.wf, List.length_set]
      omega
    · simp only [list_t.items]
      rw [take_set_succ _ _ _ (by omega)]

theorem testLoop_iff (item : List Nat) (xs : List (List Nat)) :
    testLoop item xs = true ↔ item ∈ xs := by
  induction xs with
  | nil => simp [testLoop]
  | cons x xs ih =>
      simp only [testLoop, List.mem_cons]
      by_cases hx : x = item
      · simp [hx]
      · rw [if_neg hx, ih]
        constructor
        · exact Or.inr
        · rintro (h | h)
          · exact absurd h.symm hx
          · exact h

theorem list_test_iff (l : list_t) (item : List Nat) :
    list_test l item = true ↔ item ∈ l.items :=
  testLoop_iff item l.items

theorem delLoop_length (data : List (List Nat)) (i k : Nat) :
    (delLoop data i k).length = data.length := by
  induction k generalizing data i with
  | zero => rfl
  | succ k ih => simp only [delLoop, ih, List.length_set]

theorem delLoop_take (data : List (List Nat)) (i k : Nat) (h : i + k < data.length) :
    (delLoop data i k).take (i + k) = data.take i ++ (data.drop (i + 1)).take k := by
  induction k generalizing data i with
  | zero => simp [delLoop]
  | succ k ih =>
      simp only [delLoop]
      have h1 : i + 1 + k < (data.set i (data.getD (i + 1) [])).length := by
        rw [List.length_set]; omega
      have e : i + (k + 1) = i + 1 + k := by omega
      rw [e, ih _ _ h1, take_set_succ _ _ _ (by omega), List.drop_set_of_lt _ _ (by omega)]
      have hd : data.drop (i + 1) = data.getD (i + 1) [] :: data.drop (i + 1 + 1) := by
        rw [List.getD_eq_getElem _ _ (by omega)]
        exact (List.getElem_cons_drop _ _ (by omega)).symm
      rw [hd, List.take_succ_cons, List.append_assoc, List.singleton_append]

theorem list_del_ok (l : list_t) (n : Nat) (h : l.wf) (hn : n < l.nitems) :
    ∃ l1, list_del l (n : Int) = some l1 ∧ l1.wf ∧ l1.items = l.items.eraseIdx n ∧
      l1.nitems = l.nitems - 1 := by
  obtain ⟨hlen, hle⟩ := h
  refine ⟨{ l with data := delLoop l.data n (l.nitems - 1 - n), nitems := l.nitems - 1 },
    ?_, ?_, ?_, rfl⟩
  · simp only [list_del, Int.toNat_ofNat]
    rw [if_pos ⟨by omega, by omega⟩]
  · simp only [list_t.wf, delLoop_length]
    omega
  · simp only [list_t.items]
    have key := delLoop_take l.data n (l.nitems - 1 - n) (by omega)
    have e : n + (l.nitems - 1 - n) = l.nitems - 1 := by omega
    rw [e] at key
    rw [key, List.eraseIdx_eq_take_drop_succ, List.take_take, List.drop_take]
    congr 2
    · omega
    · omega

theorem shiftLoop_reads_last (data : List (List Nat)) (i k : Nat) (hk : 0 < k) :
    Access.read (i + k) ∈ (shiftLoop data i k).2 := by
  induction k generalizing data i with
  | zero => omega
  | succ k ih =>
      simp only [shiftLoop]
      cases k with
      | zero => exact List.mem_cons_self _ _
      | succ k =>
          have := ih (data.set i (data.getD (i + 1) [])) (i + 1) (by omega)
          have e : i + (k + 1 + 1) = i + 1 + (k + 1) := by omega
          rw [e]
          exact List.mem_cons_of_mem _ (List.mem_cons_of_mem _ this)

/-- The last pass of the loop of `list_shift` reads the slot `nitems`, for
every list that is not empty. -/
theorem list_shift_reads_nitems (l : list_t) (h : 0 < l.nitems) :
    Access.read l.nitems ∈ (list_shift l).2.2 := by
  have hne : l.nitems ≠ 0 := by omega
  simp only [list_shift, if_pos hne]
  have := shiftLoop_reads_last l.data 0 l.nitems h
  rw [Nat.zero_add] at this
  exact List.mem_cons_of_mem _ this

/-- C29: after `list_new` and 16 calls of `list_push` the list is filled
to its capacity, `nitems` and `size` both 16, and `list_shift` reads the
slot 16 of `data`, one past the last slot of the array; it is the only
access of the call that is not below `size`. -/
theorem list_shift_reads_past_array :
    (listOf (List.replicate 16 (bytes "a"))).map (fun l =>
        (l.size, l.nitems,
          (list_shift l).2.2.filter (fun a => decide (l.size ≤ a.index)))) =
      some (16, 16, [Access.read 16]) := by
  decide

/-! ## Theorems: `list_subtract` -/

theorem items_length (l : list_t) (h : l.wf) : l.items.length = l.nitems := by
  simp only [list_t.items, List.length_take]
  have := h.1
  have := h.2
  omega

theorem items_getD (l : list_t) (k : Nat) (hk : k < l.nitems) :
    l.data.getD k [] = l.items.getD k [] := by
  simp only [list_t.items, List.getD_eq_getElem?_getD, List.getElem?_take, if_pos hk]

theorem subtractLoop_ok (l2 : list_t) (fuel : Nat) (l1 : list_t) (k : Nat) (h : l1.wf)
    (hk : k ≤ l1.nitems) (hf : fuel = l1.nitems - k) :
    ∃ l, subtractLoop l2 fuel l1 (k : Int) = some l ∧ l.wf ∧
      l.items = l1.items.take k ++ (l1.items.drop k).filter (fun x => !list_test l2 x) := by
  induction fuel generalizing l1 k with
  | zero =>
      refine ⟨l1, rfl, h, ?_⟩
      have hlen := items_length l1 h
      rw [List.take_of_length_le (by omega), List.drop_eq_nil_of_le (by omega)]
      simp
  | succ fuel ih =>
      have hlen := items_length l1 h
      have hlt : k < l1.nitems := by omega
      have hcond : ((k : Int) < (l1.nitems : Int)) := by omega
      have hkl : k < l1.items.length := by omega
      have hdrop : l1.items.drop k = l1.items.getD k [] :: l1.items.drop (k + 1) := by
        rw [List.getD_eq_getElem _ _ hkl]
        exact (List.getElem_cons_drop _ _ hkl).symm
      simp only [subtractLoop, if_pos hcond, Int.toNat_ofNat]
      have hx := items_getD l1 k hlt
      by_cases ht : list_test l2 (l1.data.getD k []) = true
      · obtain ⟨l, hdel, hwf, hitems, hn⟩ := list_del_ok l1 k h hlt
        have e : (k : Int) - 1 + 1 = (k : Int) := by omega
        obtain ⟨l3, h3, hwf3, hit3⟩ := ih l k hwf (by omega) (by omega)
        refine ⟨l3, ?_, hwf3, ?_⟩
        · rw [if_pos ht, hdel]
          simp only [e]
          exact h3
        · rw [hx] at ht
          rw [hit3, hitems, hdrop]
          simp only [List.filter_cons, ht, Bool.not_true, Bool.false_eq_true, if_false]
          congr 1
          · rw [List.eraseIdx_eq_take_drop_succ, List.take_append_of_le_length
              (by rw [List.length_take]; omega), List.take_take, Nat.min_self]
          · rw [List.eraseIdx_eq_take_drop_succ]
            rw [List.drop_append_of_le_length (by rw [List.length_take]; omega)]
            rw [List.drop_take, Nat.sub_self, List.take_zero, List.nil_append]
      · obtain ⟨l3, h3, hwf3, hit3⟩ := ih l1 (k + 1) h (by omega) (by omega)
        refine ⟨l3, ?_, hwf3, ?_⟩
        · rw [if_neg ht]
          have e1 : ((k + 1 : Nat) : Int) = (k : Int) + 1 := by push_cast; rfl
          rw [← e1]
          exact h3
        · rw [hx] at ht
          rw [Bool.not_eq_true] at ht
          rw [hit3, hdrop]
          simp only [List.filter_cons, ht, Bool.not_false, if_true]
          rw [List.take_succ, List.append_assoc]
          congr 1
          rw [List.getD_eq_getElem?_getD]
          rw [List.getElem?_eq_getElem hkl]
          rfl

/-- C25: for two distinct lists, `list_subtract(l1, l2)` leaves in `l1`
exactly its former entries that are equal to no entry of `l2`, in their
former order, wherever the entries taken out stand; the function only
reads `l2`. -/
theorem list_subtract_filter (l1 l2 : list_t) (h1 : l1.wf) :
    ∃ l, list_subtract l1 l2 = some l ∧ l.wf ∧
      l.items = l1.items.filter (fun x => decide (x ∉ l2.items)) := by
  obtain ⟨l, hl, hwf, hit⟩ := subtractLoop_ok l2 l1.nitems l1 0 h1 (Nat.zero_le _) rfl
  refine ⟨l, hl, hwf, ?_⟩
  rw [hit, List.take_zero, List.nil_append, List.drop_zero]
  apply List.filter_congr
  intro x _
  by_cases hx : x ∈ l2.items
  · simp [hx, (list_test_iff l2 x).mpr hx]
  · have : list_test l2 x = false := by
      rw [← Bool.not_eq_true, list_test_iff]
      exact hx
    simp [hx, this]

theorem list_subtract_filter_witness :
    ∃ l, list_subtract ⟨16, 5, [bytes "a", bytes "b", bytes "b", bytes "c", bytes "a"]
            ++ List.replicate 11 []⟩ ⟨16, 2, [bytes "b", bytes "a"] ++ List.replicate 14 []⟩
          = some l ∧ l.wf ∧
      l.items = (list_t.items ⟨16, 5, [bytes "a", bytes "b", bytes "b", bytes "c", bytes "a"]
            ++ List.replicate 11 []⟩).filter
          (fun x => decide (x ∉ list_t.items ⟨16, 2, [bytes "b", bytes "a"]
            ++ List.replicate 14 []⟩)) :=
  list_subtract_filter _ _ (by decide)

/-! ## Theorems: `list_merge` -/

theorem firstOccurrences_filter (p : List Nat → Bool) (ys : List (List Nat)) :
    firstOccurrences (ys.filter p) = (firstOccurrences ys).filter p := by
  induction ys with
  | nil => rfl
  | cons y ys ih =>
      by_cases hp : p y = true
      · rw [List.filter_cons_of_pos hp]
        simp only [firstOccurrences]
        rw [List.filter_cons_of_pos hp, ih, List.filter_filter, List.filter_filter]
        congr 1
        apply List.filter_congr
        intro z _
        exact Bool.and_comm _ _
      · rw [List.filter_cons_of_neg hp]
        simp only [firstOccurrences]
        rw [List.filter_cons_of_neg hp, ih, List.filter_filter]
        apply List.filter_congr
        intro z _
        by_cases hz : z = y
        · subst hz
          simp [hp]
        · simp [hz]

theorem mergeLoop_ok (xs : List (List Nat)) (l1 : list_t) (h : l1.wf) :
    ∃ l added, mergeLoop xs l1 = some l ∧ l.wf ∧ l.items = l1.items ++ added ∧
      added = firstOccurrences (xs.filter (fun x => decide (x ∉ l1.items))) ∧
      added.Sublist xs ∧ added.Nodup ∧ (∀ x ∈ added, x ∉ l1.items) ∧
      (∀ x ∈ xs, x ∈ l1.items ∨ x ∈ added) := by
  induction xs generalizing l1 with
  | nil => exact ⟨l1, [], rfl, h, by simp, rfl, List.Sublist.refl _, List.nodup_nil, by simp,
      by simp⟩
  | cons x xs ih =>
      by_cases hx : x ∈ l1.items
      · obtain ⟨l, added, hl, hwf, hit, hfo, hsub, hnd, hdis, hcov⟩ := ih l1 h
        refine ⟨l, added, ?_, hwf, hit, ?_, List.Sublist.cons _ hsub, hnd, hdis, ?_⟩
        · simp only [mergeLoop, (list_test_iff l1 x).mpr hx, Bool.not_true, Bool.false_eq_true,
            if_false]
          exact hl
        · rw [List.filter_cons_of_neg (by simpa using hx)]
          exact hfo
        · intro y hy
          rcases List.mem_cons.mp hy with rfl | hy
          · exact Or.inl hx
          · exact hcov y hy
      · have ht : list_test l1 x = false := by
          rw [← Bool.not_eq_true, list_test_iff]
          exact hx
        obtain ⟨l2, hpush, hwf2, hit2⟩ := list_push_ok l1 x h
        obtain ⟨l, added, hl, hwf, hit, hfo, hsub, hnd, hdis, hcov⟩ := ih l2 hwf2
        refine ⟨l, x :: added, ?_, hwf, ?_, ?_, List.Sublist.cons₂ _ hsub, ?_, ?_, ?_⟩
        · simp only [mergeLoop, ht, Bool.not_false, if_true, hpush]
          exact hl
        · rw [hit, hit2, List.append_assoc, List.singleton_append]
        · rw [List.filter_cons_of_pos (by simpa using hx)]
          simp only [firstOccurrences]
          rw [hfo, ← firstOccurrences_filter, List.filter_filter]
          congr 2
          apply List.filter_congr
          intro z _
          rw [hit2]
          by_cases hz : z = x
          · subst hz; simp
          · simp [hz]
        · refine List.nodup_cons.mpr ⟨fun hmem => ?_, hnd⟩
          exact hdis x hmem (by rw [hit2]; simp)
        · intro y hy
          rcases List.mem_cons.mp hy with rfl | hy
          · exact hx
          · intro hy1
            exact hdis y hy (by rw [hit2]; exact List.mem_append_left _ hy1)
        · intro y hy
          rcases List.mem_cons.mp hy with rfl | hy
          · exact Or.inr (List.mem_cons_self _ _)
          · rcases hcov y hy with hc | hc
            · rw [hit2] at hc
              rcases List.mem_append.mp hc with hc | hc
              · exact Or.inl hc
              · simp only [List.mem_singleton] at hc
                subst hc
                exact Or.inr (List.mem_cons_self _ _)
            · exact Or.inr (List.mem_cons_of_mem _ hc)

theorem mergeLoop_same (xs : List (List Nat)) (l1 : list_t) (h : ∀ x ∈ xs, x ∈ l1.items) :
    mergeLoop xs l1 = some l1 := by
  induction xs with
  | nil => rfl
  | cons x xs ih =>
      have hx := (list_test_iff l1 x).mpr (h x (List.mem_cons_self _ _))
      simp only [mergeLoop, hx, Bool.not_true, Bool.false_eq_true, if_false]
      exact ih (fun y hy => h y (List.mem_cons_of_mem _ hy))

/-- C26: for two distinct lists, `list_merge(l1, l2)` leaves the former
entries of `l1` in place and puts after them the strings of `l2` that were
not found in `l1`, in the order of their first occurrence in `l2` and each
once. So a list `l1` without duplicates has none afterwards, and a second
merge of the same `l2` changes nothing. -/
theorem list_merge_appends_new (l1 l2 : list_t) (h1 : l1.wf) :
    ∃ l added, list_merge l1 l2 = some l ∧ l.wf ∧ l.items = l1.items ++ added ∧
      added = firstOccurrences (l2.items.filter (fun x => decide (x ∉ l1.items))) ∧
      added.Sublist l2.items ∧ added.Nodup ∧ (∀ x ∈ added, x ∉ l1.items) ∧
      (∀ x ∈ l2.items, x ∈ l1.items ∨ x ∈ added) ∧
      (l1.items.Nodup → l.items.Nodup) ∧
      list_merge l l2 = some l := by
  obtain ⟨l, added, hl, hwf, hit, hfo, hsub, hnd, hdis, hcov⟩ := mergeLoop_ok l2.items l1 h1
  refine ⟨l, added, hl, hwf, hit, hfo, hsub, hnd, hdis, hcov, ?_, ?_⟩
  · intro hn1
    rw [hit]
    exact List.nodup_append.mpr ⟨hn1, hnd, fun x hx1 hxa => hdis x hxa hx1⟩
  · apply mergeLoop_same
    intro x hx
    rw [hit]
    rcases hcov x hx with hc | hc
    · exact List.mem_append_left _ hc
    · exact List.mem_append_right _ hc

theorem list_merge_appends_new_witness :
    ∃ l added, list_merge ⟨16, 2, [bytes "a", bytes "b"] ++ List.replicate 14 []⟩
          ⟨16, 4, [bytes "c", bytes "a", bytes "c", bytes "d"] ++ List.replicate 12 []⟩
          = some l ∧ l.items = [bytes "a", bytes "b"] ++ added ∧
      added = [bytes "c", bytes "d"] ∧ l.items.Nodup := by
  obtain ⟨l, added, hl, _, hit, hfo, _, _, _, _, hnd, _⟩ := list_merge_appends_new
    ⟨16, 2, [bytes "a", bytes "b"] ++ List.replicate 14 []⟩
    ⟨16, 4, [bytes "c", bytes "a", bytes "c", bytes "d"] ++ List.replicate 12 []⟩ (by decide)
  exact ⟨l, added, hl, hit, hfo.trans (by decide), hnd (by decide)⟩

/-! ## Theorems: `list_split` and `list_join` -/

theorem takeWhile_append_stop (p : Nat → Bool) (xs : List Nat) (y : Nat) (t : List Nat)
    (h : ∀ x ∈ xs, p x = true) (hy : p y = false) : (xs ++ y :: t).takeWhile p = xs := by
  induction xs with
  | nil => simp [List.takeWhile, hy]
  | cons x xs ih =>
      rw [List.cons_append, List.takeWhile_cons_of_pos (h x (List.mem_cons_self _ _)),
        ih (fun z hz => h z (List.mem_cons_of_mem _ hz))]

theorem dropWhile_append_stop (p : Nat → Bool) (xs ys : List Nat)
    (h : ∀ x ∈ xs, p x = true) (hy : ys.dropWhile p = ys) : (xs ++ ys).dropWhile p = ys := by
  induction xs with
  | nil => simpa using hy
  | cons x xs ih =>
      rw [List.cons_append, List.dropWhile_cons_of_pos (h x (List.mem_cons_self _ _)),
        ih (fun z hz => h z (List.mem_cons_of_mem _ hz))]

theorem mem_of_mem_dropWhile (p : Nat → Bool) (xs : List Nat) (b : Nat)
    (h : b ∈ xs.dropWhile p) : b ∈ xs :=
  (List.dropWhile_sublist p).subset h

theorem mem_of_mem_takeWhile (p : Nat → Bool) (xs : List Nat) (b : Nat)
    (h : b ∈ xs.takeWhile p) : b ∈ xs :=
  (List.takeWhile_sublist p).subset h

theorem head_dropWhile_false (p : Nat → Bool) (xs : List Nat) (a : Nat) (t : List Nat)
    (h : xs.dropWhile p = a :: t) : p a = false := by
  have := List.head?_dropWhile_not p xs
  rw [h] at this
  simpa using this

theorem next_tok_none (sep str : List Nat) (h : str.dropWhile (isSep sep) = []) :
    _next_tok sep str = (none, []) := by
  simp only [_next_tok, h]

theorem next_tok_some (sep str : List Nat) (c : Nat) (s1 : List Nat)
    (h : str.dropWhile (isSep sep) = c :: s1) (hz : ∀ b ∈ str, b ≠ 0) :
    _next_tok sep str =
      (some ((c :: s1).takeWhile (fun b => !isSep sep b)),
        ((c :: s1).dropWhile (fun b => !isSep sep b)).dropWhile (isSep sep)) := by
  simp only [_next_tok, h]
  congr 2
  simp only [cstrAt, List.drop_zero, List.append_assoc]
  have hrun : ∀ x ∈ (c :: s1).takeWhile (fun b => !isSep sep b), (x != 0) = true := by
    intro x hx
    have hx1 := mem_of_mem_takeWhile _ _ _ hx
    rw [← h] at hx1
    have := hz x (mem_of_mem_dropWhile _ _ _ hx1)
    simpa using this
  cases hafter : (c :: s1).dropWhile (fun b => !isSep sep b) with
  | nil =>
      simp only [List.takeWhile_nil, List.map_nil, List.dropWhile_nil, List.nil_append]
      exact takeWhile_append_stop _ _ 0 [] hrun (by decide)
  | cons a t =>
      have ha : isSep sep a = true := by
        have := head_dropWhile_false _ _ _ _ hafter
        simpa using this
      rw [List.takeWhile_cons_of_pos ha, List.map_cons, List.cons_append]
      exact takeWhile_append_stop _ _ 0 _ hrun (by decide)

theorem maximalRuns_nil (p : Nat → Bool) : maximalRuns p [] = [] := by
  simp [maximalRuns, List.splitOnP_nil]

theorem maximalRuns_cons_sep (p : Nat → Bool) (c : Nat) (s : List Nat) (h : p c = true) :
    maximalRuns p (c :: s) = maximalRuns p s := by
  simp [maximalRuns, List.splitOnP_cons, h]

theorem maximalRuns_dropWhile (p : Nat → Bool) (s : List Nat) :
    maximalRuns p (s.dropWhile p) = maximalRuns p s := by
  induction s with
  | nil => rfl
  | cons c s ih =>
      by_cases h : p c = true
      · rw [List.dropWhile_cons_of_pos h, ih, maximalRuns_cons_sep p c s h]
      · rw [List.dropWhile_cons_of_neg h]

theorem maximalRuns_run (p : Nat → Bool) (run after : List Nat) (hne : run ≠ [])
    (hrun : ∀ x ∈ run, ¬ p x = true) (hafter : after = [] ∨ ∃ a t, after = a :: t ∧ p a = true) :
    maximalRuns p (run ++ after) = run :: maximalRuns p (after.dropWhile p) := by
  have hrne : (!run.isEmpty) = true := by
    cases run with
    | nil => exact absurd rfl hne
    | cons _ _ => rfl
  rcases hafter with rfl | ⟨a, t, rfl, ha⟩
  · rw [List.append_nil, List.dropWhile_nil, maximalRuns_nil]
    simp only [maximalRuns, List.splitOnP_eq_single p run hrun, List.filter_cons, hrne, if_true,
      List.filter_nil]
  · rw [maximalRuns_dropWhile, maximalRuns_cons_sep p a t ha]
    simp only [maximalRuns, List.splitOnP_first p run hrun a ha t, List.filter_cons, hrne,
      if_true]

theorem splitOnP_no_sep (p : Nat → Bool) (s : List Nat) :
    ∀ r ∈ s.splitOnP p, ∀ c ∈ r, p c = false := by
  induction s with
  | nil => simp [List.splitOnP_nil]
  | cons x xs ih =>
      rw [List.splitOnP_cons]
      by_cases hx : p x = true
      · rw [if_pos hx]
        intro r hr
        rcases List.mem_cons.mp hr with rfl | hr
        · simp
        · exact ih r hr
      · rw [if_neg hx]
        cases hs : xs.splitOnP p with
        | nil => exact absurd hs (List.splitOnP_ne_nil p xs)
        | cons hd tl =>
            rw [hs] at ih
            intro r hr
            simp only [List.modifyHead_cons, List.mem_cons] at hr
            rcases hr with rfl | hr
            · intro c hc
              rcases List.mem_cons.mp hc with rfl | hc
              · simpa using hx
              · exact ih hd (List.mem_cons_self _ _) c hc
            · exact ih r (List.mem_cons_of_mem _ hr)

theorem splitOnP_flatten (p : Nat → Bool) (s : List Nat) :
    (s.splitOnP p).flatten = s.filter (fun c => !p c) := by
  induction s with
  | nil => simp [List.splitOnP_nil]
  | cons x xs ih =>
      rw [List.splitOnP_cons]
      by_cases hx : p x = true
      · rw [if_pos hx, List.flatten_cons, List.nil_append, ih,
          List.filter_cons_of_neg (by simp [hx])]
      · rw [if_neg hx, List.filter_cons_of_pos (by simpa using hx), ← ih]
        cases hs : xs.splitOnP p with
        | nil => exact absurd hs (List.splitOnP_ne_nil p xs)
        | cons hd tl => simp

theorem flatten_filter_nonempty (L : List (List Nat)) :
    (L.filter (fun r => !r.isEmpty)).flatten = L.flatten := by
  induction L with
  | nil => rfl
  | cons r L ih =>
      cases r with
      | nil => simpa using ih
      | cons a r => simp [ih]

/-- The runs are not empty, hold no separator, and put end to end they are
the string without its separators. -/
theorem maximalRuns_props (p : Nat → Bool) (s : List Nat) :
    (∀ r ∈ maximalRuns p s, r ≠ [] ∧ ∀ c ∈ r, p c = false) ∧
      (maximalRuns p s).flatten = s.filter (fun c => !p c) := by
  constructor
  · intro r hr
    simp only [maximalRuns, List.mem_filter] at hr
    refine ⟨?_, splitOnP_no_sep p s r hr.1⟩
    rintro rfl
    simp at hr
  · rw [maximalRuns, flatten_filter_nonempty, splitOnP_flatten]

theorem splitLoop_ok (sep : List Nat) (fuel : Nat) (str : List Nat) (l : list_t) (h : l.wf)
    (hf : str.length < fuel) (hz : ∀ b ∈ str, b ≠ 0) :
    ∃ l1, splitLoop sep fuel str l = some l1 ∧ l1.wf ∧
      l1.items = l.items ++ maximalRuns (isSep sep) str := by
  induction fuel generalizing str l with
  | zero => omega
  | succ fuel ih =>
      cases hs : str.dropWhile (isSep sep) with
      | nil =>
          refine ⟨l, ?_, h, ?_⟩
          · simp only [splitLoop, next_tok_none sep str hs]
          · rw [← maximalRuns_dropWhile, hs, maximalRuns_nil, List.append_nil]
      | cons c s1 =>
          have hc : isSep sep c = false := head_dropWhile_false _ _ _ _ hs
          have hsplit := List.takeWhile_append_dropWhile (fun b => !isSep sep b) (c :: s1)
          have hrunne : (c :: s1).takeWhile (fun b => !isSep sep b) ≠ [] := by
            rw [List.takeWhile_cons_of_pos (by simp [hc])]
            exact List.cons_ne_nil _ _
          have hrun : ∀ x ∈ (c :: s1).takeWhile (fun b => !isSep sep b),
              ¬ isSep sep x = true := by
            intro x hx
            have := List.mem_takeWhile_imp hx
            simpa using this
          have hafter : (c :: s1).dropWhile (fun b => !isSep sep b) = [] ∨
              ∃ a t, (c :: s1).dropWhile (fun b => !isSep sep b) = a :: t ∧
                isSep sep a = true := by
            cases hd : (c :: s1).dropWhile (fun b => !isSep sep b) with
            | nil => exact Or.inl rfl
            | cons a t =>
                refine Or.inr ⟨a, t, rfl, ?_⟩
                have := head_dropWhile_false _ _ _ _ hd
                simpa using this
          have hruns := maximalRuns_run (isSep sep) _ _ hrunne hrun hafter
          rw [hsplit] at hruns
          have hstr : maximalRuns (isSep sep) str = maximalRuns (isSep sep) (c :: s1) := by
            rw [← hs, maximalRuns_dropWhile]
          have hlen1 : (str.dropWhile (isSep sep)).length ≤ str.length :=
            (List.dropWhile_sublist _).length_le
          have hlen2 : (((c :: s1).dropWhile (fun b => !isSep sep b)).dropWhile
              (isSep sep)).length ≤ ((c :: s1).dropWhile (fun b => !isSep sep b)).length :=
            (List.dropWhile_sublist _).length_le
          have hlen3 : 0 < ((c :: s1).takeWhile (fun b => !isSep sep b)).length :=
            List.length_pos.mpr hrunne
          have hlen4 := congrArg List.length hsplit
          rw [List.length_append] at hlen4
          rw [hs] at hlen1
          have hz1 : ∀ b ∈ ((c :: s1).dropWhile (fun b => !isSep sep b)).dropWhile (isSep sep),
              b ≠ 0 := by
            intro b hb
            apply hz
            apply mem_of_mem_dropWhile (isSep sep)
            rw [hs]
            exact mem_of_mem_dropWhile _ _ _ (mem_of_mem_dropWhile _ _ _ hb)
          obtain ⟨l1, hpush, hwf1, hit1⟩ :=
            list_push_ok l ((c :: s1).takeWhile (fun b => !isSep sep b)) h
          obtain ⟨l2, hl2, hwf2, hit2⟩ := ih _ l1 hwf1 (by omega) hz1
          refine ⟨l2, ?_, hwf2, ?_⟩
          · simp only [splitLoop, next_tok_some sep str c s1 hs hz]
            rw [if_pos hlen3, hpush]
            exact hl2
          · rw [hit2, hit1, hstr, hruns, List.append_assoc, List.singleton_append]

theorem list_split_ok (sep : Option (List Nat)) (str : List Nat) (hz : ∀ b ∈ str, b ≠ 0) :
    ∃ l, list_split sep str = some l ∧ l.wf ∧
      l.items = maximalRuns (isSep (sep.getD SPACES)) str := by
  obtain ⟨l, hl, hwf, hit⟩ := splitLoop_ok (sep.getD SPACES) (str.length + 1) str list_new
    list_new_wf.1 (Nat.lt_succ_self _) hz
  exact ⟨l, hl, hwf, by rw [hit, list_new_wf.2, List.nil_append]⟩

/-- C23: for every separator string `sep`, or the separators newline, tab
and space when `sep` is NULL, and every string `str`, `list_split` returns
the list of the maximal runs of characters of `str` that are not
separators, in the order in which they appear: no entry is empty, no entry
holds a separator, and the entries put end to end are `str` without its
separators, so that leading, trailing and repeated separators give no
entry. -/
theorem list_split_maximal_runs (sep : Option (List Nat)) (str : List Nat)
    (hz : ∀ b ∈ str, b ≠ 0) :
    ∃ l, list_split sep str = some l ∧ l.wf ∧
      l.items = maximalRuns (isSep (sep.getD SPACES)) str ∧
      (∀ r ∈ l.items, r ≠ [] ∧ ∀ c ∈ r, isSep (sep.getD SPACES) c = false) ∧
      l.items.flatten = str.filter (fun c => !isSep (sep.getD SPACES) c) := by
  obtain ⟨l, hl, hwf, hit⟩ := list_split_ok sep str hz
  have hp := maximalRuns_props (isSep (sep.getD SPACES)) str
  rw [← hit] at hp
  exact ⟨l, hl, hwf, hit, hp.1, hp.2⟩

theorem list_split_maximal_runs_witness :
    ∃ l, list_split none (bytes "  ab\tcd \n e  ") = some l ∧
      l.items = [bytes "ab", bytes "cd", bytes "e"] := by
  obtain ⟨l, hl, _, hit, _⟩ := list_split_maximal_runs none (bytes "  ab\tcd \n e  ")
    (by decide)
  exact ⟨l, hl, hit.trans (by decide)⟩

theorem joinLoop_some (sep : List Nat) (xs : List (List Nat)) (acc : List Nat) :
    joinLoop sep xs (some acc) = some (acc ++ (xs.map (fun x => sep ++ x)).flatten) := by
  induction xs generalizing acc with
  | nil => simp [joinLoop]
  | cons x xs ih =>
      simp only [joinLoop, xstrcat, ne_eq, reduceCtorEq, not_false_eq_true, if_true,
        Option.getD_some, ih, List.map_cons, List.flatten_cons, List.append_assoc]

theorem joinLoop_none (sep : List Nat) (x : List Nat) (xs : List (List Nat)) :
    joinLoop sep (x :: xs) none = some (x ++ (xs.map (fun x => sep ++ x)).flatten) := by
  simp only [joinLoop, xstrcat, ne_eq, not_true_eq_false, if_false, Option.getD_none,
    List.nil_append, joinLoop_some]

theorem isSep_of_mem (sep : List Nat) (c : Nat) (h : c ∈ sep) : isSep sep c = true := by
  simpa [isSep] using h

theorem isSep_of_not_mem (sep : List Nat) (c : Nat) (h : c ∉ sep) : isSep sep c = false := by
  simpa [isSep] using h

theorem maximalRuns_join (sep : List Nat) (hsep : sep ≠ []) (x : List Nat)
    (xs : List (List Nat)) (hall : ∀ s ∈ x :: xs, s ≠ [] ∧ ∀ c ∈ s, c ∉ sep) :
    maximalRuns (isSep sep) (x ++ (xs.map (fun y => sep ++ y)).flatten) = x :: xs := by
  induction xs generalizing x with
  | nil =>
      have hx := hall x (List.mem_cons_self _ _)
      rw [List.map_nil, List.flatten_nil,
        maximalRuns_run (isSep sep) x [] hx.1
          (fun c hc => by rw [isSep_of_not_mem sep c (hx.2 c hc)]; decide) (Or.inl rfl),
        List.dropWhile_nil, maximalRuns_nil]
  | cons y ys ih =>
      have hx := hall x (List.mem_cons_self _ _)
      have hy := hall y (List.mem_cons_of_mem _ (List.mem_cons_self _ _))
      have hrest : ∀ s ∈ y :: ys, s ≠ [] ∧ ∀ c ∈ s, c ∉ sep :=
        fun s hs => hall s (List.mem_cons_of_mem _ hs)
      rw [List.map_cons, List.flatten_cons, List.append_assoc]
      have hafter : sep ++ (y ++ (ys.map (fun y => sep ++ y)).flatten) = [] ∨
          ∃ a t, sep ++ (y ++ (ys.map (fun y => sep ++ y)).flatten) = a :: t ∧
            isSep sep a = true := by
        cases hs : sep with
        | nil => exact absurd hs hsep
        | cons a t =>
            exact Or.inr ⟨a, _, List.cons_append _ _ _, isSep_of_mem _ a (List.mem_cons_self _ _)⟩
      have hdrop : (sep ++ (y ++ (ys.map (fun y => sep ++ y)).flatten)).dropWhile (isSep sep)
          = y ++ (ys.map (fun y => sep ++ y)).flatten := by
        apply dropWhile_append_stop _ _ _ (fun c hc => isSep_of_mem sep c hc)
        cases hyc : y with
        | nil => exact absurd hyc hy.1
        | cons b y1 =>
            have hb : b ∉ sep := hy.2 b (by rw [hyc]; exact List.mem_cons_self _ _)
            rw [List.cons_append, List.dropWhile_cons_of_neg
              (by rw [isSep_of_not_mem sep b hb]; decide)]
      rw [maximalRuns_run (isSep sep) x _ hx.1
          (fun c hc => by rw [isSep_of_not_mem sep c (hx.2 c hc)]; decide) hafter,
        hdrop, ih y hrest]

/-- C24: for every separator string `sep` that is not empty and every
list `l` that is not empty and holds only strings that are not empty and
hold no character of `sep`, `list_join(sep, l)` gives a string, and
`list_split` of `sep` and this string gives a list with the entries of
`l` in the same order. -/
theorem list_join_split_roundtrip (sep : List Nat) (l : list_t) (hsep : sep ≠ [])
    (hsz : ∀ c ∈ sep, c ≠ 0) (hne : l.items ≠ [])
    (hall : ∀ s ∈ l.items, s ≠ [] ∧ ∀ c ∈ s, c ∉ sep ∧ c ≠ 0) :
    ∃ j l1, list_join sep l = some j ∧ list_split (some sep) j = some l1 ∧
      l1.items = l.items := by
  cases hit : l.items with
  | nil => exact absurd hit hne
  | cons x xs =>
      rw [hit] at hall
      have hz : ∀ b ∈ x ++ (xs.map (fun y => sep ++ y)).flatten, b ≠ 0 := by
        intro b hb
        rcases List.mem_append.mp hb with hb | hb
        · exact ((hall x (List.mem_cons_self _ _)).2 b hb).2
        · obtain ⟨piece, hp, hbp⟩ := List.mem_flatten.mp hb
          obtain ⟨y, hy, rfl⟩ := List.mem_map.mp hp
          rcases List.mem_append.mp hbp with hbs | hby
          · exact hsz b hbs
          · exact ((hall y (List.mem_cons_of_mem _ hy)).2 b hby).2
      obtain ⟨l1, hl1, _, hit1⟩ := list_split_ok (some sep) _ hz
      refine ⟨_, l1, ?_, hl1, ?_⟩
      · simp only [list_join, hit, joinLoop_none]
      · rw [hit1, Option.getD_some]
        exact maximalRuns_join sep hsep x xs
          (fun s hs => ⟨(hall s hs).1, fun c hc => ((hall s hs).2 c hc).1⟩)

theorem list_join_split_roundtrip_witness :
    ∃ j l1, list_join (bytes ", ") ⟨16, 3, [bytes "a", bytes "bc", bytes "d"]
          ++ List.replicate 13 []⟩ = some j ∧
      list_split (some (bytes ", ")) j = some l1 ∧
      l1.items = [bytes "a", bytes "bc", bytes "d"] := by
  obtain ⟨j, l1, hj, hl1, hit⟩ := list_join_split_roundtrip (bytes ", ")
    ⟨16, 3, [bytes "a", bytes "bc", bytes "d"] ++ List.replicate 13 []⟩
    (by decide) (by decide) (by decide) (by decide)
  exact ⟨j, l1, hj, hl1, hit.trans (by decide)⟩

/-! ## Theorems: the phases a worker writes, to the last assignment -/

end Pdsh
